import Mathlib

/-!
# go-tinylfu: a shallow embedding of the W-TinyLFU cache

The Go sources `tinylfu.go`, `lru.go` and `s2lru.go` are embedded as pure
functions on an explicit cache state.

* A `*list.Element` is a natural number (its identity); the payload it
  points to lives in the heap `T.elems`.  A `container/list` list is the
  list of its element identities, front first.
* The shared `map[string]*list.Element` is an association list with at
  most one pair per key, so that `len(data)` is its length.
* A nil dereference (`Back()` of an empty list followed by `.Value`) makes
  the operation return `none`.
* `time.Now()` is an argument of `Get`; the zero `time.Time` is instant `0`.
* An `OnEvict func()` is the identity of a closure (`none` is `nil`);
  calling it appends that identity to the log `T.fired`.
* Items are handed to `Set` by value: the caller does not keep writing to
  an item it has given to the cache.
-/

namespace tinylfu

/-! ## Collaborators that are not part of the three source files -/

/-- Modelled from the spec: the pieces of the collaborators the sources do not
fix.  `Sum64String` is the 64-bit key hash (`xxhash.Sum64String`), `rowIndex`
the row-specific mixing of a key hash in the CM4 sketch, `filterBits` and
`filterHashes` the Bloom-filter size `m` and hash count `k` the doorkeeper
derives from the expected insertion count, and `filterIndex` its `i`-th hash
derivation. -/
structure Env where
  Sum64String : String → Nat
  rowIndex : Nat → Nat → Nat
  filterBits : Int → Nat
  filterHashes : Int → Nat
  filterIndex : Nat → Nat → Nat

/-- Modelled from the spec: `nvec`, a vector of 4-bit counters packed two per
byte (`cm4.go` is not among the sources; the packing is the one
`cm4_test.go` observes). -/
abbrev nvec := List Nat

/-- Modelled from the spec: `newNvec(w)`, room for `w` zeroed 4-bit counters. -/
def newNvec (w : Nat) : nvec := List.replicate ((w + 1) / 2) 0

/-- Modelled from the spec: `nvec.get(i)`, the `i`-th 4-bit counter. -/
def nvec.get (n : nvec) (i : Nat) : Nat :=
  ((n.getD (i / 2) 0) >>> ((i % 2) * 4)) % 16

/-- Modelled from the spec: `nvec.inc(i)`, increment saturating at 15. -/
def nvec.inc (n : nvec) (i : Nat) : nvec :=
  if nvec.get n i < 15 then
    n.set (i / 2) ((n.getD (i / 2) 0 + (1 <<< ((i % 2) * 4))) % 256)
  else n

/-- Modelled from the spec: `nvec.reset()`, every counter is shifted right by one. -/
def nvec.reset (n : nvec) : nvec := n.map (fun b => (b >>> 1) &&& 0x77)

/-- Modelled from the spec: doubling search for the least power of two that is
at least `n`. -/
def nextPowerOfTwoAux (n : Nat) : Nat → Nat → Nat
  | 0, p => p
  | fuel + 1, p => if n ≤ p then p else nextPowerOfTwoAux n fuel (2 * p)

/-- Modelled from the spec: the smallest power of two `≥ n`, at least 1. -/
def nextPowerOfTwo (n : Nat) : Nat := nextPowerOfTwoAux n n 1

/-- Modelled from the spec: the CM4 sketch, `depth = 4` rows of `mask + 1`
counters. -/
structure cm4 where
  s : List nvec
  mask : Nat

/-- Modelled from the spec: number of rows of the sketch. -/
def depth : Nat := 4

/-- Modelled from the spec: `newCM4(w)`, width the next power of two `≥ w`. -/
def newCM4 (w : Int) : cm4 :=
  let w32 := nextPowerOfTwo w.toNat
  { s := List.replicate depth (newNvec w32), mask := w32 - 1 }

/-- Modelled from the spec: column of key hash `keyh` in row `i`. -/
def cm4.pos (env : Env) (c : cm4) (i keyh : Nat) : Nat :=
  env.rowIndex i keyh % (c.mask + 1)

/-- Modelled from the spec: `cm4.add`, one saturating increment per row. -/
def cm4.add (env : Env) (c : cm4) (keyh : Nat) : cm4 :=
  { c with s := c.s.zipWith (fun row i => nvec.inc row (cm4.pos env c i keyh)) (List.range depth) }

/-- Modelled from the spec: `cm4.estimate`, the minimum of the four counters. -/
def cm4.estimate (env : Env) (c : cm4) (keyh : Nat) : Nat :=
  (c.s.zipWith (fun row i => nvec.get row (cm4.pos env c i keyh)) (List.range depth)).foldl min 255

/-- Modelled from the spec: `cm4.reset`, every row is halved. -/
def cm4.reset (c : cm4) : cm4 := { c with s := c.s.map nvec.reset }

/-- Modelled from the spec: the doorkeeper, a bit array and `k` hash
derivations. -/
structure doorkeeper where
  bits : List Bool
  k : Nat

/-- Modelled from the spec: `newDoorkeeper(samples, 0.01)`. -/
def newDoorkeeper (env : Env) (samples : Int) : doorkeeper :=
  { bits := List.replicate (env.filterBits samples) false, k := env.filterHashes samples }

/-- Modelled from the spec: the `k` bit positions of a key hash. -/
def doorkeeper.positions (env : Env) (d : doorkeeper) (keyh : Nat) : List Nat :=
  (List.range d.k).map (fun i => env.filterIndex i keyh % d.bits.length)

/-- Modelled from the spec: `doorkeeper.allow`: when some bit of the key hash
is unset, set all of them and answer `false`; when all are set answer `true`. -/
def doorkeeper.allow (env : Env) (d : doorkeeper) (keyh : Nat) : doorkeeper × Bool :=
  let ps := doorkeeper.positions env d keyh
  if ps.all (fun p => d.bits.getD p false) then (d, true)
  else ({ d with bits := ps.foldl (fun b p => b.set p true) d.bits }, false)

/-- Modelled from the spec: `doorkeeper.reset`, all bits cleared. -/
def doorkeeper.reset (d : doorkeeper) : doorkeeper :=
  { d with bits := List.replicate d.bits.length false }

/-! ## `container/list` and the shared map -/

/-- The shared `map[string]*list.Element`. -/
abbrev GoMap := List (String × Nat)

/-- Map lookup `m[k]`. -/
def GoMap.get : GoMap → String → Option Nat
  | [], _ => none
  | (k', v) :: r, k => if k' = k then some v else GoMap.get r k

/-- Builtin `delete(m, k)`. -/
def GoMap.delete : GoMap → String → GoMap
  | [], _ => []
  | (k', v) :: r, k => if k' = k then GoMap.delete r k else (k', v) :: GoMap.delete r k

/-- Map store `m[k] = v`. -/
def GoMap.set (m : GoMap) (k : String) (v : Nat) : GoMap := (k, v) :: GoMap.delete m k

/-- The method `(*List).MoveToFront(e)`: nothing happens when `e` is not an element of the list. -/
def list.MoveToFront (l : List Nat) (e : Nat) : List Nat :=
  if e ∈ l then e :: l.erase e else l

/-- The method `(*List).Remove(e)`: nothing happens when `e` is not an element of the list. -/
def list.Remove (l : List Nat) (e : Nat) : List Nat := l.erase e

/-- The method `(*List).Back()`, `none` for `nil`. -/
def list.Back (l : List Nat) : Option Nat := l.getLast?

/-! ## `tinylfu.go`: items and the cache state -/

/-- The struct `Item[V]`. -/
structure Item (V : Type) where
  Key : String
  Value : V
  ExpireAt : Nat
  OnEvict : Option Nat
  listid : Nat
  keyh : Nat

/-- The constructor `NewItem`. -/
def NewItem {V : Type} (key : String) (value : V) : Item V :=
  { Key := key, Value := value, ExpireAt := 0, OnEvict := none, listid := 0, keyh := 0 }

/-- The constructor `NewItemExpire`. -/
def NewItemExpire {V : Type} (key : String) (value : V) (expireAt : Nat) : Item V :=
  { Key := key, Value := value, ExpireAt := expireAt, OnEvict := none, listid := 0, keyh := 0 }

/-- The builder `Item.WithOnEvict`. -/
def Item.WithOnEvict {V : Type} (self : Item V) (fn : Option Nat) : Item V :=
  { self with OnEvict := fn }

/-- The method `Item.expired`: `!ExpireAt.IsZero() && time.Now().After(ExpireAt)`. -/
def Item.expired {V : Type} (self : Item V) (now : Nat) : Bool :=
  !(self.ExpireAt == 0) && decide (self.ExpireAt < now)

/-- The struct `lruCache` (its `data` is the shared map of `T`). -/
structure lruCache where
  cap : Int
  ll : List Nat

/-- The struct `slruCache` (its `data` is the shared map of `T`). -/
structure slruCache where
  onecap : Int
  twocap : Int
  one : List Nat
  two : List Nat

/-- The struct `T[V]`, with the heap of list elements (`elems`, `fresh` the
next unused element identity) and the log of `OnEvict` calls (`fired`). -/
structure T (V : Type) where
  w : Int
  samples : Int
  countSketch : cm4
  bouncer : doorkeeper
  data : GoMap
  lru : lruCache
  slru : slruCache
  elems : Nat → Option (Item V)
  fresh : Nat
  fired : List Nat

/-- Write through an element: `*e.Value = item`. -/
def store {V : Type} (h : Nat → Option (Item V)) (e : Nat) (item : Item V) :
    Nat → Option (Item V) :=
  fun i => if i = e then some item else h i

/-- Go `int` arithmetic: the result of `x` wrapped to 64 bits, two's complement. -/
def wrapInt (x : Int) : Int := (x + 2 ^ 63) % 2 ^ 64 - 2 ^ 63

/-- The constructor `newLRU`. -/
def newLRU (capacity : Int) : lruCache := { cap := capacity, ll := [] }

/-- The constructor `newSLRU`. -/
def newSLRU (onecap twocap : Int) : slruCache :=
  { onecap := onecap, one := [], twocap := twocap, two := [] }

/-- Go `int` subtraction `a - b` of a positive `b` from an `int` `a`: the result cannot
exceed `2^63 - 1`, and a result below `-2^63` wraps around to `a - b + 2^64` (two's
complement, as `wrapInt`). -/
def subInt (a b : Int) : Int := if a - b < -2 ^ 63 then a - b + 2 ^ 64 else a - b

/-- The constructor `New`; `size - lruSize` is Go `int` arithmetic (`lruSize ≥ 1`), the other
operations cannot leave the range of `int`. -/
def New {V : Type} (env : Env) (size samples : Int) : T V :=
  let lruSize := max 1 ((1 * size).tdiv 100)
  let slruSize := max 1 (subInt size lruSize)
  let slru20 := max 1 (slruSize.tdiv 5)
  { w := 0
    samples := samples
    countSketch := newCM4 size
    bouncer := newDoorkeeper env samples
    data := []
    lru := newLRU lruSize
    slru := newSLRU slru20 (slruSize - slru20)
    elems := fun _ => none
    fresh := 0
    fired := [] }

/-- The method `T.onEvict`. -/
def T.onEvict {V : Type} (t : T V) (item : Item V) : T V :=
  match item.OnEvict with
  | none => t
  | some fn => { t with fired := t.fired ++ [fn] }

/-! ## `lru.go` -/

/-- The method `lruCache.get`. -/
def lruCache.get {V : Type} (t : T V) (v : Nat) : T V :=
  { t with lru := { t.lru with ll := list.MoveToFront t.lru.ll v } }

/-- The method `lruCache.add`; the result carries `(oldItem, evicted)` as an option. -/
def lruCache.add {V : Type} (t : T V) (newItem : Item V) : Option (T V × Option (Item V)) :=
  if (t.lru.ll.length : Int) < t.lru.cap then
    some ({ t with
            elems := store t.elems t.fresh newItem
            fresh := t.fresh + 1
            lru := { t.lru with ll := t.fresh :: t.lru.ll }
            data := GoMap.set t.data newItem.Key t.fresh }, none)
  else
    match list.Back t.lru.ll with
    | none => none
    | some val =>
      match t.elems val with
      | none => none
      | some item =>
        some ({ t with
                elems := store t.elems val newItem
                data := GoMap.set (GoMap.delete t.data item.Key) newItem.Key val
                lru := { t.lru with ll := list.MoveToFront t.lru.ll val } }, some item)

/-- The method `lruCache.Len`. -/
def lruCache.Len {V : Type} (t : T V) : Int := t.data.length

/-- The method `lruCache.Remove`. -/
def lruCache.Remove {V : Type} (t : T V) (v : Nat) : T V :=
  { t with lru := { t.lru with ll := list.Remove t.lru.ll v } }

/-! ## `s2lru.go` -/

/-- The method `slruCache.Len`. -/
def slruCache.Len {V : Type} (t : T V) : Int :=
  (t.slru.one.length : Int) + (t.slru.two.length : Int)

/-- The method `slruCache.get`. -/
def slruCache.get {V : Type} (t : T V) (v : Nat) : Option (T V) :=
  match t.elems v with
  | none => none
  | some item =>
    if item.listid = 2 then
      some { t with slru := { t.slru with two := list.MoveToFront t.slru.two v } }
    else if (t.slru.two.length : Int) < t.slru.twocap then
      some { t with
             elems := store (store t.elems v { item with listid := 2 }) t.fresh
                        { item with listid := 2 }
             fresh := t.fresh + 1
             slru := { t.slru with one := list.Remove t.slru.one v, two := t.fresh :: t.slru.two }
             data := GoMap.set t.data item.Key t.fresh }
    else
      match list.Back t.slru.two with
      | none => none
      | some back =>
        match t.elems back with
        | none => none
        | some bitem =>
          some { t with
                 elems := store (store t.elems back { item with listid := 2 }) v
                            { bitem with listid := 1 }
                 data := GoMap.set (GoMap.set t.data bitem.Key v) item.Key back
                 slru := { t.slru with
                           one := list.MoveToFront t.slru.one v
                           two := list.MoveToFront t.slru.two back } }

/-- The method `slruCache.add`. -/
def slruCache.add {V : Type} (t : T V) (newItem : Item V) : Option (T V) :=
  if (t.slru.one.length : Int) < t.slru.onecap
      ∨ slruCache.Len t < t.slru.onecap + t.slru.twocap then
    some { t with
           elems := store t.elems t.fresh { newItem with listid := 1 }
           fresh := t.fresh + 1
           slru := { t.slru with one := t.fresh :: t.slru.one }
           data := GoMap.set t.data newItem.Key t.fresh }
  else
    match list.Back t.slru.one with
    | none => none
    | some e =>
      match t.elems e with
      | none => none
      | some item =>
        some { t with
               elems := store t.elems e { newItem with listid := 1 }
               data := GoMap.set (GoMap.delete t.data item.Key) newItem.Key e
               slru := { t.slru with one := list.MoveToFront t.slru.one e } }

/-- The method `slruCache.victim`: `none` is a nil dereference, `some none` the
result `nil`. -/
def slruCache.victim {V : Type} (t : T V) : Option (Option (Item V)) :=
  if slruCache.Len t < t.slru.onecap + t.slru.twocap then some none
  else
    match list.Back t.slru.one with
    | none => none
    | some v =>
      match t.elems v with
      | none => none
      | some item => some (some item)

/-- The method `slruCache.Remove`. -/
def slruCache.Remove {V : Type} (t : T V) (v : Nat) : Option (T V) :=
  match t.elems v with
  | none => none
  | some item =>
    if item.listid = 2 then
      some { t with slru := { t.slru with two := list.Remove t.slru.two v } }
    else
      some { t with slru := { t.slru with one := list.Remove t.slru.one v } }

/-! ## `tinylfu.go`: the operations -/

/-- The method `T.del`. -/
def T.del {V : Type} (t : T V) (val : Nat) : Option (T V) :=
  match t.elems val with
  | none => none
  | some item =>
    let t1 := { t with data := GoMap.delete t.data item.Key }
    if item.listid = 0 then
      some (T.onEvict (lruCache.Remove t1 val) item)
    else
      (slruCache.Remove t1 val).map (fun t2 => T.onEvict t2 item)

/-- The method `T.Get`; the result `(value, exists)` is `some value` when
`exists` is true and `none` otherwise. -/
def T.Get {V : Type} (env : Env) (t : T V) (key : String) (now : Nat) :
    Option (T V × Option V) :=
  let w := wrapInt (t.w + 1)
  let t1 : T V :=
    if w = t.samples then
      { t with countSketch := cm4.reset t.countSketch
               bouncer := doorkeeper.reset t.bouncer
               w := 0 }
    else { t with w := w }
  let keyh := env.Sum64String key
  let t2 : T V := { t1 with countSketch := cm4.add env t1.countSketch keyh }
  match GoMap.get t2.data key with
  | none => some (t2, none)
  | some val =>
    match t2.elems val with
    | none => none
    | some item =>
      if item.expired now then
        (T.del t2 val).map (fun t3 => (t3, none))
      else if item.listid = 0 then
        some (lruCache.get t2 val, some item.Value)
      else
        (slruCache.get t2 val).map (fun t3 => (t3, some item.Value))

/-- The method `T.Set`. -/
def T.Set {V : Type} (env : Env) (t : T V) (newItem : Item V) : Option (T V) :=
  match GoMap.get t.data newItem.Key with
  | some e =>
    match t.elems e with
    | none => none
    | some item =>
      let t1 : T V :=
        { t with elems := store t.elems e { item with Value := newItem.Value }
                 countSketch := cm4.add env t.countSketch item.keyh }
      if item.listid = 0 then some (lruCache.get t1 e) else slruCache.get t1 e
  | none =>
    let newItem := { newItem with keyh := env.Sum64String newItem.Key }
    match lruCache.add t newItem with
    | none => none
    | some (t1, none) => some t1
    | some (t1, some oldItem) =>
      match slruCache.victim t1 with
      | none => none
      | some none => slruCache.add t1 oldItem
      | some (some victim) =>
        let (bouncer, ok) := doorkeeper.allow env t1.bouncer oldItem.keyh
        let t2 : T V := { t1 with bouncer := bouncer }
        if ok = false then
          some (T.onEvict t2 oldItem)
        else
          let victimCount := cm4.estimate env t2.countSketch victim.keyh
          let itemCount := cm4.estimate env t2.countSketch oldItem.keyh
          if itemCount > victimCount then slruCache.add t2 oldItem
          else some (T.onEvict t2 oldItem)

/-- The method `T.Del`. -/
def T.Del {V : Type} (t : T V) (key : String) : Option (T V) :=
  match GoMap.get t.data key with
  | some val => T.del t val
  | none => some t

/-! ## Sequences of operations -/

/-- One call of the public interface.  A `Set` hands over a freshly built item:
key, value, expiry instant (`0` for none) and `OnEvict` closure. -/
inductive Op (V : Type) where
  | Set (key : String) (value : V) (expireAt : Nat) (onEvict : Option Nat)
  | Get (key : String) (now : Nat)
  | Del (key : String)

/-- The item a `Set` call hands to the cache. -/
def Op.item {V : Type} (key : String) (value : V) (expireAt : Nat) (onEvict : Option Nat) :
    Item V :=
  (NewItemExpire key value expireAt).WithOnEvict onEvict

/-- Run one call; `none` when it does not complete. -/
def step {V : Type} (env : Env) (t : T V) : Op V → Option (T V)
  | Op.Set key value expireAt onEvict => T.Set env t (Op.item key value expireAt onEvict)
  | Op.Get key now => (T.Get env t key now).map Prod.fst
  | Op.Del key => T.Del t key

/-- Run a sequence of calls from a state; `none` when one of them does not complete. -/
def run {V : Type} (env : Env) (t : T V) : List (Op V) → Option (T V)
  | [] => some t
  | op :: ops => (step env t op).bind (fun t1 => run env t1 ops)

/-- The key a call is about. -/
def Op.key {V : Type} : Op V → String
  | Op.Set key _ _ _ => key
  | Op.Get key _ => key
  | Op.Del key => key

/-- What happens to a key, seen from outside: a `Set` of the key with a value,
a `Del` of the key, or the purge of the expired item of the key by a `Get`. -/
inductive Event (V : Type) where
  | set (key : String) (value : V)
  | del (key : String)
  | purge (key : String)

/-- The key of an event. -/
def Event.key {V : Type} : Event V → String
  | Event.set key _ => key
  | Event.del key => key
  | Event.purge key => key

/-- The events of one call in a state: a `Get` purges exactly when the key is in
the map and its item is expired (`tinylfu.go`, lines 101-103). -/
def observe {V : Type} (t : T V) : Op V → List (Event V)
  | Op.Set key value _ _ => [Event.set key value]
  | Op.Get key now =>
    match (GoMap.get t.data key).bind t.elems with
    | some item => if item.expired now then [Event.purge key] else []
    | none => []
  | Op.Del key => [Event.del key]

/-- The events of a sequence of calls, the most recent first. -/
def history {V : Type} (env : Env) (t : T V) : List (Op V) → List (Event V)
  | [] => []
  | op :: ops =>
    match step env t op with
    | none => []
    | some t1 => history env t1 ops ++ observe t op

/-- The value the most recent event of a key leaves for it (events are listed the
most recent first): the value of a `Set`, nothing after a `Del` or a purge. -/
def lastValue {V : Type} : List (Event V) → String → Option V
  | [], _ => none
  | Event.set key value :: older, k => if key = k then some value else lastValue older k
  | Event.del key :: older, k => if key = k then none else lastValue older k
  | Event.purge key :: older, k => if key = k then none else lastValue older k

/-- A concrete choice of the collaborators, used to evaluate the model on
examples: the hash of a key is its length, row `i` of the sketch looks at
`keyh + i`, and the doorkeeper has 16 bits and the two derivations `keyh` and
`keyh + 5`. -/
def sampleEnv : Env :=
  { Sum64String := fun s => s.length
    rowIndex := fun i keyh => keyh + i
    filterBits := fun _ => 16
    filterHashes := fun _ => 2
    filterIndex := fun i keyh => keyh + 5 * i }

/-! ## The representation invariant and the resident view -/

/-- The resident item of a key: `t.data[key]` followed by `.Value`. -/
def T.find {V : Type} (t : T V) (k : String) : Option (Item V) :=
  (GoMap.get t.data k).bind t.elems

/-- The representation invariant on the parts of a state: the shared map
`data`, the heap `elems`, the next unused identity `fresh` and three lists
`a`, `b`, `c` of element identities whose items carry the tags `ta`, `tb`,
`tc`.  The lists have no element in common, each key of the map points to a
listed element that holds an item with that key, each listed element is the
map entry of its item, and the map has as many keys as there are listed
elements. -/
structure Rep {V : Type} (data : GoMap) (elems : Nat → Option (Item V)) (fresh : Nat)
    (a : List Nat) (ta : Nat) (b : List Nat) (tb : Nat) (c : List Nat) (tc : Nat) : Prop where
  nodupA : a.Nodup
  nodupB : b.Nodup
  nodupC : c.Nodup
  disjAB : ∀ e, e ∈ a → e ∉ b
  disjAC : ∀ e, e ∈ a → e ∉ c
  disjBC : ∀ e, e ∈ b → e ∉ c
  keys : (data.map Prod.fst).Nodup
  mapped : ∀ k e, GoMap.get data k = some e →
    (e ∈ a ∨ e ∈ b ∨ e ∈ c) ∧ ∃ item, elems e = some item ∧ item.Key = k
  owned : ∀ e, (e ∈ a ∨ e ∈ b ∨ e ∈ c) →
    ∃ item, elems e = some item ∧ GoMap.get data item.Key = some e
  tagA : ∀ e item, e ∈ a → elems e = some item → item.listid = ta
  tagB : ∀ e item, e ∈ b → elems e = some item → item.listid = tb
  tagC : ∀ e item, e ∈ c → elems e = some item → item.listid = tc
  size : data.length = a.length + b.length + c.length
  below : ∀ e, (e ∈ a ∨ e ∈ b ∨ e ∈ c) → e < fresh

/-- The invariant of the cache state: the representation invariant for the
W-LRU list (tag 0), the probation list (tag 1) and the protected list (tag 2),
and the capacity bounds. -/
structure Inv {V : Type} (t : T V) : Prop where
  rep : Rep t.data t.elems t.fresh t.lru.ll 0 t.slru.one 1 t.slru.two 2
  capLru : 1 ≤ t.lru.cap
  capOne : 1 ≤ t.slru.onecap
  capTwo : 0 ≤ t.slru.twocap
  lenLru : (t.lru.ll.length : Int) ≤ t.lru.cap
  lenTwo : (t.slru.two.length : Int) ≤ t.slru.twocap
  lenAll : slruCache.Len t ≤ t.slru.onecap + t.slru.twocap

/-- The fields of a state other than the map, the heap and the lists. -/
structure Book where
  w : Int
  samples : Int
  countSketch : cm4
  bouncer : doorkeeper
  fired : List Nat
  cap : Int
  onecap : Int
  twocap : Int

/-- The bookkeeping fields of a state. -/
def T.book {V : Type} (t : T V) : Book :=
  { w := t.w, samples := t.samples, countSketch := t.countSketch, bouncer := t.bouncer,
    fired := t.fired, cap := t.lru.cap, onecap := t.slru.onecap, twocap := t.slru.twocap }

/-- An item with its list tag cleared. -/
def Item.untag {V : Type} (item : Item V) : Item V := { item with listid := 0 }

/-- The resident item of a key, up to the list that holds it. -/
def T.view {V : Type} (t : T V) (k : String) : Option (Item V) := (t.find k).map Item.untag

/-- The three capacities of a state: W-LRU, probation, protected. -/
def T.caps {V : Type} (t : T V) : Int × Int × Int :=
  (t.lru.cap, t.slru.onecap, t.slru.twocap)

/-- What one completed call does, in terms of the resident items (up to their
list tags) and of the callback log: the invariant and the capacities are kept;
a key other than the key of the call keeps its item or stops being resident;
the key of the call gets the item the call determines; and the log grows by at
most one callback, that of an item that was resident and no longer is. -/
structure Step {V : Type} (env : Env) (t : T V) (op : Op V) (t' : T V) : Prop where
  inv : Inv t'
  caps : t'.caps = t.caps
  frame : ∀ k, k ≠ op.key → t'.view k = t.view k ∨ (t'.view k = none ∧
    ∃ key value ex cb, op = Op.Set key value ex cb ∧ t.view key = none)
  setNew : ∀ key value ex cb, op = Op.Set key value ex cb → t.view key = none →
    t'.view key = some { Op.item key value ex cb with keyh := env.Sum64String key }
  setOld : ∀ key value ex cb item, op = Op.Set key value ex cb → t.view key = some item →
    t'.view key = some { item with Value := value }
  get : ∀ key now, op = Op.Get key now →
    t'.view key = (t.view key).bind (fun item => if item.expired now then none else some item)
  del : ∀ key, op = Op.Del key → t'.view key = none
  fired : t'.fired = t.fired ∨ ∃ k item cb, t.view k = some item ∧ t'.view k = none ∧
    item.OnEvict = some cb ∧ t'.fired = t.fired ++ [cb]

/-- The `OnEvict` closures that the `Set` calls of a sequence hand to the cache. -/
def handed {V : Type} : List (Op V) → List Nat
  | [] => []
  | Op.Set _ _ _ (some cb) :: ops => cb :: handed ops
  | Op.Set _ _ _ none :: ops => handed ops
  | Op.Get _ _ :: ops => handed ops
  | Op.Del _ :: ops => handed ops

/-- The callbacks of a state with respect to the closures `past` handed over so
far: two resident keys never hold the same closure, the closure of a resident
item has not been called, no closure has been called twice, and every closure
held or called has been handed over. -/
structure Once {V : Type} (t : T V) (past : List Nat) : Prop where
  apart : ∀ k1 k2 i1 i2 c, t.view k1 = some i1 → t.view k2 = some i2 →
    i1.OnEvict = some c → i2.OnEvict = some c → k1 = k2
  pending : ∀ k i c, t.view k = some i → i.OnEvict = some c → c ∉ t.fired
  nodup : t.fired.Nodup
  held : ∀ k i c, t.view k = some i → i.OnEvict = some c → c ∈ past
  called : ∀ c, c ∈ t.fired → c ∈ past

/-- The list a list tag names: 0 the W-LRU, 1 probation, 2 protected. -/
def T.listOf {V : Type} (t : T V) : Nat → List Nat
  | 0 => t.lru.ll
  | 1 => t.slru.one
  | 2 => t.slru.two
  | _ => []

/-- The item of key `k` is at the head of the list its `listid` names: the map entry of
`k` is the front element of that list. -/
def T.atHead {V : Type} (t : T V) (k : String) : Bool :=
  match GoMap.get t.data k with
  | none => false
  | some e =>
    match t.elems e with
    | none => false
    | some item => (t.listOf item.listid).head? == some e

/-- The number of `Get` calls in a sequence of calls. -/
def gets {V : Type} : List (Op V) → Nat
  | [] => 0
  | Op.Get _ _ :: ops => gets ops + 1
  | Op.Set _ _ _ _ :: ops => gets ops
  | Op.Del _ :: ops => gets ops

/-- The sampling fields of a state: the counter `w`, the epoch length `samples`, the sketch
and the doorkeeper. -/
def T.sampling {V : Type} (t : T V) : Int × Int × cm4 × doorkeeper :=
  (t.w, t.samples, t.countSketch, t.bouncer)

/-! ## Lemmas on the map and on the lists -/

theorem GoMap.get_delete (m : GoMap) (k k' : String) :
    GoMap.get (GoMap.delete m k) k' = if k = k' then none else GoMap.get m k' := by
  induction m with
  | nil => simp [GoMap.delete, GoMap.get]
  | cons p r ih =>
    obtain ⟨a, b⟩ := p
    by_cases h : a = k
    · subst h
      by_cases h2 : a = k'
      · simp [GoMap.delete, GoMap.get, h2] at ih ⊢
        simpa [h2] using ih
      · simp [GoMap.delete, GoMap.get, h2] at ih ⊢
        simpa [h2] using ih
    · by_cases h2 : k = k'
      · subst h2
        simp [GoMap.delete, GoMap.get, h] at ih ⊢
        exact ih
      · simp [GoMap.delete, GoMap.get, h, h2] at ih ⊢
        rw [ih]

theorem GoMap.get_set (m : GoMap) (k k' : String) (v : Nat) :
    GoMap.get (GoMap.set m k v) k' = if k = k' then some v else GoMap.get m k' := by
  unfold GoMap.set
  by_cases h : k = k'
  · simp [GoMap.get, h]
  · simp [GoMap.get, h, GoMap.get_delete]

theorem GoMap.get_none_iff (m : GoMap) (k : String) :
    GoMap.get m k = none ↔ k ∉ m.map Prod.fst := by
  induction m with
  | nil => simp [GoMap.get]
  | cons p r ih =>
    obtain ⟨a, b⟩ := p
    by_cases h : a = k
    · simp [GoMap.get, h]
    · have h' : ¬ k = a := fun e => h e.symm
      simp only [GoMap.get, h, if_false, ih, List.map_cons, List.mem_cons, h', false_or]

theorem GoMap.delete_of_get_none (m : GoMap) (k : String) (h : GoMap.get m k = none) :
    GoMap.delete m k = m := by
  induction m with
  | nil => rfl
  | cons p r ih =>
    obtain ⟨a, b⟩ := p
    by_cases hk : a = k
    · simp [GoMap.get, hk] at h
    · simp only [GoMap.get, hk, if_false] at h
      simp [GoMap.delete, hk, ih h]

theorem GoMap.keys_delete (m : GoMap) (k : String) (x : String) :
    x ∈ (GoMap.delete m k).map Prod.fst ↔ x ∈ m.map Prod.fst ∧ x ≠ k := by
  rw [← not_iff_not, ← GoMap.get_none_iff, GoMap.get_delete]
  by_cases h : k = x
  · simp [h]
  · have h' : ¬ x = k := fun e => h e.symm
    simp [h, h', GoMap.get_none_iff]

theorem GoMap.nodup_delete (m : GoMap) (k : String) (h : (m.map Prod.fst).Nodup) :
    ((GoMap.delete m k).map Prod.fst).Nodup := by
  induction m with
  | nil => simp [GoMap.delete]
  | cons p r ih =>
    obtain ⟨a, b⟩ := p
    simp only [List.map_cons, List.nodup_cons] at h
    by_cases hk : a = k
    · simp only [GoMap.delete, hk, if_true]
      exact ih h.2
    · simp only [GoMap.delete, hk, if_false, List.map_cons, List.nodup_cons]
      exact ⟨fun hm => h.1 ((GoMap.keys_delete r k a).1 hm).1, ih h.2⟩

theorem GoMap.nodup_set (m : GoMap) (k : String) (v : Nat) (h : (m.map Prod.fst).Nodup) :
    ((GoMap.set m k v).map Prod.fst).Nodup := by
  unfold GoMap.set
  simp only [List.map_cons, List.nodup_cons]
  refine ⟨?_, GoMap.nodup_delete m k h⟩
  intro hm
  exact ((GoMap.keys_delete m k k).1 hm).2 rfl

theorem GoMap.length_delete (m : GoMap) (k : String) (e : Nat)
    (h : (m.map Prod.fst).Nodup) (hg : GoMap.get m k = some e) :
    (GoMap.delete m k).length + 1 = m.length := by
  induction m with
  | nil => simp [GoMap.get] at hg
  | cons p r ih =>
    obtain ⟨a, b⟩ := p
    simp only [List.map_cons, List.nodup_cons] at h
    by_cases hk : a = k
    · subst hk
      have : GoMap.get r a = none := (GoMap.get_none_iff r a).2 h.1
      simp [GoMap.delete, GoMap.delete_of_get_none r a this]
    · have hg' : GoMap.get r k = some e := by simpa [GoMap.get, hk] using hg
      have := ih h.2 hg'
      simp [GoMap.delete, hk, this]

theorem GoMap.length_set_new (m : GoMap) (k : String) (v : Nat)
    (hg : GoMap.get m k = none) : (GoMap.set m k v).length = m.length + 1 := by
  simp [GoMap.set, GoMap.delete_of_get_none m k hg]

theorem GoMap.length_set_old (m : GoMap) (k : String) (v e : Nat)
    (h : (m.map Prod.fst).Nodup) (hg : GoMap.get m k = some e) :
    (GoMap.set m k v).length = m.length := by
  simp [GoMap.set, GoMap.length_delete m k e h hg]

theorem list.mem_MoveToFront (l : List Nat) (e x : Nat) :
    x ∈ list.MoveToFront l e ↔ x ∈ l := by
  unfold list.MoveToFront
  split
  · rename_i h
    simp only [List.mem_cons]
    constructor
    · rintro (rfl | h')
      · exact h
      · exact List.mem_of_mem_erase h'
    · intro hx
      by_cases hxe : x = e
      · exact Or.inl hxe
      · exact Or.inr ((List.mem_erase_of_ne hxe).2 hx)
  · rfl

theorem list.nodup_MoveToFront (l : List Nat) (e : Nat) (h : l.Nodup) :
    (list.MoveToFront l e).Nodup := by
  unfold list.MoveToFront
  split
  · exact List.nodup_cons.2 ⟨fun hm => (List.Nodup.mem_erase_iff h).1 hm |>.1 rfl, h.erase e⟩
  · exact h

theorem list.length_MoveToFront (l : List Nat) (e : Nat) :
    (list.MoveToFront l e).length = l.length := by
  unfold list.MoveToFront
  split
  · rename_i h
    have := List.length_pos_of_mem h
    simp [List.length_erase_of_mem h]
    omega
  · rfl

theorem list.mem_Remove (l : List Nat) (e x : Nat) (h : l.Nodup) :
    x ∈ list.Remove l e ↔ x ≠ e ∧ x ∈ l := by
  unfold list.Remove
  exact List.Nodup.mem_erase_iff h

theorem list.length_Remove (l : List Nat) (e : Nat) (h : e ∈ l) :
    (list.Remove l e).length + 1 = l.length := by
  unfold list.Remove
  have := List.length_pos_of_mem h
  rw [List.length_erase_of_mem h]
  omega

theorem list.Back_mem (l : List Nat) (e : Nat) (h : list.Back l = some e) : e ∈ l := by
  unfold list.Back at h
  exact List.mem_of_getLast?_eq_some h

theorem list.Back_isSome (l : List Nat) (h : l ≠ []) : ∃ e, list.Back l = some e := by
  unfold list.Back
  exact ⟨l.getLast h, List.getLast?_eq_getLast l h⟩

/-! ## The representation invariant under the list and map primitives -/

theorem store_same {V : Type} (h : Nat → Option (Item V)) (e : Nat) (x : Item V) :
    store h e x e = some x := by
  simp [store]

theorem store_ne {V : Type} (h : Nat → Option (Item V)) (e e' : Nat) (x : Item V)
    (hne : e' ≠ e) : store h e x e' = h e' := by
  simp [store, hne]

theorem Rep.swapAB {V : Type} {d : GoMap} {el : Nat → Option (Item V)} {f : Nat}
    {a b c : List Nat} {ta tb tc : Nat} (h : Rep d el f a ta b tb c tc) :
    Rep d el f b tb a ta c tc where
  nodupA := h.nodupB
  nodupB := h.nodupA
  nodupC := h.nodupC
  disjAB := fun e hb ha => h.disjAB e ha hb
  disjAC := h.disjBC
  disjBC := h.disjAC
  keys := h.keys
  mapped := fun k e hg => by
    obtain ⟨h1, h2⟩ := h.mapped k e hg
    exact ⟨by tauto, h2⟩
  owned := fun e he => h.owned e (by tauto)
  tagA := h.tagB
  tagB := h.tagA
  tagC := h.tagC
  size := by
    have := h.size
    omega
  below := fun e he => h.below e (by tauto)

theorem Rep.swapBC {V : Type} {d : GoMap} {el : Nat → Option (Item V)} {f : Nat}
    {a b c : List Nat} {ta tb tc : Nat} (h : Rep d el f a ta b tb c tc) :
    Rep d el f a ta c tc b tb where
  nodupA := h.nodupA
  nodupB := h.nodupC
  nodupC := h.nodupB
  disjAB := h.disjAC
  disjAC := h.disjAB
  disjBC := fun e hc hb => h.disjBC e hb hc
  keys := h.keys
  mapped := fun k e hg => by
    obtain ⟨h1, h2⟩ := h.mapped k e hg
    exact ⟨by tauto, h2⟩
  owned := fun e he => h.owned e (by tauto)
  tagA := h.tagA
  tagB := h.tagC
  tagC := h.tagB
  size := by
    have := h.size
    omega
  below := fun e he => h.below e (by tauto)

/-- Two listed elements that hold items with the same key are the same element. -/
theorem Rep.key_inj {V : Type} {d : GoMap} {el : Nat → Option (Item V)} {f : Nat}
    {a b c : List Nat} {ta tb tc : Nat} (h : Rep d el f a ta b tb c tc) {e e' : Nat}
    {x x' : Item V} (he : e ∈ a ∨ e ∈ b ∨ e ∈ c) (he' : e' ∈ a ∨ e' ∈ b ∨ e' ∈ c)
    (hx : el e = some x) (hx' : el e' = some x') (hk : x.Key = x'.Key) : e = e' := by
  obtain ⟨y, hy, hgy⟩ := h.owned e he
  obtain ⟨y', hy', hgy'⟩ := h.owned e' he'
  rw [hx] at hy
  rw [hx'] at hy'
  cases hy
  cases hy'
  rw [hk] at hgy
  rw [hgy] at hgy'
  exact Option.some.inj hgy'

theorem Rep.move {V : Type} {d : GoMap} {el : Nat → Option (Item V)} {f : Nat}
    {a b c : List Nat} {ta tb tc : Nat} (h : Rep d el f a ta b tb c tc) (e : Nat) :
    Rep d el f (list.MoveToFront a e) ta b tb c tc where
  nodupA := list.nodup_MoveToFront _ _ h.nodupA
  nodupB := h.nodupB
  nodupC := h.nodupC
  disjAB := fun x hx => h.disjAB x ((list.mem_MoveToFront _ _ _).1 hx)
  disjAC := fun x hx => h.disjAC x ((list.mem_MoveToFront _ _ _).1 hx)
  disjBC := h.disjBC
  keys := h.keys
  mapped := fun k x hg => by
    obtain ⟨h1, h2⟩ := h.mapped k x hg
    rw [list.mem_MoveToFront]
    exact ⟨h1, h2⟩
  owned := fun x hx => by
    rw [list.mem_MoveToFront] at hx
    exact h.owned x hx
  tagA := fun x item hx => h.tagA x item ((list.mem_MoveToFront _ _ _).1 hx)
  tagB := h.tagB
  tagC := h.tagC
  size := by
    rw [list.length_MoveToFront]
    exact h.size
  below := fun x hx => by
    rw [list.mem_MoveToFront] at hx
    exact h.below x hx

theorem Rep.remove {V : Type} {d : GoMap} {el : Nat → Option (Item V)} {f : Nat}
    {a b c : List Nat} {ta tb tc : Nat} (h : Rep d el f a ta b tb c tc) {e : Nat}
    {item : Item V} (he : e ∈ a) (hx : el e = some item) :
    Rep (GoMap.delete d item.Key) el f (list.Remove a e) ta b tb c tc := by
  have hm : ∀ x, x ∈ list.Remove a e ↔ x ≠ e ∧ x ∈ a := fun x => list.mem_Remove a e x h.nodupA
  have hown : GoMap.get d item.Key = some e := by
    obtain ⟨y, hy, hg⟩ := h.owned e (Or.inl he)
    rw [hx] at hy
    cases hy
    exact hg
  refine ⟨h.nodupA.erase e, h.nodupB, h.nodupC, fun x hx' => h.disjAB x ((hm x).1 hx').2,
    fun x hx' => h.disjAC x ((hm x).1 hx').2, h.disjBC, GoMap.nodup_delete _ _ h.keys,
    ?_, ?_, fun x it hx' => h.tagA x it ((hm x).1 hx').2, h.tagB, h.tagC, ?_, ?_⟩
  · intro k x hg
    rw [GoMap.get_delete] at hg
    by_cases hk : item.Key = k
    · simp [hk] at hg
    · simp only [hk, if_false] at hg
      obtain ⟨h1, y, hy, hyk⟩ := h.mapped k x hg
      refine ⟨?_, y, hy, hyk⟩
      have hne : x ≠ e := by
        rintro rfl
        rw [hx] at hy
        cases hy
        exact hk hyk
      rw [hm]
      tauto
  · intro x hx'
    have hx2 : x ∈ a ∨ x ∈ b ∨ x ∈ c := by
      rw [hm] at hx'
      tauto
    have hne : x ≠ e := by
      rintro rfl
      rcases hx' with h1 | h1 | h1
      · exact ((hm x).1 h1).1 rfl
      · exact h.disjAB x he h1
      · exact h.disjAC x he h1
    obtain ⟨y, hy, hg⟩ := h.owned x hx2
    refine ⟨y, hy, ?_⟩
    rw [GoMap.get_delete]
    have : item.Key ≠ y.Key := fun hk => hne (h.key_inj hx2 (Or.inl he) hy hx hk.symm)
    simp only [this, if_false]
    exact hg
  · have h1 := GoMap.length_delete d item.Key e h.keys hown
    have h2 := list.length_Remove a e he
    have h3 := h.size
    omega
  · intro x hx'
    apply h.below
    rw [hm] at hx'
    tauto

theorem Rep.insert {V : Type} {d : GoMap} {el : Nat → Option (Item V)} {f : Nat}
    {a b c : List Nat} {ta tb tc : Nat} (h : Rep d el f a ta b tb c tc) {e f' : Nat}
    {n : Item V} (hna : e ∉ a) (hnb : e ∉ b) (hnc : e ∉ c)
    (hk : GoMap.get d n.Key = none) (hl : n.listid = ta) (hf : f ≤ f') (he : e < f') :
    Rep (GoMap.set d n.Key e) (store el e n) f' (e :: a) ta b tb c tc := by
  have hne : ∀ x, (x ∈ a ∨ x ∈ b ∨ x ∈ c) → x ≠ e := by
    rintro x hx rfl
    tauto
  refine ⟨List.nodup_cons.2 ⟨hna, h.nodupA⟩, h.nodupB, h.nodupC, ?_, ?_, h.disjBC,
    GoMap.nodup_set _ _ _ h.keys, ?_, ?_, ?_, ?_, ?_, ?_, ?_⟩
  · intro x hx
    rcases List.mem_cons.1 hx with rfl | hx
    · exact hnb
    · exact h.disjAB x hx
  · intro x hx
    rcases List.mem_cons.1 hx with rfl | hx
    · exact hnc
    · exact h.disjAC x hx
  · intro k x hg
    rw [GoMap.get_set] at hg
    by_cases hkk : n.Key = k
    · simp only [hkk, if_true, Option.some.injEq] at hg
      subst hg
      exact ⟨Or.inl (List.mem_cons_self _ _), n, store_same _ _ _, hkk⟩
    · simp only [hkk, if_false] at hg
      obtain ⟨h1, y, hy, hyk⟩ := h.mapped k x hg
      refine ⟨?_, y, ?_, hyk⟩
      · rw [List.mem_cons]
        tauto
      · rw [store_ne _ _ _ _ (hne x h1)]
        exact hy
  · intro x hx
    rw [List.mem_cons] at hx
    by_cases hxe : x = e
    · subst hxe
      exact ⟨n, store_same _ _ _, by simp [GoMap.get_set]⟩
    · have hx2 : x ∈ a ∨ x ∈ b ∨ x ∈ c := by tauto
      obtain ⟨y, hy, hg⟩ := h.owned x hx2
      refine ⟨y, by rw [store_ne _ _ _ _ hxe]; exact hy, ?_⟩
      rw [GoMap.get_set]
      have : n.Key ≠ y.Key := fun heq => by rw [heq, hg] at hk; cases hk
      simp only [this, if_false]
      exact hg
  · intro x item hx hs
    by_cases hxe : x = e
    · subst hxe
      simp only [store_same, Option.some.injEq] at hs
      subst hs
      exact hl
    · rw [store_ne _ _ _ _ hxe] at hs
      exact h.tagA x item ((List.mem_cons.1 hx).resolve_left hxe) hs
  · intro x item hx hs
    rw [store_ne _ _ _ _ (hne x (Or.inr (Or.inl hx)))] at hs
    exact h.tagB x item hx hs
  · intro x item hx hs
    rw [store_ne _ _ _ _ (hne x (Or.inr (Or.inr hx)))] at hs
    exact h.tagC x item hx hs
  · have := h.size
    simp only [GoMap.length_set_new _ _ _ hk, List.length_cons]
    omega
  · intro x hx
    rw [List.mem_cons] at hx
    by_cases hxe : x = e
    · subst hxe
      exact he
    · exact lt_of_lt_of_le (h.below x (by tauto)) hf

theorem Rep.garbage {V : Type} {d : GoMap} {el : Nat → Option (Item V)} {f : Nat}
    {a b c : List Nat} {ta tb tc : Nat} (h : Rep d el f a ta b tb c tc) {e : Nat}
    (hna : e ∉ a) (hnb : e ∉ b) (hnc : e ∉ c) (x : Item V) :
    Rep d (store el e x) f a ta b tb c tc := by
  have hne : ∀ y, (y ∈ a ∨ y ∈ b ∨ y ∈ c) → y ≠ e := by
    rintro y hy rfl
    tauto
  refine ⟨h.nodupA, h.nodupB, h.nodupC, h.disjAB, h.disjAC, h.disjBC, h.keys, ?_, ?_, ?_, ?_, ?_,
    h.size, h.below⟩
  · intro k y hg
    obtain ⟨h1, z, hz, hzk⟩ := h.mapped k y hg
    exact ⟨h1, z, by rw [store_ne _ _ _ _ (hne y h1)]; exact hz, hzk⟩
  · intro y hy
    obtain ⟨z, hz, hg⟩ := h.owned y hy
    exact ⟨z, by rw [store_ne _ _ _ _ (hne y hy)]; exact hz, hg⟩
  · intro y item hy hs
    rw [store_ne _ _ _ _ (hne y (Or.inl hy))] at hs
    exact h.tagA y item hy hs
  · intro y item hy hs
    rw [store_ne _ _ _ _ (hne y (Or.inr (Or.inl hy)))] at hs
    exact h.tagB y item hy hs
  · intro y item hy hs
    rw [store_ne _ _ _ _ (hne y (Or.inr (Or.inr hy)))] at hs
    exact h.tagC y item hy hs

theorem Rep.setValue {V : Type} {d : GoMap} {el : Nat → Option (Item V)} {f : Nat}
    {a b c : List Nat} {ta tb tc : Nat} (h : Rep d el f a ta b tb c tc) {e : Nat}
    {item : Item V} (hx : el e = some item) (v : V) :
    Rep d (store el e { item with Value := v }) f a ta b tb c tc := by
  have key : ∀ y z, store el e { item with Value := v } y = some z →
      ∃ z0, el y = some z0 ∧ z.Key = z0.Key ∧ z.listid = z0.listid := by
    intro y z hs
    by_cases hye : y = e
    · subst hye
      simp only [store_same, Option.some.injEq] at hs
      subst hs
      exact ⟨item, hx, rfl, rfl⟩
    · rw [store_ne _ _ _ _ hye] at hs
      exact ⟨z, hs, rfl, rfl⟩
  have key2 : ∀ y z0, el y = some z0 →
      ∃ z, store el e { item with Value := v } y = some z ∧ z.Key = z0.Key := by
    intro y z0 hy
    by_cases hye : y = e
    · subst hye
      rw [hx] at hy
      cases hy
      exact ⟨_, store_same _ _ _, rfl⟩
    · exact ⟨z0, by rw [store_ne _ _ _ _ hye]; exact hy, rfl⟩
  refine ⟨h.nodupA, h.nodupB, h.nodupC, h.disjAB, h.disjAC, h.disjBC, h.keys, ?_, ?_, ?_, ?_, ?_,
    h.size, h.below⟩
  · intro k y hg
    obtain ⟨h1, z0, hz0, hzk⟩ := h.mapped k y hg
    obtain ⟨z, hz, hzk'⟩ := key2 y z0 hz0
    exact ⟨h1, z, hz, hzk'.trans hzk⟩
  · intro y hy
    obtain ⟨z0, hz0, hg⟩ := h.owned y hy
    obtain ⟨z, hz, hzk'⟩ := key2 y z0 hz0
    exact ⟨z, hz, by rw [hzk']; exact hg⟩
  · intro y z hy hs
    obtain ⟨z0, hz0, _, hl⟩ := key y z hs
    rw [hl]
    exact h.tagA y z0 hy hz0
  · intro y z hy hs
    obtain ⟨z0, hz0, _, hl⟩ := key y z hs
    rw [hl]
    exact h.tagB y z0 hy hz0
  · intro y z hy hs
    obtain ⟨z0, hz0, _, hl⟩ := key y z hs
    rw [hl]
    exact h.tagC y z0 hy hz0

/-! ## Lookups under the primitives -/

theorem GoMap.delete_delete (m : GoMap) (k : String) :
    GoMap.delete (GoMap.delete m k) k = GoMap.delete m k := by
  apply GoMap.delete_of_get_none
  simp [GoMap.get_delete]

theorem GoMap.delete_comm (m : GoMap) (k k' : String) :
    GoMap.delete (GoMap.delete m k) k' = GoMap.delete (GoMap.delete m k') k := by
  induction m with
  | nil => rfl
  | cons p r ih =>
    obtain ⟨a, b⟩ := p
    by_cases h1 : a = k
    · by_cases h2 : a = k'
      · subst h1
        subst h2
        simp only [GoMap.delete, if_true]
      · subst h1
        simp only [GoMap.delete, if_true, h2, if_false]
        exact ih
    · by_cases h2 : a = k'
      · subst h2
        simp only [GoMap.delete, if_true, h1, if_false]
        exact ih
      · simp only [GoMap.delete, h1, h2, if_false, ih]

theorem GoMap.set_delete_same (m : GoMap) (k : String) (v : Nat) :
    GoMap.set (GoMap.delete m k) k v = GoMap.set m k v := by
  simp [GoMap.set, GoMap.delete_delete]

theorem Rep.lookup_insert {V : Type} {d : GoMap} {el : Nat → Option (Item V)} {f : Nat}
    {a b c : List Nat} {ta tb tc : Nat} (h : Rep d el f a ta b tb c tc) {e : Nat}
    (hna : e ∉ a) (hnb : e ∉ b) (hnc : e ∉ c) (n : Item V) (k : String) :
    (GoMap.get (GoMap.set d n.Key e) k).bind (store el e n) =
      if n.Key = k then some n else (GoMap.get d k).bind el := by
  rw [GoMap.get_set]
  by_cases hk : n.Key = k
  · simp [hk, store_same]
  · simp only [hk, if_false]
    cases hg : GoMap.get d k with
    | none => rfl
    | some x =>
      have hx := (h.mapped k x hg).1
      have : x ≠ e := by
        rintro rfl
        tauto
      simp [Option.bind, store_ne _ _ _ _ this]

theorem Rep.lookup_garbage {V : Type} {d : GoMap} {el : Nat → Option (Item V)} {f : Nat}
    {a b c : List Nat} {ta tb tc : Nat} (h : Rep d el f a ta b tb c tc) {e : Nat}
    (hna : e ∉ a) (hnb : e ∉ b) (hnc : e ∉ c) (x : Item V) (k : String) :
    (GoMap.get d k).bind (store el e x) = (GoMap.get d k).bind el := by
  cases hg : GoMap.get d k with
  | none => rfl
  | some y =>
    have hy := (h.mapped k y hg).1
    have : y ≠ e := by
      rintro rfl
      tauto
    simp [Option.bind, store_ne _ _ _ _ this]

theorem Rep.lookup_store {V : Type} {d : GoMap} {el : Nat → Option (Item V)} {f : Nat}
    {a b c : List Nat} {ta tb tc : Nat} (h : Rep d el f a ta b tb c tc) {e : Nat}
    {item : Item V} (he : e ∈ a ∨ e ∈ b ∨ e ∈ c) (hx : el e = some item) (x : Item V)
    (k : String) :
    (GoMap.get d k).bind (store el e x) =
      if item.Key = k then some x else (GoMap.get d k).bind el := by
  obtain ⟨y, hy, hgy⟩ := h.owned e he
  rw [hx] at hy
  cases hy
  by_cases hk : item.Key = k
  · subst hk
    simp [hgy, store_same]
  · simp only [hk, if_false]
    cases hg : GoMap.get d k with
    | none => rfl
    | some y =>
      obtain ⟨_, z, hz, hzk⟩ := h.mapped k y hg
      have : y ≠ e := by
        rintro rfl
        rw [hx] at hz
        cases hz
        exact hk hzk
      simp [Option.bind, store_ne _ _ _ _ this]

theorem T.find_eq_some {V : Type} {t : T V} (h : Inv t) (k : String) (item : Item V) :
    t.find k = some item ↔
      ∃ e, (e ∈ t.lru.ll ∨ e ∈ t.slru.one ∨ e ∈ t.slru.two) ∧ t.elems e = some item ∧
        item.Key = k := by
  unfold T.find
  constructor
  · intro hf
    cases hg : GoMap.get t.data k with
    | none => simp [hg] at hf
    | some e =>
      simp only [hg, Option.some_bind] at hf
      obtain ⟨h1, y, hy, hyk⟩ := h.rep.mapped k e hg
      rw [hf] at hy
      cases hy
      exact ⟨e, h1, hf, hyk⟩
  · rintro ⟨e, he, hx, rfl⟩
    obtain ⟨y, hy, hg⟩ := h.rep.owned e he
    rw [hx] at hy
    cases hy
    simp [hg, hx]

theorem T.find_key {V : Type} {t : T V} (h : Inv t) {k : String} {item : Item V}
    (hf : t.find k = some item) : item.Key = k := by
  obtain ⟨_, _, _, hk⟩ := (T.find_eq_some h k item).1 hf
  exact hk

theorem T.find_none_iff {V : Type} {t : T V} (h : Inv t) (k : String) :
    t.find k = none ↔ GoMap.get t.data k = none := by
  unfold T.find
  constructor
  · intro hf
    cases hg : GoMap.get t.data k with
    | none => rfl
    | some e =>
      obtain ⟨_, y, hy, _⟩ := h.rep.mapped k e hg
      simp [hg, hy] at hf
  · intro hg
    simp [hg]

/-! ## The invariant through the W-LRU operations -/

theorem Inv.of_eq {V : Type} {t t' : T V} (h : Inv t) (hd : t'.data = t.data)
    (hl : t'.lru = t.lru) (hs : t'.slru = t.slru) (he : t'.elems = t.elems)
    (hf : t'.fresh = t.fresh) : Inv t' := by
  cases t
  cases t'
  simp only at hd hl hs he hf
  subst hd hl hs he hf
  exact ⟨h.rep, h.capLru, h.capOne, h.capTwo, h.lenLru, h.lenTwo, h.lenAll⟩

theorem T.find_of_eq {V : Type} {t t' : T V} (hd : t'.data = t.data)
    (he : t'.elems = t.elems) (k : String) : t'.find k = t.find k := by
  unfold T.find
  rw [hd, he]

theorem Inv.onEvict {V : Type} {t : T V} (h : Inv t) (item : Item V) :
    Inv (T.onEvict t item) := by
  unfold T.onEvict
  split
  · exact h
  · exact Inv.of_eq h rfl rfl rfl rfl rfl

theorem T.onEvict_find {V : Type} (t : T V) (item : Item V) (k : String) :
    (T.onEvict t item).find k = t.find k := by
  unfold T.onEvict
  split <;> rfl

theorem T.onEvict_fired {V : Type} (t : T V) (item : Item V) :
    (T.onEvict t item).fired = t.fired ++ item.OnEvict.toList := by
  unfold T.onEvict
  split
  · rename_i h
    simp [h]
  · rename_i fn h
    simp [h]

theorem lruCache.get_inv {V : Type} {t : T V} (h : Inv t) (v : Nat) :
    Inv (lruCache.get t v) :=
  ⟨h.rep.move v, h.capLru, h.capOne, h.capTwo,
    by simpa [lruCache.get, list.length_MoveToFront] using h.lenLru, h.lenTwo, h.lenAll⟩

theorem list.MoveToFront_of_mem (l : List Nat) (e : Nat) (h : e ∈ l) :
    list.MoveToFront l e = e :: list.Remove l e := by
  simp [list.MoveToFront, list.Remove, h]

theorem list.not_mem_Remove (l : List Nat) (e : Nat) (h : l.Nodup) : e ∉ list.Remove l e :=
  fun hm => ((list.mem_Remove l e e h).1 hm).1 rfl

theorem lruCache.add_window_spec {V : Type} {t : T V} (h : Inv t) (n : Item V)
    (hk : GoMap.get t.data n.Key = none) (hl : n.listid = 0) :
    ∃ t1 old, lruCache.add t n = some (t1, old) ∧ Inv t1 ∧ t1.book = t.book ∧
      t1.slru = t.slru ∧
      (∀ x, x ∈ t.slru.one ∨ x ∈ t.slru.two → t1.elems x = t.elems x) ∧
      (∃ e, t1.lru.ll.head? = some e ∧ t1.elems e = some n) ∧
      (match old with
       | none => (t.lru.ll.length : Int) < t.lru.cap ∧
          ∀ k, t1.find k = if n.Key = k then some n else t.find k
       | some c => ¬ (t.lru.ll.length : Int) < t.lru.cap ∧
          (∃ cid, list.Back t.lru.ll = some cid ∧ t.elems cid = some c) ∧
          t1.lru.ll.length = t.lru.ll.length ∧
          ∀ k, t1.find k = if n.Key = k then some n else if c.Key = k then none
            else t.find k) := by
  by_cases hlt : (t.lru.ll.length : Int) < t.lru.cap
  · have hfr : ∀ x, (x ∈ t.lru.ll ∨ x ∈ t.slru.one ∨ x ∈ t.slru.two) → x ≠ t.fresh :=
      fun x hx hxe => Nat.lt_irrefl _ (hxe ▸ h.rep.below x hx)
    have hna : t.fresh ∉ t.lru.ll := fun hm => hfr _ (Or.inl hm) rfl
    have hnb : t.fresh ∉ t.slru.one := fun hm => hfr _ (Or.inr (Or.inl hm)) rfl
    have hnc : t.fresh ∉ t.slru.two := fun hm => hfr _ (Or.inr (Or.inr hm)) rfl
    refine ⟨{ t with
              elems := store t.elems t.fresh n
              fresh := t.fresh + 1
              lru := { t.lru with ll := t.fresh :: t.lru.ll }
              data := GoMap.set t.data n.Key t.fresh }, none,
      by simp only [lruCache.add, if_pos hlt], ?_, rfl, rfl,
      fun x hx => store_ne _ _ _ _ (hfr x (Or.inr hx)),
      ⟨t.fresh, rfl, store_same _ _ _⟩, hlt, ?_⟩
    · refine ⟨h.rep.insert hna hnb hnc hk hl (Nat.le_succ _) (Nat.lt_succ_self _),
        h.capLru, h.capOne, h.capTwo, ?_, h.lenTwo, h.lenAll⟩
      simp only [List.length_cons, Nat.cast_add, Nat.cast_one]
      omega
    · intro k
      exact h.rep.lookup_insert hna hnb hnc n k
  · have hne : t.lru.ll ≠ [] := by
      intro he
      have := h.capLru
      rw [he] at hlt
      simp only [List.length_nil, Nat.cast_zero] at hlt
      omega
    obtain ⟨val, hval⟩ := list.Back_isSome _ hne
    have hmem := list.Back_mem _ _ hval
    obtain ⟨c, hc, hgc⟩ := h.rep.owned val (Or.inl hmem)
    have hrem := h.rep.remove hmem hc
    have hna : val ∉ list.Remove t.lru.ll val := list.not_mem_Remove _ _ h.rep.nodupA
    have hnb : val ∉ t.slru.one := h.rep.disjAB val hmem
    have hnc : val ∉ t.slru.two := h.rep.disjAC val hmem
    have hk' : GoMap.get (GoMap.delete t.data c.Key) n.Key = none := by
      rw [GoMap.get_delete]
      split
      · rfl
      · exact hk
    have hins := hrem.insert hna hnb hnc hk' hl (le_refl _) (h.rep.below val (Or.inl hmem))
    rw [← list.MoveToFront_of_mem _ _ hmem] at hins
    refine ⟨{ t with
              elems := store t.elems val n
              data := GoMap.set (GoMap.delete t.data c.Key) n.Key val
              lru := { t.lru with ll := list.MoveToFront t.lru.ll val } }, some c,
      by simp only [lruCache.add, if_neg hlt, hval, hc], ?_, rfl, rfl,
      fun x hx => store_ne _ _ _ _ (fun hxe => hx.elim (fun h1 => hnb (hxe ▸ h1))
        (fun h1 => hnc (hxe ▸ h1))),
      ⟨val, ?_, store_same _ _ _⟩, hlt, ⟨val, hval, hc⟩, ?_, ?_⟩
    · refine ⟨hins, h.capLru, h.capOne, h.capTwo, ?_, h.lenTwo, h.lenAll⟩
      simp only [list.length_MoveToFront]
      exact h.lenLru
    · simp only [list.MoveToFront_of_mem _ _ hmem, List.head?_cons]
    · exact list.length_MoveToFront _ _
    · intro k
      have := hrem.lookup_insert hna hnb hnc n k
      simp only [T.find]
      rw [this, GoMap.get_delete]
      by_cases h1 : n.Key = k
      · simp [h1]
      · by_cases h2 : c.Key = k
        · simp [h1, h2]
        · simp [h1, h2]

/-! ## The invariant through the S-LRU operations -/

theorem Rep.rotate {V : Type} {d : GoMap} {el : Nat → Option (Item V)} {f : Nat}
    {a b c : List Nat} {ta tb tc : Nat} (h : Rep d el f a ta b tb c tc) :
    Rep d el f c tc a ta b tb := h.swapBC.swapAB

theorem Rep.unrotate {V : Type} {d : GoMap} {el : Nat → Option (Item V)} {f : Nat}
    {a b c : List Nat} {ta tb tc : Nat} (h : Rep d el f c tc a ta b tb) :
    Rep d el f a ta b tb c tc := h.swapAB.swapBC

theorem Inv.fresh_ne {V : Type} {t : T V} (h : Inv t) (x : Nat)
    (hx : x ∈ t.lru.ll ∨ x ∈ t.slru.one ∨ x ∈ t.slru.two) : x ≠ t.fresh :=
  fun hxe => Nat.lt_irrefl _ (hxe ▸ h.rep.below x hx)

theorem slruCache.add_main_spec {V : Type} {t : T V} (h : Inv t) (n : Item V)
    (hk : GoMap.get t.data n.Key = none) :
    ∃ t1, slruCache.add t n = some t1 ∧ Inv t1 ∧ t1.book = t.book ∧ t1.lru = t.lru ∧
      t1.slru.two = t.slru.two ∧ (∀ x, x ∈ t.lru.ll → t1.elems x = t.elems x) ∧
      (∃ e, t1.slru.one.head? = some e ∧ t1.elems e = some { n with listid := 1 }) ∧
      ((slruCache.Len t < t.slru.onecap + t.slru.twocap ∧
          t1.slru.one.length = t.slru.one.length + 1 ∧
          ∀ k, t1.find k = if n.Key = k then some { n with listid := 1 } else t.find k) ∨
       (¬ slruCache.Len t < t.slru.onecap + t.slru.twocap ∧
          t1.slru.one.length = t.slru.one.length ∧
          ∃ vid v, list.Back t.slru.one = some vid ∧ t.elems vid = some v ∧
            ∀ k, t1.find k = if n.Key = k then some { n with listid := 1 }
              else if v.Key = k then none else t.find k)) := by
  have hlen2 := h.lenTwo
  have hlenA := h.lenAll
  simp only [slruCache.Len] at hlenA
  by_cases hlt : slruCache.Len t < t.slru.onecap + t.slru.twocap
  · have hna : t.fresh ∉ t.lru.ll := fun hm => h.fresh_ne _ (Or.inl hm) rfl
    have hnb : t.fresh ∉ t.slru.one := fun hm => h.fresh_ne _ (Or.inr (Or.inl hm)) rfl
    have hnc : t.fresh ∉ t.slru.two := fun hm => h.fresh_ne _ (Or.inr (Or.inr hm)) rfl
    have hins := (h.rep.swapAB.insert (n := { n with listid := 1 }) hnb hna hnc hk rfl
      (Nat.le_succ _) (Nat.lt_succ_self _)).swapAB
    refine ⟨{ t with
              elems := store t.elems t.fresh { n with listid := 1 }
              fresh := t.fresh + 1
              slru := { t.slru with one := t.fresh :: t.slru.one }
              data := GoMap.set t.data n.Key t.fresh },
      by simp only [slruCache.add, hlt, or_true, if_true], ?_, rfl, rfl, rfl,
      fun x hx => store_ne _ _ _ _ (h.fresh_ne x (Or.inl hx)),
      ⟨t.fresh, rfl, store_same _ _ _⟩, Or.inl ⟨hlt, rfl, ?_⟩⟩
    · refine ⟨hins, h.capLru, h.capOne, h.capTwo, h.lenLru, h.lenTwo, ?_⟩
      simp only [slruCache.Len] at hlt ⊢
      simp only [List.length_cons, Nat.cast_add, Nat.cast_one]
      omega
    · intro k
      exact h.rep.lookup_insert hna hnb hnc { n with listid := 1 } k
  · have hcond : ¬ ((t.slru.one.length : Int) < t.slru.onecap
        ∨ slruCache.Len t < t.slru.onecap + t.slru.twocap) := by
      simp only [slruCache.Len] at hlt ⊢
      omega
    have hne : t.slru.one ≠ [] := by
      intro he
      have := h.capOne
      simp only [slruCache.Len, he, List.length_nil, Nat.cast_zero] at hlt
      omega
    obtain ⟨vid, hvid⟩ := list.Back_isSome _ hne
    have hmem := list.Back_mem _ _ hvid
    obtain ⟨v, hv, hgv⟩ := h.rep.owned vid (Or.inr (Or.inl hmem))
    have hrem := h.rep.swapAB.remove hmem hv
    have hna : vid ∉ list.Remove t.slru.one vid := list.not_mem_Remove _ _ h.rep.nodupB
    have hnb : vid ∉ t.lru.ll := fun hm => h.rep.disjAB vid hm hmem
    have hnc : vid ∉ t.slru.two := h.rep.disjBC vid hmem
    have hk' : GoMap.get (GoMap.delete t.data v.Key) n.Key = none := by
      rw [GoMap.get_delete]
      split
      · rfl
      · exact hk
    have hins := (hrem.insert (n := { n with listid := 1 }) hna hnb hnc hk' rfl (le_refl _)
      (h.rep.below vid (Or.inr (Or.inl hmem)))).swapAB
    rw [← list.MoveToFront_of_mem _ _ hmem] at hins
    refine ⟨{ t with
              elems := store t.elems vid { n with listid := 1 }
              data := GoMap.set (GoMap.delete t.data v.Key) n.Key vid
              slru := { t.slru with one := list.MoveToFront t.slru.one vid } },
      by simp only [slruCache.add, hcond, if_false, hvid, hv], ?_, rfl, rfl, rfl,
      fun x hx => store_ne _ _ _ _ (fun hxe => hnb (hxe ▸ hx)),
      ⟨vid, ?_, store_same _ _ _⟩, Or.inr ⟨hlt, list.length_MoveToFront _ _, vid, v, hvid, hv, ?_⟩⟩
    · refine ⟨hins, h.capLru, h.capOne, h.capTwo, h.lenLru, h.lenTwo, ?_⟩
      simp only [slruCache.Len, list.length_MoveToFront]
      exact hlenA
    · simp only [list.MoveToFront_of_mem _ _ hmem, List.head?_cons]
    · intro k
      have := hrem.lookup_insert hna hnb hnc { n with listid := 1 } k
      simp only [T.find]
      rw [this, GoMap.get_delete]
      by_cases h1 : n.Key = k
      · simp [h1]
      · by_cases h2 : v.Key = k
        · simp [h1, h2]
        · simp [h1, h2]

theorem GoMap.set_set_delete (m : GoMap) (k k' : String) (v v' : Nat) (hne : k ≠ k') :
    GoMap.set (GoMap.set (GoMap.delete (GoMap.delete m k') k) k v) k' v' =
      GoMap.set (GoMap.set m k v) k' v' := by
  rw [GoMap.set_delete_same]
  simp only [GoMap.set, GoMap.delete, hne, if_false]
  rw [GoMap.delete_comm m k' k, GoMap.delete_delete]

theorem store_comm {V : Type} (h : Nat → Option (Item V)) (e e' : Nat) (x x' : Item V)
    (hne : e ≠ e') : store (store h e x) e' x' = store (store h e' x') e x := by
  funext i
  simp only [store]
  by_cases h1 : i = e
  · have h2 : ¬ i = e' := fun h2 => hne (h1.symm.trans h2)
    simp [h1, hne]
  · simp [h1]

/-- The touch of an S-LRU element either runs into the nil tail of an empty
protected list (only when the protected capacity is 0 and the element is on
probation) or keeps the invariant and every resident item up to its tag. -/
theorem slruCache.get_spec {V : Type} {t : T V} (h : Inv t) (v : Nat)
    (hv : v ∈ t.slru.one ∨ v ∈ t.slru.two) :
    (slruCache.get t v = none ∧ t.slru.twocap = 0 ∧ v ∈ t.slru.one) ∨
    (∃ t1, slruCache.get t v = some t1 ∧ Inv t1 ∧ t1.book = t.book ∧ t1.lru = t.lru ∧
      (∀ k, t1.view k = t.view k) ∧
      (∃ e, t1.slru.two.head? = some e ∧ ∃ item, t.elems v = some item ∧
        t1.elems e = some { item with listid := 2 })) := by
  have hlen2 := h.lenTwo
  have hlenA := h.lenAll
  have hcap2 := h.capTwo
  simp only [slruCache.Len] at hlenA
  obtain ⟨item, hitem, hgitem⟩ := h.rep.owned v (Or.inr hv)
  rcases hv with hv | hv
  · have hl : item.listid = 1 := h.rep.tagB v item hv hitem
    have hl2 : ¬ item.listid = 2 := by omega
    have hfind : t.find item.Key = some item := by simp [T.find, hgitem, hitem]
    by_cases hroom : (t.slru.two.length : Int) < t.slru.twocap
    · right
      have hrem := h.rep.swapAB.remove hv hitem
      have h1 : v ∉ list.Remove t.slru.one v := list.not_mem_Remove _ _ h.rep.nodupB
      have h2 : v ∉ t.lru.ll := fun hm => h.rep.disjAB v hm hv
      have h3 : v ∉ t.slru.two := h.rep.disjBC v hv
      have hgar := hrem.garbage h1 h2 h3 { item with listid := 2 }
      have hna : t.fresh ∉ t.lru.ll := fun hm => h.fresh_ne _ (Or.inl hm) rfl
      have hnb : t.fresh ∉ list.Remove t.slru.one v := fun hm =>
        h.fresh_ne _ (Or.inr (Or.inl ((list.mem_Remove _ _ _ h.rep.nodupB).1 hm).2)) rfl
      have hnc : t.fresh ∉ t.slru.two := fun hm => h.fresh_ne _ (Or.inr (Or.inr hm)) rfl
      have hk' : GoMap.get (GoMap.delete t.data item.Key) item.Key = none := by
        simp [GoMap.get_delete]
      have hins := (hgar.rotate.insert (n := { item with listid := 2 }) hnc hnb hna hk' rfl
        (Nat.le_succ _) (Nat.lt_succ_self _)).unrotate.swapAB
      rw [GoMap.set_delete_same] at hins
      refine ⟨{ t with
                elems := store (store t.elems v { item with listid := 2 }) t.fresh
                           { item with listid := 2 }
                fresh := t.fresh + 1
                slru := { t.slru with one := list.Remove t.slru.one v
                                      two := t.fresh :: t.slru.two }
                data := GoMap.set t.data item.Key t.fresh },
        by simp only [slruCache.get, hitem, hl2, if_false, hroom, if_true], ?_, rfl, rfl, ?_,
        ⟨t.fresh, rfl, item, hitem, store_same _ _ _⟩⟩
      · have hlr := list.length_Remove _ _ hv
        refine ⟨hins, h.capLru, h.capOne, h.capTwo, h.lenLru, ?_, ?_⟩
        · simp only [List.length_cons, Nat.cast_add, Nat.cast_one]
          omega
        · simp only [slruCache.Len, List.length_cons, Nat.cast_add, Nat.cast_one]
          omega
      · intro k
        have e1 := hgar.lookup_insert (e := t.fresh) hnb hna hnc { item with listid := 2 } k
        have e2 := hrem.lookup_garbage h1 h2 h3 { item with listid := 2 } k
        rw [GoMap.set_delete_same] at e1
        simp only [T.view, T.find] at hfind ⊢
        rw [e1, e2, GoMap.get_delete]
        by_cases hk : item.Key = k
        · subst hk
          simp [hfind, Item.untag]
        · simp [hk]
    · by_cases hemp : t.slru.two = []
      · left
        have hroom0 : ¬ (0 : Int) < t.slru.twocap := by
          simpa only [hemp, List.length_nil, Nat.cast_zero] using hroom
        refine ⟨?_, by omega, hv⟩
        simp only [slruCache.get, hitem, hl2, if_false, hroom]
        simp only [list.Back, hemp, List.getLast?_nil]
      · right
        obtain ⟨back, hback⟩ := list.Back_isSome _ hemp
        have hbm := list.Back_mem _ _ hback
        obtain ⟨bitem, hbitem, hgb⟩ := h.rep.owned back (Or.inr (Or.inr hbm))
        have hvb : v ≠ back := fun he => h.rep.disjBC v hv (he ▸ hbm)
        have hkne : bitem.Key ≠ item.Key := fun he =>
          hvb (h.rep.key_inj (Or.inr (Or.inl hv)) (Or.inr (Or.inr hbm)) hitem hbitem he.symm)
        have hfb : t.find bitem.Key = some bitem := by simp [T.find, hgb, hbitem]
        -- unlink both elements, then link them again with swapped contents
        have r1 := h.rep.swapAB.remove hv hitem
        have r2 := r1.rotate.remove hbm hbitem
        have a1 : v ∉ list.Remove t.slru.one v := list.not_mem_Remove _ _ h.rep.nodupB
        have a2 : v ∉ list.Remove t.slru.two back := fun hm =>
          h.rep.disjBC v hv ((list.mem_Remove _ _ _ h.rep.nodupC).1 hm).2
        have a3 : v ∉ t.lru.ll := fun hm => h.rep.disjAB v hm hv
        have k1 : GoMap.get (GoMap.delete (GoMap.delete t.data item.Key) bitem.Key) bitem.Key
            = none := by simp [GoMap.get_delete]
        have r3 := r2.swapAB.insert (n := { bitem with listid := 1 }) a1 a2 a3 k1 rfl (le_refl _)
          (h.rep.below v (Or.inr (Or.inl hv)))
        have b1 : back ∉ list.Remove t.slru.two back := list.not_mem_Remove _ _ h.rep.nodupC
        have b2 : back ∉ v :: list.Remove t.slru.one v := by
          intro hm
          rcases List.mem_cons.1 hm with he | hm
          · exact hvb he.symm
          · exact h.rep.disjBC back ((list.mem_Remove _ _ _ h.rep.nodupB).1 hm).2 hbm
        have b3 : back ∉ t.lru.ll := fun hm => h.rep.disjAC back hm hbm
        have k2 : GoMap.get (GoMap.set (GoMap.delete (GoMap.delete t.data item.Key) bitem.Key)
            bitem.Key v) item.Key = none := by
          simp [GoMap.get_set, GoMap.get_delete, hkne]
        have r4 := (r3.swapAB.insert (n := { item with listid := 2 }) b1 b2 b3 k2 rfl (le_refl _)
          (h.rep.below back (Or.inr (Or.inr hbm)))).unrotate.swapAB
        rw [GoMap.set_set_delete _ _ _ _ _ hkne, store_comm _ _ _ _ _ hvb,
          ← list.MoveToFront_of_mem _ _ hv, ← list.MoveToFront_of_mem _ _ hbm] at r4
        refine ⟨{ t with
                  elems := store (store t.elems back { item with listid := 2 }) v
                             { bitem with listid := 1 }
                  data := GoMap.set (GoMap.set t.data bitem.Key v) item.Key back
                  slru := { t.slru with
                            one := list.MoveToFront t.slru.one v
                            two := list.MoveToFront t.slru.two back } },
          by simp only [slruCache.get, hitem, hl2, if_false, hroom, hback, hbitem], ?_, rfl, rfl,
          ?_, ⟨back, ?_, item, hitem, ?_⟩⟩
        · refine ⟨r4, h.capLru, h.capOne, h.capTwo, h.lenLru, ?_, ?_⟩
          · simp only [list.length_MoveToFront]
            exact hlen2
          · simp only [slruCache.Len, list.length_MoveToFront]
            exact hlenA
        · intro k
          have e1 := r3.swapAB.lookup_insert b1 b2 b3 { item with listid := 2 } k
          have e2 := r2.swapAB.lookup_insert a1 a2 a3 { bitem with listid := 1 } k
          rw [GoMap.set_set_delete _ _ _ _ _ hkne, store_comm _ _ _ _ _ hvb] at e1
          simp only [T.view, T.find] at hfind hfb ⊢
          rw [e1, e2, GoMap.get_delete, GoMap.get_delete]
          by_cases hk : item.Key = k
          · subst hk
            simp [hfind, Item.untag]
          · by_cases hk2 : bitem.Key = k
            · subst hk2
              simp [hk, hfb, Item.untag]
            · simp [hk, hk2]
        · simp only [list.MoveToFront_of_mem _ _ hbm, List.head?_cons]
        · exact (store_ne _ _ _ _ hvb.symm).trans (store_same _ _ _)
  · right
    have hl : item.listid = 2 := h.rep.tagC v item hv hitem
    refine ⟨{ t with slru := { t.slru with two := list.MoveToFront t.slru.two v } },
      by simp only [slruCache.get, hitem, hl, if_true], ?_, rfl, rfl, fun k => rfl,
      ⟨v, ?_, item, hitem, ?_⟩⟩
    · refine ⟨(h.rep.rotate.move v).unrotate, h.capLru, h.capOne, h.capTwo, h.lenLru, ?_, ?_⟩
      · simp only [list.length_MoveToFront]
        exact hlen2
      · simp only [slruCache.Len, list.length_MoveToFront]
        exact hlenA
    · simp only [list.MoveToFront_of_mem _ _ hv, List.head?_cons]
    · rw [hitem, ← hl]

/-! ## The invariant through `T.del` -/

theorem list.Remove_of_not_mem (l : List Nat) (e : Nat) (h : e ∉ l) : list.Remove l e = l := by
  unfold list.Remove
  exact List.erase_of_not_mem h

theorem Inv.listid_zero_iff {V : Type} {t : T V} (h : Inv t) {v : Nat} {item : Item V}
    (hv : v ∈ t.lru.ll ∨ v ∈ t.slru.one ∨ v ∈ t.slru.two) (hitem : t.elems v = some item) :
    item.listid = 0 ↔ v ∈ t.lru.ll := by
  constructor
  · intro hl
    rcases hv with hv | hv | hv
    · exact hv
    · have := h.rep.tagB v item hv hitem
      omega
    · have := h.rep.tagC v item hv hitem
      omega
  · intro hv'
    exact h.rep.tagA v item hv' hitem

theorem Inv.listid_two_iff {V : Type} {t : T V} (h : Inv t) {v : Nat} {item : Item V}
    (hv : v ∈ t.lru.ll ∨ v ∈ t.slru.one ∨ v ∈ t.slru.two) (hitem : t.elems v = some item) :
    item.listid = 2 ↔ v ∈ t.slru.two := by
  constructor
  · intro hl
    rcases hv with hv | hv | hv
    · have := h.rep.tagA v item hv hitem
      omega
    · have := h.rep.tagB v item hv hitem
      omega
    · exact hv
  · intro hv'
    exact h.rep.tagC v item hv' hitem

theorem T.onEvict_data {V : Type} (t : T V) (item : Item V) :
    (T.onEvict t item).data = t.data := by
  unfold T.onEvict
  split <;> rfl

theorem T.onEvict_lru {V : Type} (t : T V) (item : Item V) :
    (T.onEvict t item).lru = t.lru := by
  unfold T.onEvict
  split <;> rfl

theorem T.onEvict_slru {V : Type} (t : T V) (item : Item V) :
    (T.onEvict t item).slru = t.slru := by
  unfold T.onEvict
  split <;> rfl

theorem T.onEvict_book {V : Type} (t : T V) (item : Item V) :
    (T.onEvict t item).book = { t.book with fired := t.fired ++ item.OnEvict.toList } := by
  unfold T.onEvict
  cases h : item.OnEvict with
  | none => simp [T.book]
  | some fn => simp [T.book]

/-- Removing a listed element: the element leaves its list and the map, its
callback is called, nothing else changes. -/
theorem T.del_spec {V : Type} {t : T V} (h : Inv t) (v : Nat)
    (hv : v ∈ t.lru.ll ∨ v ∈ t.slru.one ∨ v ∈ t.slru.two) :
    ∃ item t1, t.elems v = some item ∧ T.del t v = some t1 ∧ Inv t1 ∧
      t1.book = { t.book with fired := t.fired ++ item.OnEvict.toList } ∧
      (∀ k, t1.find k = if item.Key = k then none else t.find k) ∧
      t1.data.length + 1 = t.data.length ∧
      t1.lru.ll = list.Remove t.lru.ll v ∧ t1.slru.one = list.Remove t.slru.one v ∧
      t1.slru.two = list.Remove t.slru.two v := by
  obtain ⟨item, hitem, hg⟩ := h.rep.owned v hv
  have hlenL := h.lenLru
  have hlen2 := h.lenTwo
  have hlenA := h.lenAll
  simp only [slruCache.Len] at hlenA
  have hdl := GoMap.length_delete t.data item.Key v h.rep.keys hg
  have hfind : ∀ (t2 : T V), t2.data = GoMap.delete t.data item.Key → t2.elems = t.elems →
      ∀ k, (T.onEvict t2 item).find k = if item.Key = k then none else t.find k := by
    intro t2 hd he k
    rw [T.onEvict_find]
    simp only [T.find, hd, he, GoMap.get_delete]
    split <;> rfl
  have key : ∀ (t2 : T V), Inv t2 → t2.data = GoMap.delete t.data item.Key →
      t2.elems = t.elems → t2.book = t.book → t2.lru.ll = list.Remove t.lru.ll v →
      t2.slru.one = list.Remove t.slru.one v → t2.slru.two = list.Remove t.slru.two v →
      T.del t v = some (T.onEvict t2 item) →
      ∃ item t1, t.elems v = some item ∧ T.del t v = some t1 ∧ Inv t1 ∧
        t1.book = { t.book with fired := t.fired ++ item.OnEvict.toList } ∧
        (∀ k, t1.find k = if item.Key = k then none else t.find k) ∧
        t1.data.length + 1 = t.data.length ∧
        t1.lru.ll = list.Remove t.lru.ll v ∧ t1.slru.one = list.Remove t.slru.one v ∧
        t1.slru.two = list.Remove t.slru.two v := by
    intro t2 hi hd he hb ha hb1 hc heq
    refine ⟨item, _, hitem, heq, hi.onEvict item, ?_, hfind t2 hd he, ?_, ?_, ?_, ?_⟩
    · rw [T.onEvict_book, hb]
      have : t2.fired = t.fired := congrArg Book.fired hb
      rw [this]
    · rw [T.onEvict_data, hd]
      exact hdl
    · rw [T.onEvict_lru, ha]
    · rw [T.onEvict_slru, hb1]
    · rw [T.onEvict_slru, hc]
  rcases hv with hv | hv | hv
  · have hl : item.listid = 0 := h.rep.tagA v item hv hitem
    have h1 : v ∉ t.slru.one := h.rep.disjAB v hv
    have h2 : v ∉ t.slru.two := h.rep.disjAC v hv
    have hlr := list.length_Remove _ _ hv
    refine key (lruCache.Remove { t with data := GoMap.delete t.data item.Key } v) ?_ rfl rfl rfl
      rfl (list.Remove_of_not_mem _ _ h1).symm (list.Remove_of_not_mem _ _ h2).symm
      (by simp only [T.del, hitem, hl, if_true])
    refine ⟨h.rep.remove hv hitem, h.capLru, h.capOne, h.capTwo, ?_, h.lenTwo, h.lenAll⟩
    simp only [lruCache.Remove]
    omega
  · have hl : item.listid = 1 := h.rep.tagB v item hv hitem
    have hl0 : ¬ item.listid = 0 := by omega
    have hl2 : ¬ item.listid = 2 := by omega
    have h1 : v ∉ t.lru.ll := fun hm => h.rep.disjAB v hm hv
    have h2 : v ∉ t.slru.two := h.rep.disjBC v hv
    have hlr := list.length_Remove _ _ hv
    refine key { t with data := GoMap.delete t.data item.Key
                        slru := { t.slru with one := list.Remove t.slru.one v } } ?_ rfl rfl rfl
      (list.Remove_of_not_mem _ _ h1).symm rfl (list.Remove_of_not_mem _ _ h2).symm
      (by simp only [T.del, hitem, hl0, if_false, slruCache.Remove, hl2, Option.map_some'])
    refine ⟨(h.rep.swapAB.remove hv hitem).swapAB, h.capLru, h.capOne, h.capTwo, h.lenLru,
      h.lenTwo, ?_⟩
    simp only [slruCache.Len]
    omega
  · have hl : item.listid = 2 := h.rep.tagC v item hv hitem
    have hl0 : ¬ item.listid = 0 := by omega
    have h1 : v ∉ t.lru.ll := fun hm => h.rep.disjAC v hm hv
    have h2 : v ∉ t.slru.one := fun hm => h.rep.disjBC v hm hv
    have hlr := list.length_Remove _ _ hv
    refine key { t with data := GoMap.delete t.data item.Key
                        slru := { t.slru with two := list.Remove t.slru.two v } } ?_ rfl rfl rfl
      (list.Remove_of_not_mem _ _ h1).symm (list.Remove_of_not_mem _ _ h2).symm rfl
      (by simp [T.del, hitem, slruCache.Remove, hl])
    refine ⟨(h.rep.rotate.remove hv hitem).unrotate, h.capLru, h.capOne, h.capTwo, h.lenLru,
      ?_, ?_⟩
    · show ((list.Remove t.slru.two v).length : Int) ≤ t.slru.twocap
      omega
    · simp only [slruCache.Len]
      omega

/-! ## The public operations: `Del` and `Get` -/

theorem T.caps_of_book {V : Type} {t t' : T V} {fired : List Nat}
    (h : t'.book = { t.book with fired := fired }) : t'.caps = t.caps := by
  have h1 : t'.lru.cap = t.lru.cap := congrArg Book.cap h
  have h2 : t'.slru.onecap = t.slru.onecap := congrArg Book.onecap h
  have h3 : t'.slru.twocap = t.slru.twocap := congrArg Book.twocap h
  simp only [T.caps, h1, h2, h3]

theorem T.caps_of_book_eq {V : Type} {t t' : T V} (h : t'.book = t.book) :
    t'.caps = t.caps := by
  have h1 : t'.lru.cap = t.lru.cap := congrArg Book.cap h
  have h2 : t'.slru.onecap = t.slru.onecap := congrArg Book.onecap h
  have h3 : t'.slru.twocap = t.slru.twocap := congrArg Book.twocap h
  simp only [T.caps, h1, h2, h3]

theorem T.find_some_data {V : Type} {t : T V} (h : Inv t) {k : String} {item : Item V}
    (hf : t.find k = some item) :
    ∃ e, GoMap.get t.data k = some e ∧ t.elems e = some item ∧
      (e ∈ t.lru.ll ∨ e ∈ t.slru.one ∨ e ∈ t.slru.two) := by
  unfold T.find at hf
  cases hg : GoMap.get t.data k with
  | none => simp [hg] at hf
  | some e =>
    simp only [hg, Option.some_bind] at hf
    exact ⟨e, rfl, hf, (h.rep.mapped k e hg).1⟩

theorem T.Del_miss {V : Type} {t : T V} (h : Inv t) (key : String)
    (hf : t.find key = none) : T.Del t key = some t := by
  have := (T.find_none_iff h key).1 hf
  simp only [T.Del, this]

/-- The call `Del` of a resident key. -/
theorem T.Del_hit {V : Type} {t : T V} (h : Inv t) (key : String) (item : Item V)
    (hf : t.find key = some item) :
    ∃ t1, T.Del t key = some t1 ∧ Inv t1 ∧
      t1.book = { t.book with fired := t.fired ++ item.OnEvict.toList } ∧
      (∀ k, t1.find k = if key = k then none else t.find k) ∧
      t1.data.length + 1 = t.data.length ∧
      (∃ e, GoMap.get t.data key = some e ∧
        t1.lru.ll = list.Remove t.lru.ll e ∧ t1.slru.one = list.Remove t.slru.one e ∧
        t1.slru.two = list.Remove t.slru.two e) := by
  obtain ⟨e, hg, he, hmem⟩ := T.find_some_data h hf
  obtain ⟨item', t1, hi, hdel, hinv, hbook, hfind, hlen, hl1, hl2, hl3⟩ := T.del_spec h e hmem
  rw [he] at hi
  cases hi
  have hk := T.find_key h hf
  refine ⟨t1, by simp only [T.Del, hg, hdel], hinv, hbook, ?_, hlen, e, hg, hl1, hl2, hl3⟩
  intro k
  rw [hfind k, hk]

/-- The state of `Get` once the sample counter and the sketch are updated:
it differs from the state before only in `w`, the sketch and the doorkeeper. -/
theorem T.Get_cases {V : Type} (env : Env) (t : T V) (key : String) (now : Nat) :
    ∃ t2 : T V, t2.data = t.data ∧ t2.elems = t.elems ∧ t2.lru = t.lru ∧ t2.slru = t.slru ∧
      t2.fresh = t.fresh ∧ t2.fired = t.fired ∧
      (GoMap.get t.data key = none → T.Get env t key now = some (t2, none)) ∧
      (∀ val item, GoMap.get t.data key = some val → t.elems val = some item →
        T.Get env t key now =
          if item.expired now then (T.del t2 val).map (fun t3 => (t3, none))
          else if item.listid = 0 then some (lruCache.get t2 val, some item.Value)
          else (slruCache.get t2 val).map (fun t3 => (t3, some item.Value))) := by
  by_cases hw : wrapInt (t.w + 1) = t.samples
  · refine ⟨{ t with countSketch := cm4.add env (cm4.reset t.countSketch) (env.Sum64String key)
                     bouncer := doorkeeper.reset t.bouncer
                     w := 0 }, rfl, rfl, rfl, rfl, rfl, rfl, ?_, ?_⟩
    · intro hg
      simp only [T.Get, hw, if_true, hg]
    · intro val item hg he
      simp only [T.Get, hw, if_true, hg, he]
  · refine ⟨{ t with countSketch := cm4.add env t.countSketch (env.Sum64String key)
                     w := wrapInt (t.w + 1) }, rfl, rfl, rfl, rfl, rfl, rfl, ?_, ?_⟩
    · intro hg
      simp only [T.Get, hw, if_false, hg]
    · intro val item hg he
      simp only [T.Get, hw, if_false, hg, he]

/-- The call `Get` of a key that is not resident. -/
theorem T.Get_miss {V : Type} (env : Env) {t : T V} (h : Inv t) (key : String) (now : Nat)
    (hf : t.find key = none) :
    ∃ t1, T.Get env t key now = some (t1, none) ∧ Inv t1 ∧ t1.caps = t.caps ∧
      t1.fired = t.fired ∧ t1.data = t.data ∧ t1.elems = t.elems ∧ t1.lru = t.lru ∧
      t1.slru = t.slru := by
  obtain ⟨t2, hd, he, hl, hs, hfr, hfi, h1, _⟩ := T.Get_cases env t key now
  refine ⟨t2, h1 ((T.find_none_iff h key).1 hf), Inv.of_eq h hd hl hs he hfr, ?_, hfi, hd, he,
    hl, hs⟩
  simp only [T.caps, hl, hs]

/-- The call `Get` of a resident key whose item is expired: the item is purged. -/
theorem T.Get_expired {V : Type} (env : Env) {t : T V} (h : Inv t) (key : String) (now : Nat)
    (item : Item V) (hf : t.find key = some item) (hx : item.expired now = true) :
    ∃ t1, T.Get env t key now = some (t1, none) ∧ Inv t1 ∧ t1.caps = t.caps ∧
      t1.fired = t.fired ++ item.OnEvict.toList ∧
      (∀ k, t1.find k = if key = k then none else t.find k) ∧
      t1.data.length + 1 = t.data.length := by
  obtain ⟨t2, hd, he, hl, hs, hfr, hfi, _, h2⟩ := T.Get_cases env t key now
  obtain ⟨e, hg, hel, hmem⟩ := T.find_some_data h hf
  have hinv2 : Inv t2 := Inv.of_eq h hd hl hs he hfr
  have hmem2 : e ∈ t2.lru.ll ∨ e ∈ t2.slru.one ∨ e ∈ t2.slru.two := by
    rw [hl, hs]
    exact hmem
  obtain ⟨item', t1, hi, hdel, hinv, hbook, hfind, hlen, _⟩ := T.del_spec hinv2 e hmem2
  rw [he, hel] at hi
  cases hi
  have hk := T.find_key h hf
  refine ⟨t1, ?_, hinv, ?_, ?_, ?_, ?_⟩
  · rw [h2 e item hg hel]
    simp only [hx, if_true, hdel, Option.map_some']
  · rw [T.caps_of_book hbook]
    simp only [T.caps, hl, hs]
  · have : t1.fired = t2.fired ++ item.OnEvict.toList := congrArg Book.fired hbook
    rw [this, hfi]
  · intro k
    rw [hfind k, hk, T.find_of_eq hd he]
  · rw [hlen, hd]

/-- The call `Get` of a resident key whose item is not expired: either the touch runs into
the nil tail of an empty protected list (protected capacity 0, item on probation), or the
value of the resident item is returned and every resident item stays, up to its tag. -/
theorem T.Get_hit {V : Type} (env : Env) {t : T V} (h : Inv t) (key : String) (now : Nat)
    (item : Item V) (hf : t.find key = some item) (hx : item.expired now = false) :
    (T.Get env t key now = none ∧ t.slru.twocap = 0 ∧ item.listid = 1) ∨
    (∃ t1, T.Get env t key now = some (t1, some item.Value) ∧ Inv t1 ∧ t1.caps = t.caps ∧
      t1.fired = t.fired ∧ (∀ k, t1.view k = t.view k)) := by
  obtain ⟨t2, hd, he, hl, hs, hfr, hfi, _, h2⟩ := T.Get_cases env t key now
  obtain ⟨e, hg, hel, hmem⟩ := T.find_some_data h hf
  have hinv2 : Inv t2 := Inv.of_eq h hd hl hs he hfr
  have hview2 : ∀ k, t2.view k = t.view k := fun k => by
    simp only [T.view, T.find_of_eq hd he]
  rw [h2 e item hg hel]
  simp only [hx, Bool.false_eq_true, if_false]
  by_cases hl0 : item.listid = 0
  · right
    refine ⟨lruCache.get t2 e, by simp only [hl0, if_true], lruCache.get_inv hinv2 e, ?_, hfi,
      ?_⟩
    · simp only [T.caps, lruCache.get, hl, hs]
    · intro k
      rw [← hview2 k]
      rfl
  · simp only [hl0, if_false]
    have hmem1 : e ∈ t2.slru.one ∨ e ∈ t2.slru.two := by
      rw [hs]
      rcases hmem with hm | hm | hm
      · exact absurd ((h.listid_zero_iff (Or.inl hm) hel).2 hm) hl0
      · exact Or.inl hm
      · exact Or.inr hm
    rcases slruCache.get_spec hinv2 e hmem1 with ⟨hn, hc, hm⟩ | ⟨t1, hget, hinv, hbook, hlru, hview, _⟩
    · left
      rw [hs] at hc hm
      exact ⟨by simp only [hn, Option.map_none'], hc, h.rep.tagB e item hm hel⟩
    · right
      refine ⟨t1, by simp only [hget, Option.map_some'], hinv, ?_, ?_, ?_⟩
      · rw [T.caps_of_book_eq hbook]
        simp only [T.caps, hl, hs]
      · have : t1.fired = t2.fired := congrArg Book.fired hbook
        rw [this, hfi]
      · intro k
        rw [hview k, hview2 k]

/-! ## The public operations: `Set` -/

/-- The call `Set` of a resident key: either the touch runs into the nil tail of an empty
protected list (protected capacity 0, item on probation), or the value of the resident item
is replaced, every other resident item stays and no callback is called. -/
theorem T.Set_old {V : Type} (env : Env) {t : T V} (h : Inv t) (n : Item V) (item : Item V)
    (hf : t.find n.Key = some item) :
    (T.Set env t n = none ∧ t.slru.twocap = 0 ∧ item.listid = 1) ∨
    (∃ t1, T.Set env t n = some t1 ∧ Inv t1 ∧ t1.caps = t.caps ∧ t1.fired = t.fired ∧
      t1.w = t.w ∧ t1.samples = t.samples ∧ t1.bouncer = t.bouncer ∧
      (∀ k, t1.view k =
        if n.Key = k then some (Item.untag { item with Value := n.Value }) else t.view k)) := by
  obtain ⟨e, hg, hel, hmem⟩ := T.find_some_data h hf
  have hk := T.find_key h hf
  have hinv2 : Inv { t with elems := store t.elems e { item with Value := n.Value }
                            countSketch := cm4.add env t.countSketch item.keyh } :=
    ⟨h.rep.setValue hel n.Value, h.capLru, h.capOne, h.capTwo, h.lenLru, h.lenTwo, h.lenAll⟩
  have hview2 : ∀ k,
      T.view { t with elems := store t.elems e { item with Value := n.Value }
                      countSketch := cm4.add env t.countSketch item.keyh } k =
        if n.Key = k then some (Item.untag { item with Value := n.Value }) else t.view k := by
    intro k
    have := h.rep.lookup_store hmem hel { item with Value := n.Value } k
    simp only [T.view, T.find]
    rw [this, hk]
    split <;> rfl
  simp only [T.Set, hg, hel]
  by_cases hl0 : item.listid = 0
  · right
    refine ⟨_, by simp only [hl0, if_true], lruCache.get_inv hinv2 e, rfl, rfl, rfl, rfl, rfl,
      ?_⟩
    intro k
    rw [← hview2 k]
    rfl
  · simp only [hl0, if_false]
    have hmem1 : e ∈ t.slru.one ∨ e ∈ t.slru.two := by
      rcases hmem with hm | hm | hm
      · exact absurd ((h.listid_zero_iff (Or.inl hm) hel).2 hm) hl0
      · exact Or.inl hm
      · exact Or.inr hm
    rcases slruCache.get_spec hinv2 e hmem1 with ⟨hn, hc, hm⟩ | ⟨t1, hget, hinv, hbook, hlru, hview, _⟩
    · left
      exact ⟨hn, hc, h.rep.tagB e item hm hel⟩
    · right
      have hc1 : t1.lru.cap = t.lru.cap := congrArg Book.cap hbook
      have hc2 : t1.slru.onecap = t.slru.onecap := congrArg Book.onecap hbook
      have hc3 : t1.slru.twocap = t.slru.twocap := congrArg Book.twocap hbook
      refine ⟨t1, hget, hinv, by simp only [T.caps, hc1, hc2, hc3], congrArg Book.fired hbook,
        congrArg Book.w hbook, congrArg Book.samples hbook, congrArg Book.bouncer hbook, ?_⟩
      intro k
      rw [hview k, hview2 k]

theorem Inv.tail_lru {V : Type} {t : T V} (h : Inv t)
    (hge : ¬ (t.lru.ll.length : Int) < t.lru.cap) :
    ∃ cid c, list.Back t.lru.ll = some cid ∧ t.elems cid = some c ∧ cid ∈ t.lru.ll ∧
      t.find c.Key = some c ∧ c.listid = 0 := by
  have hne : t.lru.ll ≠ [] := by
    intro he
    have := h.capLru
    rw [he] at hge
    simp only [List.length_nil, Nat.cast_zero] at hge
    omega
  obtain ⟨cid, hcid⟩ := list.Back_isSome _ hne
  have hmem := list.Back_mem _ _ hcid
  obtain ⟨c, hc, hgc⟩ := h.rep.owned cid (Or.inl hmem)
  exact ⟨cid, c, hcid, hc, hmem, by simp [T.find, hgc, hc], h.rep.tagA cid c hmem hc⟩

theorem Inv.tail_one {V : Type} {t : T V} (h : Inv t)
    (hge : ¬ slruCache.Len t < t.slru.onecap + t.slru.twocap) :
    ∃ vid v, list.Back t.slru.one = some vid ∧ t.elems vid = some v ∧ vid ∈ t.slru.one ∧
      t.find v.Key = some v ∧ v.listid = 1 := by
  have hne : t.slru.one ≠ [] := by
    intro he
    have := h.capOne
    have := h.lenTwo
    simp only [slruCache.Len, he, List.length_nil, Nat.cast_zero] at hge
    omega
  obtain ⟨vid, hvid⟩ := list.Back_isSome _ hne
  have hmem := list.Back_mem _ _ hvid
  obtain ⟨v, hv, hgv⟩ := h.rep.owned vid (Or.inr (Or.inl hmem))
  exact ⟨vid, v, hvid, hv, hmem, by simp [T.find, hgv, hv], h.rep.tagB vid v hmem hv⟩

/-- The call `Set` of a new key while the W-LRU has room. -/
theorem T.Set_new_room {V : Type} (env : Env) {t : T V} (h : Inv t) (n : Item V)
    (hf : t.find n.Key = none) (hl : n.listid = 0)
    (hlt : (t.lru.ll.length : Int) < t.lru.cap) :
    ∃ t1, T.Set env t n = some t1 ∧ Inv t1 ∧ t1.book = t.book ∧ t1.slru = t.slru ∧
      (∃ e, t1.lru.ll.head? = some e ∧
        t1.elems e = some { n with keyh := env.Sum64String n.Key }) ∧
      (∀ k, t1.find k =
        if n.Key = k then some { n with keyh := env.Sum64String n.Key } else t.find k) := by
  have hk := (T.find_none_iff h n.Key).1 hf
  obtain ⟨t1, old, hadd, hinv, hbook, hslru, _, hhead, hcase⟩ :=
    lruCache.add_window_spec h { n with keyh := env.Sum64String n.Key } hk hl
  cases old with
  | none =>
    refine ⟨t1, by simp only [T.Set, hk, hadd], hinv, hbook, hslru, hhead, hcase.2⟩
  | some c => exact absurd hlt hcase.1

theorem slruCache.victim_none {V : Type} (t : T V)
    (hS : slruCache.Len t < t.slru.onecap + t.slru.twocap) :
    slruCache.victim t = some none := by
  simp only [slruCache.victim, hS, if_true]

theorem slruCache.victim_some {V : Type} (t : T V) (vid : Nat) (v : Item V)
    (hS : ¬ slruCache.Len t < t.slru.onecap + t.slru.twocap)
    (hb : list.Back t.slru.one = some vid) (he : t.elems vid = some v) :
    slruCache.victim t = some (some v) := by
  simp only [slruCache.victim, hS, if_false, hb, he]

/-- The call `Set` of a new key while the W-LRU is full and the S-LRU has room: the W-LRU
tail moves to the head of probation. -/
theorem T.Set_new_readd {V : Type} (env : Env) {t : T V} (h : Inv t) (n : Item V)
    (hf : t.find n.Key = none) (hl : n.listid = 0)
    (hge : ¬ (t.lru.ll.length : Int) < t.lru.cap)
    (hS : slruCache.Len t < t.slru.onecap + t.slru.twocap) :
    ∃ t1 cid c, list.Back t.lru.ll = some cid ∧ t.elems cid = some c ∧
      T.Set env t n = some t1 ∧ Inv t1 ∧ t1.book = t.book ∧ t1.slru.two = t.slru.two ∧
      t1.lru.ll.length = t.lru.ll.length ∧
      t1.slru.one.length = t.slru.one.length + 1 ∧
      (∃ e, t1.lru.ll.head? = some e ∧
        t1.elems e = some { n with keyh := env.Sum64String n.Key }) ∧
      (∃ e, t1.slru.one.head? = some e ∧ t1.elems e = some { c with listid := 1 }) ∧
      (∀ k, t1.find k =
        if n.Key = k then some { n with keyh := env.Sum64String n.Key }
        else if c.Key = k then some { c with listid := 1 } else t.find k) := by
  have hk := (T.find_none_iff h n.Key).1 hf
  obtain ⟨t1, old, hadd, hinv, hbook, hslru, hel, ⟨e, hhead, helem⟩, hcase⟩ :=
    lruCache.add_window_spec h { n with keyh := env.Sum64String n.Key } hk hl
  cases old with
  | none => exact absurd hcase.1 hge
  | some c =>
    obtain ⟨_, ⟨cid, hcid, hc⟩, hlen, hfind⟩ := hcase
    have hcm := list.Back_mem _ _ hcid
    obtain ⟨c', hc', hgc⟩ := h.rep.owned cid (Or.inl hcm)
    rw [hc] at hc'
    cases hc'
    have hne : ¬ n.Key = c.Key := fun he => by rw [he, hgc] at hk; cases hk
    have hk1 : GoMap.get t1.data c.Key = none := by
      apply (T.find_none_iff hinv c.Key).1
      rw [hfind]
      simp [hne]
    have hS1 : slruCache.Len t1 < t1.slru.onecap + t1.slru.twocap := by
      simp only [slruCache.Len, hslru] at hS ⊢
      exact hS
    obtain ⟨t2, hadd2, hinv2, hbook2, hlru2, htwo2, hel2, hhead2, hcase2⟩ :=
      slruCache.add_main_spec hinv c hk1
    rcases hcase2 with ⟨_, hlen2, hfind2⟩ | ⟨hno, _⟩
    · have hem : e ∈ t1.lru.ll := List.mem_of_mem_head? hhead
      refine ⟨t2, cid, c, hcid, hc, ?_, hinv2, hbook2.trans hbook, ?_, ?_, ?_, ⟨e, ?_, ?_⟩,
        hhead2, ?_⟩
      · simp only [T.Set, hk, hadd, slruCache.victim_none t1 hS1, hadd2]
      · rw [htwo2, hslru]
      · rw [hlru2, hlen]
      · rw [hlen2, hslru]
      · rw [hlru2, hhead]
      · rw [hel2 e hem, helem]
      · intro k
        rw [hfind2 k, hfind k]
        dsimp only
        by_cases h1 : n.Key = k
        · have : ¬ c.Key = k := fun h2 => hne (h1.trans h2.symm)
          simp only [h1, this, if_true, if_false]
        · by_cases h2 : c.Key = k
          · simp only [h1, h2, if_true, if_false]
          · simp only [h1, h2, if_false]
    · exact absurd hS1 hno

/-- The call `Set` of a new key while the W-LRU and the S-LRU are full: the admission
contest between the W-LRU tail `c` and the probation tail `v`. -/
theorem T.Set_new_contest {V : Type} (env : Env) {t : T V} (h : Inv t) (n : Item V)
    (hf : t.find n.Key = none) (hl : n.listid = 0)
    (hge : ¬ (t.lru.ll.length : Int) < t.lru.cap)
    (hS : ¬ slruCache.Len t < t.slru.onecap + t.slru.twocap) :
    ∃ t1 cid c vid v, list.Back t.lru.ll = some cid ∧ t.elems cid = some c ∧
      list.Back t.slru.one = some vid ∧ t.elems vid = some v ∧
      T.Set env t n = some t1 ∧ Inv t1 ∧ t1.caps = t.caps ∧ t1.w = t.w ∧
      t1.samples = t.samples ∧ t1.countSketch = t.countSketch ∧
      t1.bouncer = (doorkeeper.allow env t.bouncer c.keyh).1 ∧
      t1.lru.ll.length = t.lru.ll.length ∧ t1.slru.two = t.slru.two ∧
      t1.slru.one.length = t.slru.one.length ∧
      (∃ e, t1.lru.ll.head? = some e ∧
        t1.elems e = some { n with keyh := env.Sum64String n.Key }) ∧
      (((doorkeeper.allow env t.bouncer c.keyh).2 = true ∧
          cm4.estimate env t.countSketch v.keyh < cm4.estimate env t.countSketch c.keyh) →
        t1.fired = t.fired ∧
        (∃ e, t1.slru.one.head? = some e ∧ t1.elems e = some { c with listid := 1 }) ∧
        ∀ k, t1.find k =
          if n.Key = k then some { n with keyh := env.Sum64String n.Key }
          else if c.Key = k then some { c with listid := 1 }
          else if v.Key = k then none else t.find k) ∧
      (¬ ((doorkeeper.allow env t.bouncer c.keyh).2 = true ∧
          cm4.estimate env t.countSketch v.keyh < cm4.estimate env t.countSketch c.keyh) →
        t1.fired = t.fired ++ c.OnEvict.toList ∧ t1.slru = t.slru ∧
        ∀ k, t1.find k =
          if n.Key = k then some { n with keyh := env.Sum64String n.Key }
          else if c.Key = k then none else t.find k) := by
  have hk := (T.find_none_iff h n.Key).1 hf
  obtain ⟨t1, old, hadd, hinv, hbook, hslru, hel, ⟨e, hhead, helem⟩, hcase⟩ :=
    lruCache.add_window_spec h { n with keyh := env.Sum64String n.Key } hk hl
  cases old with
  | none => exact absurd hcase.1 hge
  | some c =>
    obtain ⟨_, ⟨cid, hcid, hc⟩, hlen, hfind⟩ := hcase
    dsimp only at hfind
    have hcm := list.Back_mem _ _ hcid
    obtain ⟨c', hc', hgc⟩ := h.rep.owned cid (Or.inl hcm)
    rw [hc] at hc'
    cases hc'
    have hne : ¬ n.Key = c.Key := fun he => by rw [he, hgc] at hk; cases hk
    obtain ⟨vid, v, hvid, hv, hvm, hfv, hlv⟩ := h.tail_one hS
    have hS1 : ¬ slruCache.Len t1 < t1.slru.onecap + t1.slru.twocap := by
      simp only [slruCache.Len, hslru] at hS ⊢
      exact hS
    have hv1 : t1.elems vid = some v := by rw [hel vid (Or.inl hvm), hv]
    have hvid1 : list.Back t1.slru.one = some vid := by rw [hslru, hvid]
    have hvic := slruCache.victim_some t1 vid v hS1 hvid1 hv1
    have hb1 : t1.bouncer = t.bouncer := congrArg Book.bouncer hbook
    have hcs1 : t1.countSketch = t.countSketch := congrArg Book.countSketch hbook
    have hem : e ∈ t1.lru.ll := List.mem_of_mem_head? hhead
    have hcaps1 : t1.caps = t.caps := T.caps_of_book_eq hbook
    cases hallow : doorkeeper.allow env t.bouncer c.keyh with
    | mk b ok =>
    have hallow1 : doorkeeper.allow env t1.bouncer c.keyh = (b, ok) := by rw [hb1, hallow]
    have hinv2 : Inv { t1 with bouncer := b } := Inv.of_eq hinv rfl rfl rfl rfl rfl
    by_cases hadm : ok = true ∧
        cm4.estimate env t.countSketch v.keyh < cm4.estimate env t.countSketch c.keyh
    · have hk1 : GoMap.get ({ t1 with bouncer := b } : T V).data c.Key = none := by
        apply (T.find_none_iff hinv c.Key).1
        rw [hfind]
        simp [hne]
      obtain ⟨t2, hadd2, hinv3, hbook2, hlru2, htwo2, hel2, hhead2, hcase2⟩ :=
        slruCache.add_main_spec hinv2 c hk1
      rcases hcase2 with ⟨hyes, _⟩ | ⟨_, hlen2, vid', v', hvid', hv', hfind2⟩
      · exact absurd hyes hS1
      · have e1 : vid' = vid := Option.some.inj (hvid'.symm.trans hvid1)
        subst e1
        have e2 : v' = v := Option.some.inj (hv'.symm.trans hv1)
        subst e2
        refine ⟨t2, cid, c, vid', v', hcid, hc, hvid, hv, ?_, hinv3, ?_, ?_, ?_, ?_, ?_, ?_, ?_, ?_,
          ⟨e, ?_, ?_⟩, ?_, ?_⟩
        · have hadm2 : cm4.estimate env t1.countSketch v'.keyh
              < cm4.estimate env t1.countSketch c.keyh := by
            rw [hcs1]
            exact hadm.2
          simp only [T.Set, hk, hadd, hvic, hallow1, hadm.1, hadm2,
            Bool.true_eq_false, if_false, gt_iff_lt, if_true]
          exact hadd2
        · have hc1 : t2.lru.cap = t1.lru.cap := congrArg Book.cap hbook2
          have hc2 : t2.slru.onecap = t1.slru.onecap := congrArg Book.onecap hbook2
          have hc3 : t2.slru.twocap = t1.slru.twocap := congrArg Book.twocap hbook2
          rw [← hcaps1]
          simp only [T.caps, hc1, hc2, hc3]
        · exact (congrArg Book.w hbook2).trans (congrArg Book.w hbook)
        · exact (congrArg Book.samples hbook2).trans (congrArg Book.samples hbook)
        · exact (congrArg Book.countSketch hbook2).trans hcs1
        · have : t2.bouncer = b := congrArg Book.bouncer hbook2
          rw [this, hallow]
        · rw [hlru2]
          exact hlen
        · rw [htwo2]
          exact congrArg slruCache.two hslru
        · rw [hlen2]
          exact congrArg (fun s => s.one.length) hslru
        · rw [hlru2]
          exact hhead
        · rw [hel2 e hem]
          exact helem
        · intro _
          refine ⟨(congrArg Book.fired hbook2).trans (congrArg Book.fired hbook), hhead2, ?_⟩
          intro k
          rw [hfind2 k]
          have : ({ t1 with bouncer := b } : T V).find k = t1.find k := rfl
          rw [this, hfind k]
          by_cases h1 : n.Key = k
          · have h2 : ¬ c.Key = k := fun h2 => hne (h1.trans h2.symm)
            have h3 : ¬ v'.Key = k := fun h3 => by
              have h4 : v'.Key = n.Key := h3.trans h1.symm
              rw [← h4, hfv] at hf
              cases hf
            simp only [h1, h2, h3, if_true, if_false]
          · by_cases h2 : c.Key = k
            · simp only [h1, h2, if_true, if_false]
            · by_cases h3 : v'.Key = k
              · simp only [h1, h2, h3, if_true, if_false]
              · simp only [h1, h2, h3, if_false]
        · intro hno
          rw [hallow] at hno
          exact absurd hadm hno
    · have hres : T.Set env t n = some (T.onEvict { t1 with bouncer := b } c) := by
        simp only [T.Set, hk, hadd, hvic, hallow1]
        by_cases hok : ok = true
        · have hlt : ¬ cm4.estimate env t1.countSketch v.keyh
              < cm4.estimate env t1.countSketch c.keyh := fun hlt => by
            rw [hcs1] at hlt
            exact hadm ⟨hok, hlt⟩
          simp only [hok, Bool.true_eq_false, if_false, gt_iff_lt, hlt]
        · have hok' : ok = false := by simpa using hok
          simp only [hok', if_true]
      refine ⟨_, cid, c, vid, v, hcid, hc, hvid, hv, hres, hinv2.onEvict c, ?_, ?_, ?_, ?_, ?_, ?_,
        ?_, ?_, ⟨e, ?_, ?_⟩, ?_, ?_⟩
      · rw [← hcaps1, T.caps_of_book (T.onEvict_book _ c)]
        rfl
      · exact (congrArg Book.w (T.onEvict_book _ c)).trans (congrArg Book.w hbook)
      · exact (congrArg Book.samples (T.onEvict_book _ c)).trans (congrArg Book.samples hbook)
      · exact (congrArg Book.countSketch (T.onEvict_book _ c)).trans hcs1
      · have : (T.onEvict { t1 with bouncer := b } c).bouncer = b :=
          congrArg Book.bouncer (T.onEvict_book _ c)
        rw [this, hallow]
      · rw [T.onEvict_lru]
        exact hlen
      · rw [T.onEvict_slru]
        exact congrArg slruCache.two hslru
      · rw [T.onEvict_slru]
        exact congrArg (fun s => s.one.length) hslru
      · rw [T.onEvict_lru]
        exact hhead
      · have : (T.onEvict { t1 with bouncer := b } c).elems = t1.elems := by
          unfold T.onEvict
          split <;> rfl
        rw [this]
        exact helem
      · intro hyes
        rw [hallow] at hyes
        exact absurd hyes hadm
      · intro _
        refine ⟨?_, ?_, ?_⟩
        · rw [T.onEvict_fired]
          exact congrArg (fun x => x ++ c.OnEvict.toList) (congrArg Book.fired hbook)
        · rw [T.onEvict_slru]
          exact hslru
        · intro k
          rw [T.onEvict_find]
          exact hfind k

/-! ## One call, in terms of the resident items -/

theorem T.view_of_find {V : Type} {t t' : T V} {k : String} (h : t'.find k = t.find k) :
    t'.view k = t.view k := by
  simp only [T.view, h]

theorem T.view_some {V : Type} {t : T V} {k : String} {item : Item V}
    (h : t.find k = some item) : t.view k = some item.untag := by
  simp only [T.view, h, Option.map_some']

theorem T.view_none {V : Type} {t : T V} {k : String} (h : t.find k = none) :
    t.view k = none := by
  simp only [T.view, h, Option.map_none']

theorem T.view_none_iff {V : Type} (t : T V) (k : String) :
    t.view k = none ↔ t.find k = none := by
  simp only [T.view, Option.map_eq_none']

theorem T.view_eq_some {V : Type} {t : T V} {k : String} {x : Item V}
    (h : t.view k = some x) : ∃ item, t.find k = some item ∧ x = item.untag := by
  simp only [T.view, Option.map_eq_some'] at h
  obtain ⟨item, h1, h2⟩ := h
  exact ⟨item, h1, h2.symm⟩

/-- The log after the callback of an item that has left the cache. -/
theorem fired_of_left {V : Type} {t t' : T V} {item : Item V}
    (hf : t.find item.Key = some item) (hn : t'.find item.Key = none)
    (hfi : t'.fired = t.fired ++ item.OnEvict.toList) :
    t'.fired = t.fired ∨ ∃ k x cb, t.view k = some x ∧ t'.view k = none ∧
      x.OnEvict = some cb ∧ t'.fired = t.fired ++ [cb] := by
  cases hcb : item.OnEvict with
  | none =>
    left
    rw [hfi, hcb]
    simp
  | some cb =>
    right
    refine ⟨item.Key, item.untag, cb, T.view_some hf, T.view_none hn, hcb, ?_⟩
    rw [hfi, hcb]
    rfl

theorem Step.of_Del {V : Type} (env : Env) {t t' : T V} (h : Inv t) (key : String)
    (hs : T.Del t key = some t') : Step env t (Op.Del key) t' := by
  cases hf : t.find key with
  | none =>
    rw [T.Del_miss h key hf] at hs
    cases hs
    exact ⟨h, rfl, fun k _ => Or.inl rfl, fun _ _ _ _ he => (nomatch he),
      fun _ _ _ _ _ he => (nomatch he), fun _ _ he => (nomatch he),
      (fun key' he => by cases he; exact T.view_none hf), Or.inl rfl⟩
  | some item =>
    obtain ⟨t1, hdel, hinv, hbook, hfind, _, _⟩ := T.Del_hit h key item hf
    rw [hdel] at hs
    cases hs
    have hk := T.find_key h hf
    refine ⟨hinv, T.caps_of_book hbook, ?_, fun _ _ _ _ he => (nomatch he),
      fun _ _ _ _ _ he => (nomatch he), fun _ _ he => (nomatch he), ?_, ?_⟩
    · intro k hne
      left
      apply T.view_of_find
      rw [hfind k]
      have : ¬ key = k := fun he => hne he.symm
      simp only [this, if_false]
    · intro key' he
      cases he
      apply T.view_none
      rw [hfind key]
      simp only [if_true]
    · subst hk
      refine fired_of_left hf ?_ (congrArg Book.fired hbook)
      rw [hfind]
      simp only [if_true]

theorem Step.of_Get {V : Type} (env : Env) {t t' : T V} (h : Inv t) (key : String) (now : Nat)
    (r : Option V) (hs : T.Get env t key now = some (t', r)) :
    Step env t (Op.Get key now) t' := by
  cases hf : t.find key with
  | none =>
    obtain ⟨t1, hget, hinv, hcaps, hfi, hd, he, _, _⟩ := T.Get_miss env h key now hf
    rw [hget] at hs
    cases hs
    have hv : ∀ k, t'.view k = t.view k := fun k => T.view_of_find (T.find_of_eq hd he k)
    refine ⟨hinv, hcaps, fun k _ => Or.inl (hv k), fun _ _ _ _ he => (nomatch he),
      fun _ _ _ _ _ he => (nomatch he), ?_, fun _ he => (nomatch he), Or.inl hfi⟩
    intro key' now' he
    cases he
    rw [hv, T.view_none hf]
    rfl
  | some item =>
    have hk := T.find_key h hf
    cases hx : item.expired now with
    | true =>
      obtain ⟨t1, hget, hinv, hcaps, hfi, hfind, _⟩ := T.Get_expired env h key now item hf hx
      rw [hget] at hs
      cases hs
      refine ⟨hinv, hcaps, ?_, fun _ _ _ _ he => (nomatch he),
        fun _ _ _ _ _ he => (nomatch he), ?_, fun _ he => (nomatch he), ?_⟩
      · intro k hne
        left
        apply T.view_of_find
        rw [hfind k]
        have : ¬ key = k := fun he => hne he.symm
        simp only [this, if_false]
      · intro key' now' he
        cases he
        rw [T.view_some hf]
        have : item.untag.expired now = true := hx
        simp only [Option.some_bind, this, if_true]
        apply T.view_none
        rw [hfind]
        simp only [if_true]
      · subst hk
        refine fired_of_left hf ?_ hfi
        rw [hfind]
        simp only [if_true]
    | false =>
      rcases T.Get_hit env h key now item hf hx with ⟨hn, _⟩ | ⟨t1, hget, hinv, hcaps, hfi, hview⟩
      · rw [hn] at hs
        cases hs
      · rw [hget] at hs
        cases hs
        refine ⟨hinv, hcaps, fun k _ => Or.inl (hview k), fun _ _ _ _ he => (nomatch he),
          fun _ _ _ _ _ he => (nomatch he), ?_, fun _ he => (nomatch he), Or.inl hfi⟩
        intro key' now' he
        cases he
        rw [hview, T.view_some hf]
        have : item.untag.expired now = false := hx
        simp only [Option.some_bind, this, Bool.false_eq_true, if_false]

theorem Inv.find_of_elem {V : Type} {t : T V} (h : Inv t) {e : Nat} {x : Item V}
    (hm : e ∈ t.lru.ll ∨ e ∈ t.slru.one ∨ e ∈ t.slru.two) (he : t.elems e = some x) :
    t.find x.Key = some x := by
  obtain ⟨y, hy, hg⟩ := h.rep.owned e hm
  rw [he] at hy
  cases hy
  simp only [T.find, hg, Option.some_bind, he]

theorem Step.of_Set {V : Type} (env : Env) {t t' : T V} (h : Inv t) (key : String) (value : V)
    (ex : Nat) (cb : Option Nat) (hs : T.Set env t (Op.item key value ex cb) = some t') :
    Step env t (Op.Set key value ex cb) t' := by
  have hl : (Op.item key value ex cb).listid = 0 := rfl
  have hkey : (Op.item key value ex cb).Key = key := rfl
  cases hf : t.find key with
  | some item =>
    rcases T.Set_old env h (Op.item key value ex cb) item hf with
      ⟨hn, _⟩ | ⟨t1, hset, hinv, hcaps, hfi, _, _, _, hview⟩
    · rw [hn] at hs
      cases hs
    · rw [hset] at hs
      cases hs
      refine ⟨hinv, hcaps, ?_, ?_, ?_, fun _ _ he => (nomatch he), fun _ he => (nomatch he),
        Or.inl hfi⟩
      · intro k hne
        left
        rw [hview k]
        have : ¬ (Op.item key value ex cb).Key = k := fun he => hne he.symm
        simp only [this, if_false]
      · intro key' value' ex' cb' he hv
        cases he
        rw [T.view_some hf] at hv
        cases hv
      · intro key' value' ex' cb' item' he hv
        cases he
        rw [T.view_some hf] at hv
        cases hv
        rw [hview key]
        simp only [hkey, if_true]
        rfl
  | none =>
    have hfn : t.find (Op.item key value ex cb).Key = none := hf
    have hold : ∀ (key' : String) (value' : V) (ex' : Nat) (cb' : Option Nat) (item : Item V),
        Op.Set key value ex cb = Op.Set key' value' ex' cb' → t.view key' = some item →
        t'.view key' = some { item with Value := value' } := by
      intro key' value' ex' cb' item he hv
      cases he
      rw [T.view_none hf] at hv
      cases hv
    by_cases hlt : (t.lru.ll.length : Int) < t.lru.cap
    · obtain ⟨t1, hset, hinv, hbook, _, _, hfind⟩ :=
        T.Set_new_room env h (Op.item key value ex cb) hfn hl hlt
      rw [hset] at hs
      cases hs
      refine ⟨hinv, T.caps_of_book_eq hbook, ?_, ?_, hold, fun _ _ he => (nomatch he),
        fun _ he => (nomatch he), Or.inl (congrArg Book.fired hbook)⟩
      · intro k hne
        left
        apply T.view_of_find
        rw [hfind k]
        have : ¬ (Op.item key value ex cb).Key = k := fun he => hne he.symm
        simp only [this, if_false]
      · intro key' value' ex' cb' he _
        cases he
        have hnew := (hfind key).trans (if_pos rfl)
        rw [T.view_some hnew]
        rfl
    · by_cases hS : slruCache.Len t < t.slru.onecap + t.slru.twocap
      · obtain ⟨t1, cid, c, hcid, hc, hset, hinv, hbook, _, _, _, _, _, hfind⟩ :=
          T.Set_new_readd env h (Op.item key value ex cb) hfn hl hlt hS
        have hfc := h.find_of_elem (Or.inl (list.Back_mem _ _ hcid)) hc
        rw [hset] at hs
        cases hs
        refine ⟨hinv, T.caps_of_book_eq hbook, ?_, ?_, hold, fun _ _ he => (nomatch he),
          fun _ he => (nomatch he), Or.inl (congrArg Book.fired hbook)⟩
        · intro k hne
          left
          have h1 : ¬ (Op.item key value ex cb).Key = k := fun he => hne he.symm
          by_cases h2 : c.Key = k
          · subst h2
            have hcn := (hfind c.Key).trans ((if_neg h1).trans (if_pos rfl))
            rw [T.view_some hfc, T.view_some hcn]
            rfl
          · apply T.view_of_find
            rw [hfind k]
            simp only [h1, h2, if_false]
        · intro key' value' ex' cb' he _
          cases he
          have hnew := (hfind key).trans (if_pos rfl)
          rw [T.view_some hnew]
          rfl
      · obtain ⟨t1, cid, c, vid, v, hcid, hc, hvid, hv, hset, hinv, hcaps, _, _, _, _, _, _, _, _,
          hadm, hden⟩ := T.Set_new_contest env h (Op.item key value ex cb) hfn hl hlt hS
        have hfc := h.find_of_elem (Or.inl (list.Back_mem _ _ hcid)) hc
        have hfv := h.find_of_elem (Or.inr (Or.inl (list.Back_mem _ _ hvid))) hv
        have hck : ¬ (Op.item key value ex cb).Key = c.Key := fun he => by
          rw [he, hfc] at hfn
          cases hfn
        rw [hset] at hs
        cases hs
        by_cases hyes : (doorkeeper.allow env t.bouncer c.keyh).2 = true ∧
            cm4.estimate env t.countSketch v.keyh < cm4.estimate env t.countSketch c.keyh
        · obtain ⟨hfi, _, hfind⟩ := hadm hyes
          refine ⟨hinv, hcaps, ?_, ?_, hold, fun _ _ he => (nomatch he),
            fun _ he => (nomatch he), Or.inl hfi⟩
          · intro k hne
            have h1 : ¬ (Op.item key value ex cb).Key = k := fun he => hne he.symm
            by_cases h2 : c.Key = k
            · subst h2
              left
              have hcn := (hfind c.Key).trans ((if_neg h1).trans (if_pos rfl))
              rw [T.view_some hfc, T.view_some hcn]
              rfl
            · by_cases h3 : v.Key = k
              · right
                refine ⟨?_, key, value, ex, cb, rfl, T.view_none hf⟩
                apply T.view_none
                rw [hfind k]
                simp only [h1, h2, h3, if_false, if_true]
              · left
                apply T.view_of_find
                rw [hfind k]
                simp only [h1, h2, h3, if_false]
          · intro key' value' ex' cb' he _
            cases he
            have hnew := (hfind key).trans (if_pos rfl)
            rw [T.view_some hnew]
            rfl
        · obtain ⟨hfi, _, hfind⟩ := hden hyes
          have hcn : t'.find c.Key = none := by
            rw [hfind c.Key]
            simp only [hck, if_false, if_true]
          refine ⟨hinv, hcaps, ?_, ?_, hold, fun _ _ he => (nomatch he),
            fun _ he => (nomatch he), fired_of_left hfc hcn hfi⟩
          · intro k hne
            have h1 : ¬ (Op.item key value ex cb).Key = k := fun he => hne he.symm
            by_cases h2 : c.Key = k
            · subst h2
              right
              exact ⟨T.view_none hcn, key, value, ex, cb, rfl, T.view_none hf⟩
            · left
              apply T.view_of_find
              rw [hfind k]
              simp only [h1, h2, if_false]
          · intro key' value' ex' cb' he _
            cases he
            have hnew := (hfind key).trans (if_pos rfl)
            rw [T.view_some hnew]
            rfl

/-- Every completed call is a `Step`. -/
theorem Step.of_step {V : Type} (env : Env) {t t' : T V} (h : Inv t) (op : Op V)
    (hs : step env t op = some t') : Step env t op t' := by
  cases op with
  | Set key value ex cb => exact Step.of_Set env h key value ex cb hs
  | Get key now =>
    simp only [step, Option.map_eq_some'] at hs
    obtain ⟨⟨t1, r⟩, hget, ht⟩ := hs
    cases ht
    exact Step.of_Get env h key now r hget
  | Del key => exact Step.of_Del env h key hs

/-! ## Sequences of calls -/

theorem Inv_New {V : Type} (env : Env) (size samples : Int) :
    Inv (New (V := V) env size samples) := by
  have h1 : (1 : Int) ≤ max 1 (subInt size (max 1 ((1 * size).tdiv 100))) := le_max_left _ _
  have h3 : (0 : Int) ≤ max 1 (subInt size (max 1 ((1 * size).tdiv 100)))
      - max 1 ((max 1 (subInt size (max 1 ((1 * size).tdiv 100)))).tdiv 5) := by
    generalize max 1 (subInt size (max 1 ((1 * size).tdiv 100))) = m at h1 ⊢
    have h2 : m.tdiv 5 ≤ m := by
      rw [Int.tdiv_eq_ediv (by omega) (by omega)]
      omega
    have : max 1 (m.tdiv 5) ≤ m := max_le h1 h2
    omega
  refine ⟨⟨List.nodup_nil, List.nodup_nil, List.nodup_nil, ?_, ?_, ?_, List.nodup_nil, ?_, ?_, ?_,
    ?_, ?_, rfl, ?_⟩, le_max_left _ _, le_max_left _ _, h3, ?_, h3, ?_⟩
  · intro e he
    cases he
  · intro e he
    cases he
  · intro e he
    cases he
  · intro k e he
    cases he
  · intro e he
    rcases he with he | he | he <;> cases he
  · intro e item he
    cases he
  · intro e item he
    cases he
  · intro e item he
    cases he
  · intro e he
    rcases he with he | he | he <;> cases he
  · have h5 : (1 : Int) ≤ max 1 ((1 * size).tdiv 100) := le_max_left _ _
    show ((0 : Nat) : Int) ≤ max 1 ((1 * size).tdiv 100)
    omega
  · show ((0 : Nat) : Int) + ((0 : Nat) : Int) ≤ _
    have h4 : (1 : Int) ≤
        max 1 ((max 1 (subInt size (max 1 ((1 * size).tdiv 100)))).tdiv 5) := le_max_left _ _
    simp only [New, newSLRU]
    omega

/-- The capacities `New` gives to the three lists add up to `size` when `size ≥ 2`. -/
theorem New_caps_sum {V : Type} (env : Env) (size samples : Int) (h : 2 ≤ size) :
    (New (V := V) env size samples).lru.cap + ((New (V := V) env size samples).slru.onecap
      + (New (V := V) env size samples).slru.twocap) = size := by
  simp only [New, newLRU, newSLRU]
  have h1 : (1 * size).tdiv 100 = size / 100 := by
    rw [one_mul, Int.tdiv_eq_ediv (by omega) (by omega)]
  rw [h1]
  have h2 : max 1 (size / 100) ≤ size - 1 := max_le (by omega) (by omega)
  have h3 : (1 : Int) ≤ max 1 (size / 100) := le_max_left _ _
  have h0 : subInt size (max 1 (size / 100)) = size - max 1 (size / 100) := by
    simp only [subInt]
    exact if_neg (by omega)
  have h4 : max 1 (size - max 1 (size / 100)) = size - max 1 (size / 100) :=
    max_eq_right (by omega)
  rw [h0, h4]
  omega

/-- The protected capacity `New` gives is at least 1 when `size ≥ 3`. -/
theorem New_twocap_pos {V : Type} (env : Env) (size samples : Int) (h : 3 ≤ size) :
    1 ≤ (New (V := V) env size samples).slru.twocap := by
  simp only [New, newSLRU]
  have h1 : (1 * size).tdiv 100 = size / 100 := by
    rw [one_mul, Int.tdiv_eq_ediv (by omega) (by omega)]
  rw [h1]
  have h2 : max 1 (size / 100) ≤ size - 2 := max_le (by omega) (by omega)
  have h0 : subInt size (max 1 (size / 100)) = size - max 1 (size / 100) := by
    simp only [subInt]
    exact if_neg (by omega)
  have h4 : max 1 (size - max 1 (size / 100)) = size - max 1 (size / 100) :=
    max_eq_right (by omega)
  rw [h0, h4]
  have hm : 2 ≤ size - max 1 (size / 100) := by omega
  generalize size - max 1 (size / 100) = m at hm ⊢
  have h5 : m.tdiv 5 = m / 5 := by
    rw [Int.tdiv_eq_ediv (by omega) (by omega)]
  rw [h5]
  have h6 : max 1 (m / 5) ≤ m - 1 := max_le (by omega) (by omega)
  omega

theorem run_cons {V : Type} (env : Env) (t : T V) (op : Op V) (ops : List (Op V)) :
    run env t (op :: ops) = (step env t op).bind (fun t1 => run env t1 ops) := rfl

theorem run_append {V : Type} (env : Env) (t : T V) (ops ops' : List (Op V)) :
    run env t (ops ++ ops') = (run env t ops).bind (fun t1 => run env t1 ops') := by
  induction ops generalizing t with
  | nil => rfl
  | cons op ops ih =>
    simp only [List.cons_append, run_cons]
    cases step env t op with
    | none => rfl
    | some t1 => simp only [Option.some_bind, ih]

/-- The invariant and the capacities are kept by every sequence of calls that completes. -/
theorem run_inv {V : Type} (env : Env) (ops : List (Op V)) (t t' : T V) (h : Inv t)
    (hrun : run env t ops = some t') : Inv t' ∧ t'.caps = t.caps := by
  induction ops generalizing t with
  | nil =>
    simp only [run, Option.some.injEq] at hrun
    subst hrun
    exact ⟨h, rfl⟩
  | cons op ops ih =>
    rw [run_cons] at hrun
    cases hs : step env t op with
    | none =>
      rw [hs] at hrun
      cases hrun
    | some t1 =>
      rw [hs] at hrun
      have hst := Step.of_step env h op hs
      obtain ⟨h1, h2⟩ := ih t1 hst.inv hrun
      exact ⟨h1, h2.trans hst.caps⟩

/-- Every state reached from `New` satisfies the invariant and has the capacities of `New`. -/
theorem reach_inv {V : Type} (env : Env) (size samples : Int) (ops : List (Op V)) (t : T V)
    (hrun : run env (New env size samples) ops = some t) :
    Inv t ∧ t.caps = (New (V := V) env size samples).caps :=
  run_inv env ops _ t (Inv_New env size samples) hrun

/-! ## C5: the populations never exceed the capacities -/

/-- C5: for every `size ≥ 2`, after every sequence of `Set`/`Get`/`Del` calls on
`New(size, samples)` that completes, the capacities are still those of `New`, they add up to
`size`, the W-LRU population is at most the W-LRU capacity, the protected population is at
most the protected capacity, the S-LRU population is at most the probation plus the protected
capacity, and the shared map has at most `size` keys. -/
theorem C5_populations_bounded {V : Type} (env : Env) (size samples : Int) (ops : List (Op V))
    (t : T V) (hsize : 2 ≤ size) (hrun : run env (New env size samples) ops = some t) :
    t.caps = (New (V := V) env size samples).caps ∧
    t.lru.cap + (t.slru.onecap + t.slru.twocap) = size ∧
    (t.lru.ll.length : Int) ≤ t.lru.cap ∧
    (t.slru.two.length : Int) ≤ t.slru.twocap ∧
    (t.slru.one.length : Int) + (t.slru.two.length : Int) ≤ t.slru.onecap + t.slru.twocap ∧
    (t.data.length : Int) ≤ size := by
  obtain ⟨hinv, hcaps⟩ := reach_inv env size samples ops t hrun
  have hsum := New_caps_sum (V := V) env size samples hsize
  have h1 : t.lru.cap = (New (V := V) env size samples).lru.cap := congrArg Prod.fst hcaps
  have h2 : t.slru.onecap = (New (V := V) env size samples).slru.onecap :=
    congrArg (fun p => p.2.1) hcaps
  have h3 : t.slru.twocap = (New (V := V) env size samples).slru.twocap :=
    congrArg (fun p => p.2.2) hcaps
  have hl := hinv.lenLru
  have h2l := hinv.lenTwo
  have hal := hinv.lenAll
  have hsz := hinv.rep.size
  simp only [slruCache.Len] at hal
  refine ⟨hcaps, ?_, hl, h2l, hal, ?_⟩
  · rw [h1, h2, h3]
    exact hsum
  · rw [← h1, ← h2, ← h3] at hsum
    rw [hsz]
    push_cast
    omega

/-- C5 at `New(3, 10)` after four `Set` calls of distinct keys (the last one loses the
admission contest): the run completes with three resident keys. -/
theorem C5_populations_bounded_witness :
    (2 : Int) ≤ 3 ∧
    (run sampleEnv (New sampleEnv 3 10)
        [Op.Set "a" 1 0 none, Op.Set "bb" 2 0 none, Op.Set "ccc" 3 0 none,
          Op.Set "dddd" 4 0 none]).map (fun t => t.data.length) = some 3 ∧
    ∃ t : T Nat, run sampleEnv (New sampleEnv 3 10)
        [Op.Set "a" 1 0 none, Op.Set "bb" 2 0 none, Op.Set "ccc" 3 0 none,
          Op.Set "dddd" 4 0 none] = some t ∧
      t.caps = (New (V := Nat) sampleEnv 3 10).caps ∧
      t.lru.cap + (t.slru.onecap + t.slru.twocap) = 3 ∧
      (t.lru.ll.length : Int) ≤ t.lru.cap ∧
      (t.slru.two.length : Int) ≤ t.slru.twocap ∧
      (t.slru.one.length : Int) + (t.slru.two.length : Int) ≤ t.slru.onecap + t.slru.twocap ∧
      (t.data.length : Int) ≤ 3 := by
  have hsome : (run sampleEnv (New (V := Nat) sampleEnv 3 10)
      [Op.Set "a" 1 0 none, Op.Set "bb" 2 0 none, Op.Set "ccc" 3 0 none,
        Op.Set "dddd" 4 0 none]).isSome = true := by decide
  obtain ⟨t, ht⟩ := Option.isSome_iff_exists.1 hsome
  exact ⟨by decide, by decide, t, ht,
    C5_populations_bounded sampleEnv 3 10 _ t (by decide) ht⟩

/-! ## C3: `Del` -/

/-- C3: in every state reached from `New`, `Del(key)` completes and a `Get(key)` right after
it completes with found = false.  When the key is resident, the map loses exactly that key (its
length drops by one, every other key keeps its item) and the element of the key is unlinked
from the three lists, which are otherwise unchanged; when the key is not resident the state
does not change. -/
theorem C3_del {V : Type} (env : Env) (size samples : Int) (ops : List (Op V)) (t : T V)
    (key : String) (now : Nat) (hrun : run env (New env size samples) ops = some t) :
    ∃ t1, T.Del t key = some t1 ∧
      (∃ t2, T.Get env t1 key now = some (t2, none)) ∧
      GoMap.get t1.data key = none ∧
      (∀ k, k ≠ key → t1.find k = t.find k) ∧
      (∀ e, GoMap.get t.data key = some e →
        t1.data.length + 1 = t.data.length ∧
        t1.lru.ll = list.Remove t.lru.ll e ∧ t1.slru.one = list.Remove t.slru.one e ∧
        t1.slru.two = list.Remove t.slru.two e ∧
        e ∉ t1.lru.ll ∧ e ∉ t1.slru.one ∧ e ∉ t1.slru.two) ∧
      (GoMap.get t.data key = none → t1 = t) := by
  obtain ⟨hinv, _⟩ := reach_inv env size samples ops t hrun
  cases hf : t.find key with
  | none =>
    have hg := (T.find_none_iff hinv key).1 hf
    obtain ⟨t2, hget, _⟩ := T.Get_miss env hinv key now hf
    refine ⟨t, T.Del_miss hinv key hf, ⟨t2, hget⟩, hg, fun _ _ => rfl, ?_, fun _ => rfl⟩
    intro e he
    rw [hg] at he
    cases he
  | some item =>
    obtain ⟨t1, hdel, hinv1, _, hfind, hlen, e, hge, hl1, hl2, hl3⟩ := T.Del_hit hinv key item hf
    have hf1 : t1.find key = none := by
      rw [hfind key]
      simp only [if_true]
    obtain ⟨t2, hget, _⟩ := T.Get_miss env hinv1 key now hf1
    refine ⟨t1, hdel, ⟨t2, hget⟩, (T.find_none_iff hinv1 key).1 hf1, ?_, ?_, ?_⟩
    · intro k hk
      rw [hfind k]
      have : ¬ key = k := fun h => hk h.symm
      simp only [this, if_false]
    · intro e' he'
      rw [hge] at he'
      cases he'
      refine ⟨hlen, hl1, hl2, hl3, ?_, ?_, ?_⟩
      · rw [hl1]
        exact list.not_mem_Remove _ _ hinv.rep.nodupA
      · rw [hl2]
        exact list.not_mem_Remove _ _ hinv.rep.nodupB
      · rw [hl3]
        exact list.not_mem_Remove _ _ hinv.rep.nodupC
    · intro hg
      rw [hge] at hg
      cases hg

/-- C3 at `New(3, 10)` after `Set a`, `Set bb`, `Set ccc`: deleting `bb` leaves two keys. -/
theorem C3_del_witness :
    ((run sampleEnv (New sampleEnv 3 10)
        [Op.Set "a" 1 0 none, Op.Set "bb" 2 0 none, Op.Set "ccc" 3 0 none]).bind
      (fun t => (T.Del t "bb").map (fun t1 => (t.data.length, t1.data.length)))) = some (3, 2) ∧
    ∃ t : T Nat, run sampleEnv (New sampleEnv 3 10)
        [Op.Set "a" 1 0 none, Op.Set "bb" 2 0 none, Op.Set "ccc" 3 0 none] = some t ∧
      ∃ t1, T.Del t "bb" = some t1 ∧
        (∃ t2, T.Get sampleEnv t1 "bb" 7 = some (t2, none)) ∧
        GoMap.get t1.data "bb" = none ∧
        (∀ k, k ≠ "bb" → t1.find k = t.find k) ∧
        (∀ e, GoMap.get t.data "bb" = some e →
          t1.data.length + 1 = t.data.length ∧
          t1.lru.ll = list.Remove t.lru.ll e ∧ t1.slru.one = list.Remove t.slru.one e ∧
          t1.slru.two = list.Remove t.slru.two e ∧
          e ∉ t1.lru.ll ∧ e ∉ t1.slru.one ∧ e ∉ t1.slru.two) ∧
        (GoMap.get t.data "bb" = none → t1 = t) := by
  have hsome : (run sampleEnv (New (V := Nat) sampleEnv 3 10)
      [Op.Set "a" 1 0 none, Op.Set "bb" 2 0 none, Op.Set "ccc" 3 0 none]).isSome = true := by
    decide
  obtain ⟨t, ht⟩ := Option.isSome_iff_exists.1 hsome
  exact ⟨by decide, t, ht, C3_del sampleEnv 3 10 _ t "bb" 7 ht⟩

/-! ## C1: `Get` returns the value of the most recent `Set` -/

/-- A key whose last event leaves a value has a `Set` of that value with no later event
of the key. -/
theorem lastValue_split {V : Type} (hist : List (Event V)) (k : String) (v : V)
    (h : lastValue hist k = some v) :
    ∃ newer older, hist = newer ++ Event.set k v :: older ∧ ∀ ev, ev ∈ newer → ev.key ≠ k := by
  induction hist with
  | nil => simp [lastValue] at h
  | cons ev rest ih =>
    cases ev with
    | set key value =>
      by_cases hk : key = k
      · simp only [lastValue, hk, if_true, Option.some.injEq] at h
        subst hk
        subst h
        exact ⟨[], rest, rfl, fun ev he => by cases he⟩
      · simp only [lastValue, hk, if_false] at h
        obtain ⟨newer, older, he, hn⟩ := ih h
        refine ⟨Event.set key value :: newer, older, by rw [he]; rfl, ?_⟩
        intro ev hev
        rcases List.mem_cons.1 hev with rfl | hev
        · exact hk
        · exact hn ev hev
    | del key =>
      by_cases hk : key = k
      · simp [lastValue, hk] at h
      · simp only [lastValue, hk, if_false] at h
        obtain ⟨newer, older, he, hn⟩ := ih h
        refine ⟨Event.del key :: newer, older, by rw [he]; rfl, ?_⟩
        intro ev hev
        rcases List.mem_cons.1 hev with rfl | hev
        · exact hk
        · exact hn ev hev
    | purge key =>
      by_cases hk : key = k
      · simp [lastValue, hk] at h
      · simp only [lastValue, hk, if_false] at h
        obtain ⟨newer, older, he, hn⟩ := ih h
        refine ⟨Event.purge key :: newer, older, by rw [he]; rfl, ?_⟩
        intro ev hev
        rcases List.mem_cons.1 hev with rfl | hev
        · exact hk
        · exact hn ev hev

/-- One call keeps the link between the resident items and the history: the value of
every resident item is the value the history leaves for its key. -/
theorem Step.history_link {V : Type} (env : Env) {t t' : T V} {op : Op V} (hst : Step env t op t')
    (past : List (Event V))
    (hG : ∀ k item, t.view k = some item → lastValue past k = some item.Value) :
    ∀ k item, t'.view k = some item →
      lastValue (observe t op ++ past) k = some item.Value := by
  intro k item hv
  by_cases hk : k = op.key
  · cases op with
    | Set key value ex cb =>
      have hk' : k = key := hk
      subst hk'
      simp only [observe, List.singleton_append, lastValue, if_true]
      cases hold : t.view k with
      | none =>
        rw [hst.setNew k value ex cb rfl hold] at hv
        cases hv
        rfl
      | some old =>
        rw [hst.setOld k value ex cb old rfl hold] at hv
        cases hv
        rfl
    | Get key now =>
      have hk' : k = key := hk
      subst hk'
      rw [hst.get k now rfl] at hv
      cases hold : t.view k with
      | none =>
        rw [hold] at hv
        cases hv
      | some old =>
        obtain ⟨item0, hf0, he0⟩ := T.view_eq_some hold
        have hx : old.expired now = item0.expired now := by rw [he0]; rfl
        rw [hold] at hv
        simp only [Option.some_bind] at hv
        cases hexp : item0.expired now with
        | true =>
          rw [hx, hexp] at hv
          simp at hv
        | false =>
          rw [hx, hexp] at hv
          simp only [Bool.false_eq_true, if_false, Option.some.injEq] at hv
          subst hv
          have hf0' : (GoMap.get t.data k).bind t.elems = some item0 := hf0
          simp only [observe, hf0', hexp, Bool.false_eq_true, if_false, List.nil_append]
          exact hG k old hold
    | Del key =>
      have hk' : k = key := hk
      subst hk'
      rw [hst.del k rfl] at hv
      cases hv
  · have hframe : t.view k = some item := by
      rcases hst.frame k hk with h1 | ⟨h1, _⟩
      · rw [← h1]
        exact hv
      · rw [h1] at hv
        cases hv
    have hpast := hG k item hframe
    have hne : ∀ ev, ev ∈ observe t op → ev.key ≠ k := by
      intro ev hev
      cases op with
      | Set key value ex cb =>
        simp only [observe, List.mem_singleton] at hev
        subst hev
        exact fun h => hk h.symm
      | Get key now =>
        simp only [observe] at hev
        split at hev
        · split at hev
          · simp only [List.mem_singleton] at hev
            subst hev
            exact fun h => hk h.symm
          · cases hev
        · cases hev
      | Del key =>
        simp only [observe, List.mem_singleton] at hev
        subst hev
        exact fun h => hk h.symm
    have key : ∀ (evs : List (Event V)), (∀ ev, ev ∈ evs → ev.key ≠ k) →
        lastValue (evs ++ past) k = lastValue past k := by
      intro evs
      induction evs with
      | nil => intro _; rfl
      | cons ev rest ih =>
        intro hall
        have h1 := hall ev (List.mem_cons_self _ _)
        have h2 := ih (fun ev' hev' => hall ev' (List.mem_cons_of_mem _ hev'))
        cases ev with
        | set key value =>
          have : ¬ key = k := h1
          simp only [List.cons_append, lastValue, this, if_false]
          exact h2
        | del key =>
          have : ¬ key = k := h1
          simp only [List.cons_append, lastValue, this, if_false]
          exact h2
        | purge key =>
          have : ¬ key = k := h1
          simp only [List.cons_append, lastValue, this, if_false]
          exact h2
    rw [key _ hne]
    exact hpast

/-- Along a sequence of calls the value of every resident item is the value the history
leaves for its key. -/
theorem run_history_link {V : Type} (env : Env) (ops : List (Op V)) (t t' : T V)
    (past : List (Event V)) (h : Inv t)
    (hG : ∀ k item, t.view k = some item → lastValue past k = some item.Value)
    (hrun : run env t ops = some t') :
    ∀ k item, t'.view k = some item →
      lastValue (history env t ops ++ past) k = some item.Value := by
  induction ops generalizing t past with
  | nil =>
    simp only [run, Option.some.injEq] at hrun
    subst hrun
    simpa only [history, List.nil_append] using hG
  | cons op ops ih =>
    rw [run_cons] at hrun
    cases hs : step env t op with
    | none =>
      rw [hs] at hrun
      cases hrun
    | some t1 =>
      rw [hs] at hrun
      have hst := Step.of_step env h op hs
      have h1 := ih t1 (observe t op ++ past) hst.inv (hst.history_link env past hG) hrun
      simp only [history, hs, List.append_assoc]
      exact h1

/-- C1: on a cache built by `New` and taken through any sequence of calls that completes,
when `Get(key)` returns `(v, true)` the history of the calls has a `Set` of that key with
value `v` after which no event concerns the key: no later `Set` of the key with another
item, no `Del` of the key and no purge of the key by an expired `Get`. -/
theorem C1_get_returns_last_set {V : Type} (env : Env) (size samples : Int)
    (ops : List (Op V)) (t t' : T V) (key : String) (now : Nat) (v : V)
    (hrun : run env (New env size samples) ops = some t)
    (hget : T.Get env t key now = some (t', some v)) :
    ∃ newer older,
      history env (New env size samples) ops = newer ++ Event.set key v :: older ∧
      ∀ ev, ev ∈ newer → ev.key ≠ key := by
  obtain ⟨hinv, _⟩ := reach_inv env size samples ops t hrun
  have hG0 : ∀ k item, (New (V := V) env size samples).view k = some item →
      lastValue ([] : List (Event V)) k = some item.Value := by
    intro k item hv
    simp [T.view, T.find, New, GoMap.get] at hv
  have hG := run_history_link env ops _ t [] (Inv_New env size samples) hG0 hrun
  simp only [List.append_nil] at hG
  apply lastValue_split
  cases hf : t.find key with
  | none =>
    obtain ⟨t1, h1, _⟩ := T.Get_miss env hinv key now hf
    rw [h1] at hget
    cases hget
  | some item =>
    cases hx : item.expired now with
    | true =>
      obtain ⟨t1, h1, _⟩ := T.Get_expired env hinv key now item hf hx
      rw [h1] at hget
      cases hget
    | false =>
      rcases T.Get_hit env hinv key now item hf hx with ⟨hn, _⟩ | ⟨t1, h1, _⟩
      · rw [hn] at hget
        cases hget
      · rw [h1] at hget
        cases hget
        exact hG key item.untag (T.view_some hf)

/-- C1 at `New(3, 10)` after `Set a 1`, `Set bb 2`, `Set a 5`, `Del bb`: `Get a` returns
`(5, true)`, the value of the most recent `Set` of `a`. -/
theorem C1_get_returns_last_set_witness :
    ∃ t t' : T Nat,
      run sampleEnv (New sampleEnv 3 10)
        [Op.Set "a" 1 0 none, Op.Set "bb" 2 0 none, Op.Set "a" 5 0 none, Op.Del "bb"]
        = some t ∧
      T.Get sampleEnv t "a" 0 = some (t', some 5) ∧
      ∃ newer older,
        history sampleEnv (New sampleEnv 3 10)
          [Op.Set "a" 1 0 none, Op.Set "bb" 2 0 none, Op.Set "a" 5 0 none, Op.Del "bb"]
          = newer ++ Event.set "a" 5 :: older ∧
        ∀ ev, ev ∈ newer → ev.key ≠ "a" := by
  have h1 : ((run sampleEnv (New (V := Nat) sampleEnv 3 10)
      [Op.Set "a" 1 0 none, Op.Set "bb" 2 0 none, Op.Set "a" 5 0 none, Op.Del "bb"]).bind
      (fun t => T.Get sampleEnv t "a" 0)).map Prod.snd = some (some 5) := by decide
  obtain ⟨⟨t', v⟩, hr, hv⟩ := Option.map_eq_some'.1 h1
  obtain ⟨t, ht, hg⟩ := Option.bind_eq_some.1 hr
  have hv' : v = some 5 := hv
  subst hv'
  exact ⟨t, t', ht, hg, C1_get_returns_last_set sampleEnv 3 10 _ t t' "a" 0 5 ht hg⟩

/-! ## C2: `Set` followed by `Get` -/

/-- With a protected capacity of at least 1, `Set` of a freshly built item completes. -/
theorem T.Set_total {V : Type} (env : Env) {t : T V} (h : Inv t) (n : Item V)
    (hl : n.listid = 0) (hcap : 1 ≤ t.slru.twocap) : ∃ t1, T.Set env t n = some t1 := by
  cases hf : t.find n.Key with
  | some item =>
    rcases T.Set_old env h n item hf with ⟨_, h0, _⟩ | ⟨t1, hset, _⟩
    · omega
    · exact ⟨t1, hset⟩
  | none =>
    by_cases hlt : (t.lru.ll.length : Int) < t.lru.cap
    · obtain ⟨t1, hset, _⟩ := T.Set_new_room env h n hf hl hlt
      exact ⟨t1, hset⟩
    · by_cases hS : slruCache.Len t < t.slru.onecap + t.slru.twocap
      · obtain ⟨t1, _, _, _, _, hset, _⟩ := T.Set_new_readd env h n hf hl hlt hS
        exact ⟨t1, hset⟩
      · obtain ⟨t1, _, _, _, _, _, _, _, _, hset, _⟩ := T.Set_new_contest env h n hf hl hlt hS
        exact ⟨t1, hset⟩

/-- A call that hands over no expiry keeps every resident item without expiry. -/
theorem Step.no_expiry {V : Type} (env : Env) {t t' : T V} {op : Op V} (hst : Step env t op t')
    (hop : ∀ key value ex cb, op = Op.Set key value ex cb → ex = 0)
    (hN : ∀ k item, t.view k = some item → item.ExpireAt = 0) :
    ∀ k item, t'.view k = some item → item.ExpireAt = 0 := by
  intro k item hv
  by_cases hk : k = op.key
  · cases op with
    | Set key value ex cb =>
      have hk' : k = key := hk
      subst hk'
      cases hold : t.view k with
      | none =>
        rw [hst.setNew k value ex cb rfl hold] at hv
        cases hv
        exact hop k value ex cb rfl
      | some old =>
        rw [hst.setOld k value ex cb old rfl hold] at hv
        cases hv
        exact hN k old hold
    | Get key now =>
      have hk' : k = key := hk
      subst hk'
      rw [hst.get k now rfl] at hv
      cases hold : t.view k with
      | none =>
        rw [hold] at hv
        cases hv
      | some old =>
        rw [hold] at hv
        simp only [Option.some_bind] at hv
        split at hv
        · cases hv
        · cases hv
          exact hN k _ hold
    | Del key =>
      have hk' : k = key := hk
      subst hk'
      rw [hst.del k rfl] at hv
      cases hv
  · rcases hst.frame k hk with h1 | ⟨h1, _⟩
    · rw [h1] at hv
      exact hN k item hv
    · rw [h1] at hv
      cases hv

theorem run_no_expiry {V : Type} (env : Env) (ops : List (Op V)) (t t' : T V) (h : Inv t)
    (hops : ∀ op, op ∈ ops → ∀ key value ex cb, op = Op.Set key value ex cb → ex = 0)
    (hN : ∀ k item, t.view k = some item → item.ExpireAt = 0)
    (hrun : run env t ops = some t') :
    ∀ k item, t'.view k = some item → item.ExpireAt = 0 := by
  induction ops generalizing t with
  | nil =>
    simp only [run, Option.some.injEq] at hrun
    subst hrun
    exact hN
  | cons op ops ih =>
    rw [run_cons] at hrun
    cases hs : step env t op with
    | none =>
      rw [hs] at hrun
      cases hrun
    | some t1 =>
      rw [hs] at hrun
      have hst := Step.of_step env h op hs
      exact ih t1 hst.inv (fun op' hop' => hops op' (List.mem_cons_of_mem _ hop'))
        (hst.no_expiry env (hops op (List.mem_cons_self _ _)) hN) hrun

/-- C2: on a cache built by `New(size, samples)` with `size ≥ 3`, in every state reached by
calls none of which hands over an expiry, `Set(item)` of an item without expiry completes and
the `Get(item.Key)` right after it returns `(item.Value, true)`, whether or not the key was
resident before. -/
theorem C2_set_then_get {V : Type} (env : Env) (size samples : Int) (ops : List (Op V))
    (t : T V) (key : String) (value : V) (cb : Option Nat) (now : Nat) (hsize : 3 ≤ size)
    (hops : ∀ op, op ∈ ops → ∀ k v ex c, op = Op.Set k v ex c → ex = 0)
    (hrun : run env (New env size samples) ops = some t) :
    ∃ t1 t2, T.Set env t (Op.item key value 0 cb) = some t1 ∧
      T.Get env t1 key now = some (t2, some value) := by
  obtain ⟨hinv, hcaps⟩ := reach_inv env size samples ops t hrun
  have hcap : 1 ≤ t.slru.twocap := by
    have h3 : t.slru.twocap = (New (V := V) env size samples).slru.twocap :=
      congrArg (fun p => p.2.2) hcaps
    rw [h3]
    exact New_twocap_pos env size samples hsize
  have hN : ∀ k item, t.view k = some item → item.ExpireAt = 0 := by
    apply run_no_expiry env ops _ t (Inv_New env size samples) hops _ hrun
    intro k item hv
    simp [T.view, T.find, New, GoMap.get] at hv
  obtain ⟨t1, hset⟩ := T.Set_total env hinv (Op.item key value 0 cb) rfl hcap
  have hst := Step.of_Set env hinv key value 0 cb hset
  have hview : ∃ x, t1.view key = some x ∧ x.Value = value ∧ x.ExpireAt = 0 := by
    cases hold : t.view key with
    | none => exact ⟨_, hst.setNew key value 0 cb rfl hold, rfl, rfl⟩
    | some old => exact ⟨_, hst.setOld key value 0 cb old rfl hold, rfl, hN key old hold⟩
  obtain ⟨x, hx, hxv, hxe⟩ := hview
  obtain ⟨item1, hf1, he1⟩ := T.view_eq_some hx
  have hv1 : item1.Value = value := by rw [← hxv, he1]; rfl
  have hx1 : item1.expired now = false := by
    have : item1.ExpireAt = 0 := by rw [← hxe, he1]; rfl
    simp [Item.expired, this]
  have hcap1 : t1.slru.twocap = t.slru.twocap := congrArg (fun p => p.2.2) hst.caps
  rcases T.Get_hit env hst.inv key now item1 hf1 hx1 with ⟨_, h0, _⟩ | ⟨t2, hget, _⟩
  · omega
  · exact ⟨t1, t2, hset, by rw [hget, hv1]⟩

/-- C2 at `New(3, 10)` after `Set a 1`, `Set bb 2`, `Get a`: `Set a 9` then `Get a` gives 9
(here `a` is resident, on probation, when it is set again). -/
theorem C2_set_then_get_witness :
    (3 : Int) ≤ 3 ∧
    ((run sampleEnv (New sampleEnv 3 10)
        [Op.Set "a" 1 0 none, Op.Set "bb" 2 0 none, Op.Get "a" 4, Op.Set "a" 9 0 none]).bind
      (fun t => (T.Get sampleEnv t "a" 5).map Prod.snd)) = some (some 9) ∧
    ∃ t : T Nat, run sampleEnv (New sampleEnv 3 10)
        [Op.Set "a" 1 0 none, Op.Set "bb" 2 0 none, Op.Get "a" 4] = some t ∧
      ∃ t1 t2, T.Set sampleEnv t (Op.item "a" 9 0 none) = some t1 ∧
        T.Get sampleEnv t1 "a" 5 = some (t2, some 9) := by
  have hsome : (run sampleEnv (New (V := Nat) sampleEnv 3 10)
      [Op.Set "a" 1 0 none, Op.Set "bb" 2 0 none, Op.Get "a" 4]).isSome = true := by decide
  obtain ⟨t, ht⟩ := Option.isSome_iff_exists.1 hsome
  refine ⟨by decide, by decide, t, ht,
    C2_set_then_get sampleEnv 3 10 _ t "a" 9 none 5 (by decide) ?_ ht⟩
  intro op hop k v ex c he
  subst he
  simp only [List.mem_cons, Op.Set.injEq, List.mem_singleton, List.not_mem_nil, or_false,
    reduceCtorEq] at hop
  rcases hop with ⟨_, _, h, _⟩ | ⟨_, _, h, _⟩
  · exact h
  · exact h

/-! ## C9: a callback is called at most once -/

/-- Where the item of a key comes from after one call: it was resident under that key with
the same callback, or it is the item the call has just set. -/
theorem Step.origin {V : Type} (env : Env) {t t' : T V} {op : Op V} (hst : Step env t op t')
    (k : String) (item' : Item V) (hv : t'.view k = some item') :
    (∃ item, t.view k = some item ∧ item'.OnEvict = item.OnEvict) ∨
    (∃ value ex cb, op = Op.Set k value ex cb ∧ t.view k = none ∧ item'.OnEvict = cb) := by
  by_cases hk : k = op.key
  · cases op with
    | Set key value ex cb =>
      have hk' : k = key := hk
      subst hk'
      cases hold : t.view k with
      | none =>
        rw [hst.setNew k value ex cb rfl hold] at hv
        cases hv
        exact Or.inr ⟨value, ex, cb, rfl, rfl, rfl⟩
      | some old =>
        rw [hst.setOld k value ex cb old rfl hold] at hv
        cases hv
        exact Or.inl ⟨old, rfl, rfl⟩
    | Get key now =>
      have hk' : k = key := hk
      subst hk'
      rw [hst.get k now rfl] at hv
      cases hold : t.view k with
      | none =>
        rw [hold] at hv
        cases hv
      | some old =>
        rw [hold] at hv
        simp only [Option.some_bind] at hv
        split at hv
        · cases hv
        · cases hv
          exact Or.inl ⟨_, rfl, rfl⟩
    | Del key =>
      have hk' : k = key := hk
      subst hk'
      rw [hst.del k rfl] at hv
      cases hv
  · rcases hst.frame k hk with h1 | ⟨h1, _⟩
    · rw [h1] at hv
      exact Or.inl ⟨item', hv, rfl⟩
    · rw [h1] at hv
      cases hv

/-- One call keeps the callbacks in order, when the closure it hands over is new. -/
theorem Step.once {V : Type} (env : Env) {t t' : T V} {op : Op V} (hst : Step env t op t')
    (past : List Nat) (hO : Once t past)
    (hnew : ∀ c, c ∈ handed [op] → c ∉ past) : Once t' (handed [op] ++ past) := by
  have hnew' : ∀ k value ex c, op = Op.Set k value ex (some c) → c ∉ past := by
    intro k value ex c he
    apply hnew
    subst he
    simp [handed]
  have hhand : ∀ k value ex c, op = Op.Set k value ex (some c) → c ∈ handed [op] ++ past := by
    intro k value ex c he
    subst he
    simp [handed]
  have hfired : ∀ c, c ∈ t'.fired → c ∈ t.fired ∨
      ∃ k item, t.view k = some item ∧ t'.view k = none ∧ item.OnEvict = some c := by
    intro c hc
    rcases hst.fired with h1 | ⟨k, item, cb, h1, h2, h3, h4⟩
    · rw [h1] at hc
      exact Or.inl hc
    · rw [h4] at hc
      rcases List.mem_append.1 hc with hc | hc
      · exact Or.inl hc
      · simp only [List.mem_singleton] at hc
        subst hc
        exact Or.inr ⟨k, item, h1, h2, h3⟩
  refine ⟨?_, ?_, ?_, ?_, ?_⟩
  · intro k1 k2 i1 i2 c h1 h2 hc1 hc2
    rcases hst.origin env k1 i1 h1 with ⟨o1, ho1, he1⟩ | ⟨v1, x1, cb1, hop1, hn1, he1⟩
    · rcases hst.origin env k2 i2 h2 with ⟨o2, ho2, he2⟩ | ⟨v2, x2, cb2, hop2, hn2, he2⟩
      · exact hO.apart k1 k2 o1 o2 c ho1 ho2 (he1 ▸ hc1) (he2 ▸ hc2)
      · have hcb : cb2 = some c := he2 ▸ hc2
        subst hcb
        exact absurd (hO.held k1 o1 c ho1 (he1 ▸ hc1)) (hnew' k2 v2 x2 c hop2)
    · have hcb : cb1 = some c := he1 ▸ hc1
      subst hcb
      rcases hst.origin env k2 i2 h2 with ⟨o2, ho2, he2⟩ | ⟨v2, x2, cb2, hop2, hn2, he2⟩
      · exact absurd (hO.held k2 o2 c ho2 (he2 ▸ hc2)) (hnew' k1 v1 x1 c hop1)
      · rw [hop1] at hop2
        cases hop2
        rfl
  · intro k i c hv hc hmem
    rcases hst.origin env k i hv with ⟨o, ho, he⟩ | ⟨v, x, cb, hop, hn, he⟩
    · rcases hfired c hmem with hf | ⟨k0, item0, h1, h2, h3⟩
      · exact hO.pending k o c ho (he ▸ hc) hf
      · have := hO.apart k k0 o item0 c ho h1 (he ▸ hc) h3
        subst this
        rw [h2] at hv
        cases hv
    · have hcb : cb = some c := he ▸ hc
      subst hcb
      have hnp := hnew' k v x c hop
      rcases hfired c hmem with hf | ⟨k0, item0, h1, h2, h3⟩
      · exact hnp (hO.called c hf)
      · exact hnp (hO.held k0 item0 c h1 h3)
  · rcases hst.fired with h1 | ⟨k, item, cb, h1, h2, h3, h4⟩
    · rw [h1]
      exact hO.nodup
    · rw [h4]
      apply List.Nodup.append hO.nodup (List.nodup_singleton cb)
      intro c hc1 hc2
      simp only [List.mem_singleton] at hc2
      subst hc2
      exact hO.pending k item c h1 h3 hc1
  · intro k i c hv hc
    rcases hst.origin env k i hv with ⟨o, ho, he⟩ | ⟨v, x, cb, hop, hn, he⟩
    · exact List.mem_append_right _ (hO.held k o c ho (he ▸ hc))
    · have hcb : cb = some c := he ▸ hc
      subst hcb
      exact hhand k v x c hop
  · intro c hmem
    rcases hfired c hmem with hf | ⟨k0, item0, h1, h2, h3⟩
    · exact List.mem_append_right _ (hO.called c hf)
    · exact List.mem_append_right _ (hO.held k0 item0 c h1 h3)

theorem handed_cons {V : Type} (op : Op V) (ops : List (Op V)) :
    handed (op :: ops) = handed [op] ++ handed ops := by
  cases op with
  | Set key value ex cb =>
    cases cb with
    | none => rfl
    | some c => rfl
  | Get key now => rfl
  | Del key => rfl

theorem run_once {V : Type} (env : Env) (ops : List (Op V)) (t t' : T V) (past : List Nat)
    (h : Inv t) (hO : Once t past) (hd : (handed ops).Nodup)
    (hnew : ∀ c, c ∈ handed ops → c ∉ past) (hrun : run env t ops = some t') :
    t'.fired.Nodup := by
  induction ops generalizing t past with
  | nil =>
    simp only [run, Option.some.injEq] at hrun
    subst hrun
    exact hO.nodup
  | cons op ops ih =>
    rw [run_cons] at hrun
    rw [handed_cons] at hd hnew
    cases hs : step env t op with
    | none =>
      rw [hs] at hrun
      cases hrun
    | some t1 =>
      rw [hs] at hrun
      have hst := Step.of_step env h op hs
      have hO1 := hst.once env past hO (fun c hc => hnew c (List.mem_append_left _ hc))
      refine ih t1 (handed [op] ++ past) hst.inv hO1 (List.Nodup.of_append_right hd) ?_ hrun
      intro c hc hmem
      rcases List.mem_append.1 hmem with hm | hm
      · exact (List.nodup_append.1 hd).2.2 hm hc
      · exact hnew c (List.mem_append_right _ hc) hm

/-- C9: over every sequence of calls on `New(size, samples)` that completes, when the `Set`
calls hand over pairwise different `OnEvict` closures (one per item), every closure is called
at most once. -/
theorem C9_onEvict_at_most_once {V : Type} (env : Env) (size samples : Int)
    (ops : List (Op V)) (t : T V) (hd : (handed ops).Nodup)
    (hrun : run env (New env size samples) ops = some t) :
    ∀ cb, t.fired.count cb ≤ 1 := by
  have hO : Once (New (V := V) env size samples) [] := by
    refine ⟨?_, ?_, List.nodup_nil, ?_, ?_⟩
    · intro k1 k2 i1 i2 c h1
      simp [T.view, T.find, New, GoMap.get] at h1
    · intro k i c h1
      simp [T.view, T.find, New, GoMap.get] at h1
    · intro k i c h1
      simp [T.view, T.find, New, GoMap.get] at h1
    · intro c hc
      simp [New] at hc
  have := run_once env ops _ t [] (Inv_New env size samples) hO hd
    (fun c _ hc => by cases hc) hrun
  intro cb
  exact List.nodup_iff_count_le_one.1 this cb

/-- C9 at `New(3, 100)`: seven calls with the closures 1 to 6; the closures 3 and 4 are called,
once each. -/
theorem C9_onEvict_at_most_once_witness :
    (run sampleEnv (New sampleEnv 3 100)
        [Op.Set "a" 1 0 (some 1), Op.Set "bb" 2 0 (some 2), Op.Set "ccc" 3 0 (some 3),
          Op.Set "dddd" 4 0 (some 4), Op.Get "ccc" 0, Op.Set "ccc" 5 0 (some 5),
          Op.Set "eeeee" 6 0 (some 6)]).map (fun t => t.fired) = some [3, 4] ∧
    ∃ t : T Nat, run sampleEnv (New sampleEnv 3 100)
        [Op.Set "a" 1 0 (some 1), Op.Set "bb" 2 0 (some 2), Op.Set "ccc" 3 0 (some 3),
          Op.Set "dddd" 4 0 (some 4), Op.Get "ccc" 0, Op.Set "ccc" 5 0 (some 5),
          Op.Set "eeeee" 6 0 (some 6)] = some t ∧
      ∀ cb, t.fired.count cb ≤ 1 := by
  have hsome : (run sampleEnv (New (V := Nat) sampleEnv 3 100)
      [Op.Set "a" 1 0 (some 1), Op.Set "bb" 2 0 (some 2), Op.Set "ccc" 3 0 (some 3),
        Op.Set "dddd" 4 0 (some 4), Op.Get "ccc" 0, Op.Set "ccc" 5 0 (some 5),
        Op.Set "eeeee" 6 0 (some 6)]).isSome = true := by decide
  obtain ⟨t, ht⟩ := Option.isSome_iff_exists.1 hsome
  exact ⟨by decide, t, ht,
    C9_onEvict_at_most_once sampleEnv 3 100 _ t (by decide) ht⟩

/-! ## C6: the admission contest -/

/-- C6: in a state reached from `New` where the W-LRU and the S-LRU are full, `Set` of a key
that is not resident completes; with `c` the item of the W-LRU tail and `v` the item of the
probation tail, the new item is at the W-LRU head, the S-LRU populations are unchanged, and
keys other than the new key, `c.Key` and `v.Key` keep their items.  When
`doorkeeper.allow(c.keyh)` answers true and `estimate(c.keyh) > estimate(v.keyh)`, `c` is
resident at the head of probation with `listid = 1` and `v` is not resident; otherwise `v` is
resident with the S-LRU unchanged and `c` is not resident.  So `c` is resident and `v` is not
exactly when the doorkeeper allows `c` and the estimate of `c` is strictly greater. -/
theorem C6_admission_contest {V : Type} (env : Env) (size samples : Int) (ops : List (Op V))
    (t : T V) (key : String) (value : V) (ex : Nat) (cb : Option Nat)
    (hrun : run env (New env size samples) ops = some t)
    (hkey : GoMap.get t.data key = none)
    (hW : ¬ (t.lru.ll.length : Int) < t.lru.cap)
    (hS : ¬ slruCache.Len t < t.slru.onecap + t.slru.twocap) :
    ∃ cid c vid v t1,
      list.Back t.lru.ll = some cid ∧ t.elems cid = some c ∧
      list.Back t.slru.one = some vid ∧ t.elems vid = some v ∧
      T.Set env t (Op.item key value ex cb) = some t1 ∧
      (∃ e, t1.lru.ll.head? = some e ∧
        t1.elems e = some { Op.item key value ex cb with keyh := env.Sum64String key }) ∧
      t1.slru.one.length = t.slru.one.length ∧ t1.slru.two = t.slru.two ∧
      (∀ k, k ≠ key → k ≠ c.Key → k ≠ v.Key → t1.find k = t.find k) ∧
      (((doorkeeper.allow env t.bouncer c.keyh).2 = true ∧
          cm4.estimate env t.countSketch v.keyh < cm4.estimate env t.countSketch c.keyh) →
        t1.find c.Key = some { c with listid := 1 } ∧
        (∃ e, t1.slru.one.head? = some e ∧ t1.elems e = some { c with listid := 1 }) ∧
        t1.find v.Key = none) ∧
      (¬ ((doorkeeper.allow env t.bouncer c.keyh).2 = true ∧
          cm4.estimate env t.countSketch v.keyh < cm4.estimate env t.countSketch c.keyh) →
        t1.find v.Key = some v ∧ t1.slru = t.slru ∧ t1.find c.Key = none) ∧
      ((t1.find c.Key ≠ none ∧ t1.find v.Key = none) ↔
        ((doorkeeper.allow env t.bouncer c.keyh).2 = true ∧
          cm4.estimate env t.countSketch v.keyh < cm4.estimate env t.countSketch c.keyh)) := by
  obtain ⟨hinv, _⟩ := reach_inv env size samples ops t hrun
  have hf : t.find (Op.item key value ex cb).Key = none := (T.find_none_iff hinv key).2 hkey
  obtain ⟨t1, cid, c, vid, v, hcid, hc, hvid, hv, hset, hinv1, _, _, _, _, _, _, htwo, hone,
    hhead, hadm, hden⟩ := T.Set_new_contest env hinv (Op.item key value ex cb) hf rfl hW hS
  have hcm := list.Back_mem _ _ hcid
  have hvm := list.Back_mem _ _ hvid
  have hfc := hinv.find_of_elem (Or.inl hcm) hc
  have hfv := hinv.find_of_elem (Or.inr (Or.inl hvm)) hv
  have hkc : ¬ key = c.Key := fun he => by
    have : t.find key = none := hf
    rw [he, hfc] at this
    cases this
  have hkv : ¬ key = v.Key := fun he => by
    have : t.find key = none := hf
    rw [he, hfv] at this
    cases this
  have hcv : ¬ c.Key = v.Key := fun he =>
    hinv.rep.disjAB cid hcm
      ((hinv.rep.key_inj (Or.inl hcm) (Or.inr (Or.inl hvm)) hc hv he) ▸ hvm)
  have hyes : ((doorkeeper.allow env t.bouncer c.keyh).2 = true ∧
        cm4.estimate env t.countSketch v.keyh < cm4.estimate env t.countSketch c.keyh) →
      t1.find c.Key = some { c with listid := 1 } ∧
      (∃ e, t1.slru.one.head? = some e ∧ t1.elems e = some { c with listid := 1 }) ∧
      t1.find v.Key = none := by
    intro h
    obtain ⟨_, hh, hfind⟩ := hadm h
    refine ⟨?_, hh, ?_⟩
    · exact (hfind c.Key).trans ((if_neg hkc).trans (if_pos rfl))
    · exact (hfind v.Key).trans ((if_neg hkv).trans ((if_neg hcv).trans (if_pos rfl)))
  have hno : ¬ ((doorkeeper.allow env t.bouncer c.keyh).2 = true ∧
        cm4.estimate env t.countSketch v.keyh < cm4.estimate env t.countSketch c.keyh) →
      t1.find v.Key = some v ∧ t1.slru = t.slru ∧ t1.find c.Key = none := by
    intro h
    obtain ⟨_, hs, hfind⟩ := hden h
    refine ⟨?_, hs, ?_⟩
    · exact ((hfind v.Key).trans ((if_neg hkv).trans (if_neg hcv))).trans hfv
    · exact (hfind c.Key).trans ((if_neg hkc).trans (if_pos rfl))
  refine ⟨cid, c, vid, v, t1, hcid, hc, hvid, hv, hset, hhead, hone, htwo, ?_, hyes, hno, ?_⟩
  · intro k h1 h2 h3
    have h1' : ¬ key = k := fun he => h1 he.symm
    have h2' : ¬ c.Key = k := fun he => h2 he.symm
    have h3' : ¬ v.Key = k := fun he => h3 he.symm
    by_cases h : (doorkeeper.allow env t.bouncer c.keyh).2 = true ∧
        cm4.estimate env t.countSketch v.keyh < cm4.estimate env t.countSketch c.keyh
    · exact ((hadm h).2.2 k).trans ((if_neg h1').trans ((if_neg h2').trans (if_neg h3')))
    · exact ((hden h).2.2 k).trans ((if_neg h1').trans (if_neg h2'))
  · constructor
    · intro ⟨h1, _⟩
      by_contra h
      exact h1 (hno h).2.2
    · intro h
      obtain ⟨h1, _, h3⟩ := hyes h
      exact ⟨by rw [h1]; exact Option.some_ne_none _, h3⟩

/-- C6 at `New(3, 100)` after `Set a`, `Set bb`, `Set ccc`: the W-LRU holds `ccc`, probation
holds `bb` and `a`, and `Set dddd` runs the contest between `ccc` and `a`. -/
theorem C6_admission_contest_witness :
    (run sampleEnv (New sampleEnv 3 100)
        [Op.Set "a" 1 0 none, Op.Set "bb" 2 0 none, Op.Set "ccc" 3 0 none]).map
      (fun t => (GoMap.get t.data "dddd",
        decide ((t.lru.ll.length : Int) < t.lru.cap),
        decide (slruCache.Len t < t.slru.onecap + t.slru.twocap)))
      = some (none, false, false) ∧
    ∃ t : T Nat, run sampleEnv (New sampleEnv 3 100)
        [Op.Set "a" 1 0 none, Op.Set "bb" 2 0 none, Op.Set "ccc" 3 0 none] = some t ∧
      ∃ cid c vid v t1,
        list.Back t.lru.ll = some cid ∧ t.elems cid = some c ∧
        list.Back t.slru.one = some vid ∧ t.elems vid = some v ∧
        T.Set sampleEnv t (Op.item "dddd" 4 0 none) = some t1 ∧
        (∃ e, t1.lru.ll.head? = some e ∧
          t1.elems e = some { Op.item "dddd" 4 0 none with
            keyh := sampleEnv.Sum64String "dddd" }) ∧
        t1.slru.one.length = t.slru.one.length ∧ t1.slru.two = t.slru.two ∧
        (∀ k, k ≠ "dddd" → k ≠ c.Key → k ≠ v.Key → t1.find k = t.find k) ∧
        (((doorkeeper.allow sampleEnv t.bouncer c.keyh).2 = true ∧
            cm4.estimate sampleEnv t.countSketch v.keyh
              < cm4.estimate sampleEnv t.countSketch c.keyh) →
          t1.find c.Key = some { c with listid := 1 } ∧
          (∃ e, t1.slru.one.head? = some e ∧ t1.elems e = some { c with listid := 1 }) ∧
          t1.find v.Key = none) ∧
        (¬ ((doorkeeper.allow sampleEnv t.bouncer c.keyh).2 = true ∧
            cm4.estimate sampleEnv t.countSketch v.keyh
              < cm4.estimate sampleEnv t.countSketch c.keyh) →
          t1.find v.Key = some v ∧ t1.slru = t.slru ∧ t1.find c.Key = none) ∧
        ((t1.find c.Key ≠ none ∧ t1.find v.Key = none) ↔
          ((doorkeeper.allow sampleEnv t.bouncer c.keyh).2 = true ∧
            cm4.estimate sampleEnv t.countSketch v.keyh
              < cm4.estimate sampleEnv t.countSketch c.keyh)) := by
  have hfacts : (run sampleEnv (New (V := Nat) sampleEnv 3 100)
      [Op.Set "a" 1 0 none, Op.Set "bb" 2 0 none, Op.Set "ccc" 3 0 none]).map
      (fun t => (GoMap.get t.data "dddd",
        decide ((t.lru.ll.length : Int) < t.lru.cap),
        decide (slruCache.Len t < t.slru.onecap + t.slru.twocap)))
      = some (none, false, false) := by decide
  obtain ⟨t, ht, hq⟩ := Option.map_eq_some'.1 hfacts
  simp only [Prod.mk.injEq, decide_eq_false_iff_not] at hq
  obtain ⟨h1, h2, h3⟩ := hq
  exact ⟨hfacts, t, ht, C6_admission_contest sampleEnv 3 100 _ t "dddd" 4 0 none ht h1 h2 h3⟩

/-! ## C10: a second `Set` of a key replaces the value only -/

/-- The call `Set` of a new key completes and leaves the new item resident, in the W-LRU. -/
theorem T.Set_new_find {V : Type} (env : Env) {t : T V} (h : Inv t) (n : Item V)
    (hf : t.find n.Key = none) (hl : n.listid = 0) :
    ∃ t1, T.Set env t n = some t1 ∧ Inv t1 ∧
      t1.find n.Key = some { n with keyh := env.Sum64String n.Key } := by
  by_cases hlt : (t.lru.ll.length : Int) < t.lru.cap
  · obtain ⟨t1, hset, hinv, _, _, _, hfind⟩ := T.Set_new_room env h n hf hl hlt
    exact ⟨t1, hset, hinv, (hfind n.Key).trans (if_pos rfl)⟩
  · by_cases hS : slruCache.Len t < t.slru.onecap + t.slru.twocap
    · obtain ⟨t1, _, _, _, _, hset, hinv, _, _, _, _, _, _, hfind⟩ :=
        T.Set_new_readd env h n hf hl hlt hS
      exact ⟨t1, hset, hinv, (hfind n.Key).trans (if_pos rfl)⟩
    · obtain ⟨t1, _, c, _, v, _, _, _, _, hset, hinv, _, _, _, _, _, _, _, _, _, hadm, hden⟩ :=
        T.Set_new_contest env h n hf hl hlt hS
      by_cases hyes : (doorkeeper.allow env t.bouncer c.keyh).2 = true ∧
          cm4.estimate env t.countSketch v.keyh < cm4.estimate env t.countSketch c.keyh
      · exact ⟨t1, hset, hinv, ((hadm hyes).2.2 n.Key).trans (if_pos rfl)⟩
      · exact ⟨t1, hset, hinv, ((hden hyes).2.2 n.Key).trans (if_pos rfl)⟩

/-- The call `Set` of a key that is resident in the W-LRU completes and replaces the value of
the resident item, nothing else of it. -/
theorem T.Set_old_window {V : Type} (env : Env) {t : T V} (h : Inv t) (n : Item V)
    (item : Item V) (hf : t.find n.Key = some item) (hl0 : item.listid = 0) :
    ∃ t1, T.Set env t n = some t1 ∧ Inv t1 ∧
      t1.find n.Key = some { item with Value := n.Value } := by
  obtain ⟨e, hg, hel, hmem⟩ := T.find_some_data h hf
  have hk := T.find_key h hf
  have hinv2 : Inv { t with elems := store t.elems e { item with Value := n.Value }
                            countSketch := cm4.add env t.countSketch item.keyh } :=
    ⟨h.rep.setValue hel n.Value, h.capLru, h.capOne, h.capTwo, h.lenLru, h.lenTwo, h.lenAll⟩
  refine ⟨_, by simp only [T.Set, hg, hel, hl0, if_true], lruCache.get_inv hinv2 e, ?_⟩
  have := h.rep.lookup_store hmem hel { item with Value := n.Value } n.Key
  simp only [T.find, lruCache.get]
  rw [this, hk]
  simp only [if_true]

/-- C10 as stated fails: `Set(v1)` with an expiry at instant 5, then `Set(v2)` of the same key
without expiry, then `Get` at instant 10: `v2` is not expired, and the `Get` returns
found = false, because the second `Set` keeps the expiry of `v1`. -/
theorem C10_counterexample :
    (Op.item "a" (2 : Nat) 0 none).expired 10 = false ∧
    ((run sampleEnv (New sampleEnv 3 10)
        [Op.Set "a" 1 5 none, Op.Set "a" 2 0 none]).bind
      (fun t => (T.Get sampleEnv t "a" 10).map Prod.snd)) = some none := by
  decide

/-- C10, amended: in a state reached from `New` where the key is not resident, `Set(v1)`,
`Set(v2)` with the same key and `Get(key)` complete.  After the second `Set` the resident item
of the key has the value of `v2` and still the expiry and the callback of `v1`: the second
`Set` replaces the value only.  The `Get` returns `(v2.Value, true)` when `v1` is not expired
at the time of the `Get`, whatever the expiry of `v2` is, and the item stays resident as it
was; when `v1` is expired the `Get` returns found = false and purges the key: the key is no
longer resident and the callback of `v1` is called. -/
theorem C10_set_set_get {V : Type} (env : Env) (size samples : Int) (ops : List (Op V))
    (t : T V) (key : String) (value1 value2 : V) (ex1 ex2 : Nat) (cb1 cb2 : Option Nat)
    (now : Nat) (hrun : run env (New env size samples) ops = some t)
    (hkey : GoMap.get t.data key = none) :
    ∃ t1 t2 t3, T.Set env t (Op.item key value1 ex1 cb1) = some t1 ∧
      T.Set env t1 (Op.item key value2 ex2 cb2) = some t2 ∧
      (∃ item, t2.find key = some item ∧ item.Value = value2 ∧ item.ExpireAt = ex1 ∧
        item.OnEvict = cb1) ∧
      T.Get env t2 key now =
        some (t3, if (Op.item key value1 ex1 cb1).expired now then none else some value2) ∧
      ((Op.item key value1 ex1 cb1).expired now = true →
        t3.find key = none ∧ t3.fired = t2.fired ++ cb1.toList) ∧
      ((Op.item key value1 ex1 cb1).expired now = false →
        ∃ item, t3.find key = some item ∧ item.Value = value2 ∧ item.ExpireAt = ex1 ∧
          item.OnEvict = cb1) := by
  obtain ⟨hinv, _⟩ := reach_inv env size samples ops t hrun
  have hf : t.find (Op.item key value1 ex1 cb1).Key = none := (T.find_none_iff hinv key).2 hkey
  obtain ⟨t1, hset1, hinv1, hf1⟩ := T.Set_new_find env hinv (Op.item key value1 ex1 cb1) hf rfl
  obtain ⟨t2, hset2, hinv2, hf2⟩ :=
    T.Set_old_window env hinv1 (Op.item key value2 ex2 cb2) _ hf1 rfl
  have hf2' : t2.find key = some { ({ Op.item key value1 ex1 cb1 with
      keyh := env.Sum64String key } : Item V) with Value := value2 } := hf2
  cases hx : (Op.item key value1 ex1 cb1).expired now with
  | true =>
    obtain ⟨t3, hget, _, _, hfired, hfind, _⟩ := T.Get_expired env hinv2 key now _ hf2' hx
    refine ⟨t1, t2, t3, hset1, hset2, ⟨_, hf2', rfl, rfl, rfl⟩, by rw [hget]; rfl, ?_, ?_⟩
    · intro _
      exact ⟨(hfind key).trans (if_pos rfl), hfired⟩
    · intro h
      cases h
  | false =>
    rcases T.Get_hit env hinv2 key now _ hf2' hx with ⟨_, _, h1⟩ | ⟨t3, hget, _, _, _, hview⟩
    · cases h1
    · refine ⟨t1, t2, t3, hset1, hset2, ⟨_, hf2', rfl, rfl, rfl⟩, by rw [hget]; rfl, ?_, ?_⟩
      · intro h
        cases h
      · intro _
        have hv := hview key
        rw [T.view_some hf2'] at hv
        obtain ⟨item, hfi, hu⟩ := T.view_eq_some hv
        exact ⟨item, hfi, (congrArg Item.Value hu).symm, (congrArg Item.ExpireAt hu).symm,
          (congrArg Item.OnEvict hu).symm⟩

/-- C10, amended, at a fresh `New(3, 10)`: with `v1` expiring at instant 5 and carrying the
callback 7, the `Get` at instant 10 misses and purges the key, although `v2` carries no
expiry. -/
theorem C10_set_set_get_witness :
    (run sampleEnv (New (V := Nat) sampleEnv 3 10) []) = some (New sampleEnv 3 10) ∧
    GoMap.get (New (V := Nat) sampleEnv 3 10).data "a" = none ∧
    ∃ t1 t2 t3 : T Nat,
      T.Set sampleEnv (New sampleEnv 3 10) (Op.item "a" 1 5 (some 7)) = some t1 ∧
      T.Set sampleEnv t1 (Op.item "a" 2 0 none) = some t2 ∧
      (∃ item, t2.find "a" = some item ∧ item.Value = 2 ∧ item.ExpireAt = 5 ∧
        item.OnEvict = some 7) ∧
      T.Get sampleEnv t2 "a" 10 =
        some (t3, if (Op.item "a" (1 : Nat) 5 (some 7)).expired 10 then none else some 2) ∧
      ((Op.item "a" (1 : Nat) 5 (some 7)).expired 10 = true →
        t3.find "a" = none ∧ t3.fired = t2.fired ++ (some 7).toList) ∧
      ((Op.item "a" (1 : Nat) 5 (some 7)).expired 10 = false →
        ∃ item, t3.find "a" = some item ∧ item.Value = 2 ∧ item.ExpireAt = 5 ∧
          item.OnEvict = some 7) :=
  ⟨rfl, rfl,
    C10_set_set_get sampleEnv 3 10 [] (New sampleEnv 3 10) "a" 1 2 5 0 (some 7) none 10 rfl rfl⟩

/-! ## C4 and C7: a protected capacity of 0 -/

/-- With protected capacity 0, the touch of an item on probation dereferences the nil tail of
the empty protected list. -/
theorem slruCache.get_nil_tail {V : Type} {t : T V} (h : Inv t) (v : Nat)
    (hv : v ∈ t.slru.one) (h0 : t.slru.twocap = 0) : slruCache.get t v = none := by
  rcases slruCache.get_spec h v (Or.inl hv) with ⟨hn, _⟩ | ⟨t1, _, hinv, hbook, _, _, e, he, _⟩
  · exact hn
  · have h1 := hinv.lenTwo
    have h2 : t1.slru.twocap = t.slru.twocap := congrArg Book.twocap hbook
    have h3 : e ∈ t1.slru.two := List.mem_of_mem_head? he
    have h4 := List.length_pos_of_mem h3
    rw [h2, h0] at h1
    omega

/-- With protected capacity 0, `Get` of a key whose item is on probation and not expired does
not complete. -/
theorem T.Get_nil_tail {V : Type} (env : Env) {t : T V} (h : Inv t) (key : String) (now : Nat)
    (item : Item V) (hf : t.find key = some item) (hx : item.expired now = false)
    (hl : item.listid = 1) (h0 : t.slru.twocap = 0) : T.Get env t key now = none := by
  obtain ⟨t2, hd, he, hlr, hs, hfr, _, _, h2⟩ := T.Get_cases env t key now
  obtain ⟨e, hg, hel, hmem⟩ := T.find_some_data h hf
  have hinv2 : Inv t2 := Inv.of_eq h hd hlr hs he hfr
  have hone : e ∈ t.slru.one := by
    rcases hmem with hm | hm | hm
    · have := h.rep.tagA e item hm hel
      omega
    · exact hm
    · have := h.rep.tagC e item hm hel
      omega
  have hl0 : ¬ item.listid = 0 := by omega
  rw [h2 e item hg hel]
  simp only [hx, Bool.false_eq_true, if_false, hl0]
  rw [slruCache.get_nil_tail hinv2 e (hs ▸ hone) (hs ▸ h0)]
  rfl

/-- With protected capacity 0, `Set` of a key whose item is on probation does not complete. -/
theorem T.Set_nil_tail {V : Type} (env : Env) {t : T V} (h : Inv t) (n : Item V)
    (item : Item V) (hf : t.find n.Key = some item) (hl : item.listid = 1)
    (h0 : t.slru.twocap = 0) : T.Set env t n = none := by
  rcases T.Set_old env h n item hf with ⟨hn, _⟩ | ⟨t1, hset, hinv, hcaps, _, _, _, _, hview⟩
  · exact hn
  · exfalso
    obtain ⟨e, hg, hel, hmem⟩ := T.find_some_data h hf
    have hone : e ∈ t.slru.one := by
      rcases hmem with hm | hm | hm
      · have := h.rep.tagA e item hm hel
        omega
      · exact hm
      · have := h.rep.tagC e item hm hel
        omega
    have hinv2 : Inv { t with elems := store t.elems e { item with Value := n.Value }
                              countSketch := cm4.add env t.countSketch item.keyh } :=
      ⟨h.rep.setValue hel n.Value, h.capLru, h.capOne, h.capTwo, h.lenLru, h.lenTwo, h.lenAll⟩
    have hnone := slruCache.get_nil_tail hinv2 e hone h0
    have hl0 : ¬ item.listid = 0 := by omega
    have : T.Set env t n = none := by
      simp only [T.Set, hg, hel, hl0, if_false]
      exact hnone
    rw [this] at hset
    cases hset

/-- On a cache whose three capacities are 1, 1 and 0 (what `New` gives for `size` 1 and 2),
`Set a` and `Set b` complete and leave `a` on probation. -/
theorem probation_after_two_sets {V : Type} (env : Env) (size samples : Int) (v1 v2 : V)
    (hcaps : (New (V := V) env size samples).caps = (1, 1, 0)) :
    ∃ t2 item, run env (New env size samples) [Op.Set "a" v1 0 none, Op.Set "b" v2 0 none]
        = some t2 ∧ Inv t2 ∧ t2.slru.twocap = 0 ∧ t2.find "a" = some item ∧
      item.listid = 1 ∧ item.ExpireAt = 0 := by
  have hc1 : (New (V := V) env size samples).lru.cap = 1 := congrArg Prod.fst hcaps
  have hc2 : (New (V := V) env size samples).slru.onecap = 1 := congrArg (fun p => p.2.1) hcaps
  have hc3 : (New (V := V) env size samples).slru.twocap = 0 := congrArg (fun p => p.2.2) hcaps
  have hinv0 := Inv_New (V := V) env size samples
  have hf0 : ∀ k, (New (V := V) env size samples).find k = none := fun k => rfl
  have hlt0 : (((New (V := V) env size samples).lru.ll.length : Nat) : Int)
      < (New (V := V) env size samples).lru.cap := by
    rw [hc1]
    exact Int.zero_lt_one
  obtain ⟨t1, hset1, hinv1, hbook1, hslru1, _, hfind1⟩ :=
    T.Set_new_room env hinv0 (Op.item "a" v1 0 none) (hf0 _) rfl hlt0
  have hcap1 : t1.lru.cap = 1 := (congrArg Book.cap hbook1).trans hc1
  have hone1 : t1.slru.one = [] := congrArg slruCache.one hslru1
  have htwo1 : t1.slru.two = [] := congrArg slruCache.two hslru1
  have hfa : t1.find "a" = some { Op.item "a" v1 0 none with keyh := env.Sum64String "a" } :=
    (hfind1 "a").trans (if_pos rfl)
  have hfb : t1.find (Op.item "b" v2 0 none).Key = none :=
    (hfind1 "b").trans ((if_neg (show ¬ ("a" : String) = "b" by decide)).trans (hf0 _))
  have hge1 : ¬ (t1.lru.ll.length : Int) < t1.lru.cap := by
    obtain ⟨e, _, _, hmem⟩ := T.find_some_data hinv1 hfa
    rw [hone1, htwo1] at hmem
    have : e ∈ t1.lru.ll := by
      rcases hmem with hm | hm | hm
      · exact hm
      · cases hm
      · cases hm
    have := List.length_pos_of_mem this
    rw [hcap1]
    omega
  have hS1 : slruCache.Len t1 < t1.slru.onecap + t1.slru.twocap := by
    have h1 : t1.slru.onecap = 1 := (congrArg Book.onecap hbook1).trans hc2
    have h2 : t1.slru.twocap = 0 := (congrArg Book.twocap hbook1).trans hc3
    simp only [slruCache.Len, hone1, htwo1, h1, h2, List.length_nil]
    decide
  obtain ⟨t2, cid, c, hcid, hc, hset2, hinv2, hbook2, _, _, _, _, _, hfind2⟩ :=
    T.Set_new_readd env hinv1 (Op.item "b" v2 0 none) hfb rfl hge1 hS1
  have hfc := hinv1.find_of_elem (Or.inl (list.Back_mem _ _ hcid)) hc
  have hck : c.Key = "a" := by
    by_contra hne
    rw [hfind1 c.Key] at hfc
    have h1 : ¬ (Op.item "a" v1 0 none).Key = c.Key := fun he => hne he.symm
    rw [if_neg h1, hf0] at hfc
    cases hfc
  have hceq : c = { Op.item "a" v1 0 none with keyh := env.Sum64String "a" } := by
    rw [hck, hfa] at hfc
    exact (Option.some.inj hfc).symm
  refine ⟨t2, { c with listid := 1 }, ?_, hinv2, ?_, ?_, rfl, ?_⟩
  · simp only [run, step, hset1, Option.some_bind, hset2]
  · exact (congrArg Book.twocap hbook2).trans ((congrArg Book.twocap hbook1).trans hc3)
  · rw [hfind2 "a"]
    have h1 : ¬ (Op.item "b" v2 0 none).Key = "a" := show ¬ ("b" : String) = "a" by decide
    rw [if_neg h1, if_pos hck]
  · rw [hceq]
    rfl

/-- C4 fails on the code: on `New(2, samples)` and on `New(1, samples)`, with any hash, sketch
and doorkeeper, the calls `Set a`, `Set b`, `Get a` do not complete: `New` gives the
protected list capacity 0, `Set b` moves `a` to probation, and `Get a` dereferences the nil
tail of the empty protected list in `slruCache.get`. -/
theorem C4_nil_tail_at_size_1_and_2 {V : Type} (env : Env) (samples : Int) (v1 v2 : V)
    (now : Nat) :
    run env (New env 2 samples) [Op.Set "a" v1 0 none, Op.Set "b" v2 0 none, Op.Get "a" now]
      = none ∧
    run env (New env 1 samples) [Op.Set "a" v1 0 none, Op.Set "b" v2 0 none, Op.Get "a" now]
      = none := by
  have key : ∀ size : Int, (New (V := V) env size samples).caps = (1, 1, 0) →
      run env (New env size samples)
        [Op.Set "a" v1 0 none, Op.Set "b" v2 0 none, Op.Get "a" now] = none := by
    intro size hcaps
    obtain ⟨t2, item, hrun, hinv, h0, hf, hl, hx⟩ :=
      probation_after_two_sets env size samples v1 v2 hcaps
    have hexp : item.expired now = false := by simp [Item.expired, hx]
    have := run_append env (New env size samples)
      [Op.Set "a" v1 0 none, Op.Set "b" v2 0 none] [Op.Get "a" now]
    simp only [List.cons_append, List.nil_append] at this
    rw [this, hrun]
    simp only [Option.some_bind, run, step, T.Get_nil_tail env hinv "a" now item hf hexp hl h0,
      Option.map_none', Option.none_bind]
  exact ⟨key 2 rfl, key 1 rfl⟩

/-- C7 fails on the code: on `New(2, samples)`, with any hash, sketch and doorkeeper, after
`Set a` and `Set b` the key `a` is resident (on probation), and the `Set` of this resident key
does not complete: it dereferences the nil tail of the empty protected list. -/
theorem C7_set_of_resident_key_stops {V : Type} (env : Env) (samples : Int) (v1 v2 v3 : V) :
    (∃ t2 item, run env (New env 2 samples) [Op.Set "a" v1 0 none, Op.Set "b" v2 0 none]
        = some t2 ∧ t2.find "a" = some item) ∧
    run env (New env 2 samples)
      [Op.Set "a" v1 0 none, Op.Set "b" v2 0 none, Op.Set "a" v3 0 none] = none := by
  obtain ⟨t2, item, hrun, hinv, h0, hf, hl, hx⟩ :=
    probation_after_two_sets env 2 samples v1 v2 rfl
  refine ⟨⟨t2, item, hrun, hf⟩, ?_⟩
  have := run_append env (New env 2 samples)
    [Op.Set "a" v1 0 none, Op.Set "b" v2 0 none] [Op.Set "a" v3 0 none]
  simp only [List.cons_append, List.nil_append] at this
  rw [this, hrun]
  simp only [Option.some_bind, run, step,
    T.Set_nil_tail env hinv (Op.item "a" v3 0 none) item hf hl h0, Option.none_bind]

/-- With a protected capacity of at least 1, a `Set` of a resident key, or of a new key while
the W-LRU or the S-LRU has room, completes, calls no callback, leaves the key resident with
the new value and keeps the item of every other key. -/
theorem T.Set_keeps_residents {V : Type} (env : Env) {t : T V} (h : Inv t) (n : Item V)
    (hl : n.listid = 0) (hcap : 1 ≤ t.slru.twocap)
    (hroom : t.find n.Key ≠ none ∨ (t.lru.ll.length : Int) < t.lru.cap ∨
      slruCache.Len t < t.slru.onecap + t.slru.twocap) :
    ∃ t1, T.Set env t n = some t1 ∧ t1.fired = t.fired ∧
      (∃ x, t1.view n.Key = some x ∧ x.Value = n.Value) ∧
      ∀ k, k ≠ n.Key → t1.view k = t.view k := by
  cases hf : t.find n.Key with
  | some item =>
    rcases T.Set_old env h n item hf with ⟨_, h0, _⟩ | ⟨t1, hset, _, _, hfi, _, _, _, hview⟩
    · omega
    · refine ⟨t1, hset, hfi, ⟨_, (hview n.Key).trans (if_pos rfl), rfl⟩, ?_⟩
      intro k hk
      exact (hview k).trans (if_neg (fun he => hk he.symm))
  | none =>
    by_cases hlt : (t.lru.ll.length : Int) < t.lru.cap
    · obtain ⟨t1, hset, _, hbook, _, _, hfind⟩ := T.Set_new_room env h n hf hl hlt
      refine ⟨t1, hset, congrArg Book.fired hbook,
        ⟨_, T.view_some ((hfind n.Key).trans (if_pos rfl)), rfl⟩, ?_⟩
      intro k hk
      exact T.view_of_find ((hfind k).trans (if_neg (fun he => hk he.symm)))
    · have hS : slruCache.Len t < t.slru.onecap + t.slru.twocap := by
        rcases hroom with h1 | h1 | h1
        · exact absurd hf h1
        · exact absurd h1 hlt
        · exact h1
      obtain ⟨t1, cid, c, hcid, hc, hset, _, hbook, _, _, _, _, _, hfind⟩ :=
        T.Set_new_readd env h n hf hl hlt hS
      have hfc := h.find_of_elem (Or.inl (list.Back_mem _ _ hcid)) hc
      refine ⟨t1, hset, congrArg Book.fired hbook,
        ⟨_, T.view_some ((hfind n.Key).trans (if_pos rfl)), rfl⟩, ?_⟩
      intro k hk
      have h1 : ¬ n.Key = k := fun he => hk he.symm
      by_cases h2 : c.Key = k
      · subst h2
        have hcn := (hfind c.Key).trans ((if_neg h1).trans (if_pos rfl))
        rw [T.view_some hfc, T.view_some hcn]
        rfl
      · exact T.view_of_find ((hfind k).trans ((if_neg h1).trans (if_neg h2)))

/-! ## C8: the displaced probation tail -/

/-- C8 fails on the code: on `New(3, 100)` (one slot each for the W-LRU, probation and
protected), after six calls the key `a`, handed over with the closure 1, is resident and
the closures called so far are 3 and 4; the seventh call `Set eeeee` pushes `ccc` out of the
W-LRU, the doorkeeper allows `ccc`, its estimate 1 is greater than the estimate 0 of the
probation tail `a`, and `slruCache.add` overwrites the tail: `a` is no longer resident,
`ccc` is, and the closure 1 has not been called. -/
theorem C8_displaced_item_not_called :
    (run sampleEnv (New sampleEnv 3 100)
        [Op.Set "a" 1 0 (some 1), Op.Set "bb" 2 0 (some 2), Op.Set "ccc" 3 0 (some 3),
          Op.Set "dddd" 4 0 (some 4), Op.Get "ccc" 0, Op.Set "ccc" 5 0 (some 5)]).map
      (fun t => ((t.find "a").map (fun item => item.OnEvict), t.fired))
      = some (some (some 1), [3, 4]) ∧
    (run sampleEnv (New sampleEnv 3 100)
        [Op.Set "a" 1 0 (some 1), Op.Set "bb" 2 0 (some 2), Op.Set "ccc" 3 0 (some 3),
          Op.Set "dddd" 4 0 (some 4), Op.Get "ccc" 0, Op.Set "ccc" 5 0 (some 5),
          Op.Set "eeeee" 6 0 (some 6)]).map
      (fun t => ((t.find "a").map (fun item => item.OnEvict),
        (t.find "ccc").map (fun item => item.listid), t.fired))
      = some (none, some 1, [3, 4]) := by
  decide

/-! ## C13: the representation invariant -/

/-- C13: in `New(size, samples)` and after every sequence of `Set`/`Get`/`Del` calls that
completes, each key `k` of the shared map maps to a node that holds an item with `Key = k`,
the node is in exactly one of the three lists and the `listid` of the item names that list
(0 the W-LRU, 1 probation, 2 protected); every node of every list is the map entry of the key
of its item; no list holds a node twice and the map has one entry per key; hence the size of
the map is the sum of the three list lengths. -/
theorem C13_representation_invariant {V : Type} (env : Env) (size samples : Int)
    (ops : List (Op V)) (t : T V) (hrun : run env (New env size samples) ops = some t) :
    (∀ k e, GoMap.get t.data k = some e →
      ∃ item, t.elems e = some item ∧ item.Key = k ∧
        ((e ∈ t.lru.ll ∧ e ∉ t.slru.one ∧ e ∉ t.slru.two ∧ item.listid = 0) ∨
         (e ∉ t.lru.ll ∧ e ∈ t.slru.one ∧ e ∉ t.slru.two ∧ item.listid = 1) ∨
         (e ∉ t.lru.ll ∧ e ∉ t.slru.one ∧ e ∈ t.slru.two ∧ item.listid = 2))) ∧
    (∀ e, e ∈ t.lru.ll ∨ e ∈ t.slru.one ∨ e ∈ t.slru.two →
      ∃ item, t.elems e = some item ∧ GoMap.get t.data item.Key = some e) ∧
    t.lru.ll.Nodup ∧ t.slru.one.Nodup ∧ t.slru.two.Nodup ∧ (t.data.map Prod.fst).Nodup ∧
    t.data.length = t.lru.ll.length + t.slru.one.length + t.slru.two.length := by
  obtain ⟨hinv, _⟩ := reach_inv env size samples ops t hrun
  have r := hinv.rep
  refine ⟨?_, r.owned, r.nodupA, r.nodupB, r.nodupC, r.keys, r.size⟩
  intro k e hg
  obtain ⟨hmem, item, hitem, hk⟩ := r.mapped k e hg
  refine ⟨item, hitem, hk, ?_⟩
  rcases hmem with hm | hm | hm
  · exact Or.inl ⟨hm, r.disjAB e hm, r.disjAC e hm, r.tagA e item hm hitem⟩
  · exact Or.inr (Or.inl ⟨fun ha => r.disjAB e ha hm, hm, r.disjBC e hm,
      r.tagB e item hm hitem⟩)
  · exact Or.inr (Or.inr ⟨fun ha => r.disjAC e ha hm, fun hb => r.disjBC e hb hm, hm,
      r.tagC e item hm hitem⟩)

/-- C13 at `New(3, 10)` after `Set a`, `Set bb`, `Get a`, `Set ccc`, `Del bb`: the run
completes with two resident keys, one in the W-LRU and one in the protected list. -/
theorem C13_representation_invariant_witness :
    (run sampleEnv (New sampleEnv 3 10)
        [Op.Set "a" 1 0 none, Op.Set "bb" 2 0 none, Op.Get "a" 0, Op.Set "ccc" 3 0 none,
          Op.Del "bb"]).map
      (fun t => (t.data.length, t.lru.ll.length, t.slru.one.length, t.slru.two.length))
        = some (2, 1, 0, 1) ∧
    ∃ t : T Nat, run sampleEnv (New sampleEnv 3 10)
        [Op.Set "a" 1 0 none, Op.Set "bb" 2 0 none, Op.Get "a" 0, Op.Set "ccc" 3 0 none,
          Op.Del "bb"] = some t ∧
      (∀ k e, GoMap.get t.data k = some e →
        ∃ item, t.elems e = some item ∧ item.Key = k ∧
          ((e ∈ t.lru.ll ∧ e ∉ t.slru.one ∧ e ∉ t.slru.two ∧ item.listid = 0) ∨
           (e ∉ t.lru.ll ∧ e ∈ t.slru.one ∧ e ∉ t.slru.two ∧ item.listid = 1) ∨
           (e ∉ t.lru.ll ∧ e ∉ t.slru.one ∧ e ∈ t.slru.two ∧ item.listid = 2))) ∧
      (∀ e, e ∈ t.lru.ll ∨ e ∈ t.slru.one ∨ e ∈ t.slru.two →
        ∃ item, t.elems e = some item ∧ GoMap.get t.data item.Key = some e) ∧
      t.lru.ll.Nodup ∧ t.slru.one.Nodup ∧ t.slru.two.Nodup ∧ (t.data.map Prod.fst).Nodup ∧
      t.data.length = t.lru.ll.length + t.slru.one.length + t.slru.two.length := by
  have hsome : (run sampleEnv (New (V := Nat) sampleEnv 3 10)
      [Op.Set "a" 1 0 none, Op.Set "bb" 2 0 none, Op.Get "a" 0, Op.Set "ccc" 3 0 none,
        Op.Del "bb"]).isSome = true := by decide
  obtain ⟨t, ht⟩ := Option.isSome_iff_exists.1 hsome
  exact ⟨by decide, t, ht, C13_representation_invariant sampleEnv 3 10 _ t ht⟩

/-! ## C14: the probation population -/

/-- C14 as stated fails: on `New(3, 10)` the probation capacity is 1, and after `Set a`,
`Set bb`, `Set ccc` two items are on probation: `slruCache.add` pushes to probation whenever
the S-LRU as a whole has room. -/
theorem C14_counterexample :
    (run sampleEnv (New (V := Nat) sampleEnv 3 10)
        [Op.Set "a" 1 0 none, Op.Set "bb" 2 0 none, Op.Set "ccc" 3 0 none]).map
      (fun t => (t.slru.one.length, t.slru.onecap, t.slru.two.length, t.slru.twocap))
        = some (2, 1, 0, 1) := by
  decide

/-- The wrapping subtraction of `New` is the two's complement result for Go `int`s. -/
theorem subInt_eq_wrapInt (a b : Int) (ha : -2 ^ 63 ≤ a) (ha' : a < 2 ^ 63) (hb : 1 ≤ b)
    (hb' : b < 2 ^ 63) : subInt a b = wrapInt (a - b) := by
  simp only [subInt, wrapInt]
  split
  · have : (a - b + 2 ^ 63) % 2 ^ 64 = a - b + 2 ^ 63 + 2 ^ 64 := by
      rw [← Int.add_emod_self]
      exact Int.emod_eq_of_lt (by omega) (by omega)
    omega
  · have : (a - b + 2 ^ 63) % 2 ^ 64 = a - b + 2 ^ 63 :=
      Int.emod_eq_of_lt (by omega) (by omega)
    omega

/-- The subtraction `size - lruSize` of `New` does not wrap around unless `size` is the
least `int`. -/
theorem subInt_no_wrap (size : Int) (h : -2 ^ 63 < size) :
    subInt size (max 1 (size.tdiv 100)) = size - max 1 (size.tdiv 100) := by
  simp only [subInt]
  apply if_neg
  by_cases h0 : 0 ≤ size
  · rw [Int.tdiv_eq_ediv h0 (by omega)]
    omega
  · have e : size.tdiv 100 = -((-size).tdiv 100) := by
      rw [Int.neg_tdiv, neg_neg]
    rw [e, Int.tdiv_eq_ediv (by omega) (by omega)]
    omega

/-- At the least `int` the subtraction wraps around: `New(-2^63, samples)` has the
capacities the Go arithmetic gives. -/
theorem New_caps_least_int {V : Type} (env : Env) (samples : Int) :
    (New (V := V) env (-2 ^ 63) samples).caps
      = (1, 1844674407370955161, 7378697629483820646) := rfl

/-- C14, amended: for every `size`, after every sequence of `Set`/`Get`/`Del` calls on
`New(size, samples)` that completes, with `main = max(1, size - max(1, size/100))` in Go `int`
arithmetic (the subtraction wraps around at the least `int`, and only there), the probation
capacity is `max(1, main/5)`, the probation and the protected capacity add up to `main`, the
probation and the protected population together are at most `main`, the protected population
is at most the protected capacity, and the probation population is at most the probation
capacity whenever the protected list is full. -/
theorem C14_probation_bounded_by_main {V : Type} (env : Env) (size samples : Int)
    (ops : List (Op V)) (t : T V) (hrun : run env (New env size samples) ops = some t) :
    t.slru.onecap = max 1 ((max 1 (subInt size (max 1 (size.tdiv 100)))).tdiv 5) ∧
    t.slru.onecap + t.slru.twocap = max 1 (subInt size (max 1 (size.tdiv 100))) ∧
    (-2 ^ 63 < size →
      subInt size (max 1 (size.tdiv 100)) = size - max 1 (size.tdiv 100)) ∧
    (t.slru.one.length : Int) + (t.slru.two.length : Int)
      ≤ max 1 (subInt size (max 1 (size.tdiv 100))) ∧
    (t.slru.two.length : Int) ≤ t.slru.twocap ∧
    ((t.slru.two.length : Int) = t.slru.twocap →
      (t.slru.one.length : Int) ≤ t.slru.onecap) := by
  obtain ⟨hinv, hcaps⟩ := reach_inv env size samples ops t hrun
  have h2 : t.slru.onecap
      = max 1 ((max 1 (subInt size (max 1 (size.tdiv 100)))).tdiv 5) := by
    have := congrArg (fun p => p.2.1) hcaps
    simpa only [T.caps, New, newSLRU, one_mul] using this
  have h3 : t.slru.twocap = max 1 (subInt size (max 1 (size.tdiv 100)))
      - max 1 ((max 1 (subInt size (max 1 (size.tdiv 100)))).tdiv 5) := by
    have := congrArg (fun p => p.2.2) hcaps
    simpa only [T.caps, New, newSLRU, one_mul] using this
  have h2l := hinv.lenTwo
  have hal := hinv.lenAll
  simp only [slruCache.Len] at hal
  have hsum : t.slru.onecap + t.slru.twocap
      = max 1 (subInt size (max 1 (size.tdiv 100))) := by
    rw [h2, h3]
    omega
  refine ⟨h2, hsum, ?_, ?_, h2l, ?_⟩
  · intro hsize
    exact subInt_no_wrap size hsize
  · rw [← hsum]
    exact hal
  · intro hfull
    omega

/-- C14, amended, at `New(3, 10)` after `Set a`, `Set bb`, `Set ccc`: two items on probation,
none protected, `main = 2`. -/
theorem C14_probation_bounded_by_main_witness :
    ∃ t : T Nat, run sampleEnv (New sampleEnv 3 10)
        [Op.Set "a" 1 0 none, Op.Set "bb" 2 0 none, Op.Set "ccc" 3 0 none] = some t ∧
      t.slru.onecap = max 1 ((max 1 (subInt 3 (max 1 ((3 : Int).tdiv 100)))).tdiv 5) ∧
      t.slru.onecap + t.slru.twocap = max 1 (subInt 3 (max 1 ((3 : Int).tdiv 100))) ∧
      (-2 ^ 63 < (3 : Int) →
        subInt 3 (max 1 ((3 : Int).tdiv 100)) = 3 - max 1 ((3 : Int).tdiv 100)) ∧
      (t.slru.one.length : Int) + (t.slru.two.length : Int)
        ≤ max 1 (subInt 3 (max 1 ((3 : Int).tdiv 100))) ∧
      (t.slru.two.length : Int) ≤ t.slru.twocap ∧
      ((t.slru.two.length : Int) = t.slru.twocap →
        (t.slru.one.length : Int) ≤ t.slru.onecap) := by
  have hsome : (run sampleEnv (New (V := Nat) sampleEnv 3 10)
      [Op.Set "a" 1 0 none, Op.Set "bb" 2 0 none, Op.Set "ccc" 3 0 none]).isSome = true := by
    decide
  obtain ⟨t, ht⟩ := Option.isSome_iff_exists.1 hsome
  exact ⟨t, ht, C14_probation_bounded_by_main sampleEnv 3 10 _ t ht⟩

/-! ## C11: a cache of size 1 -/

/-- C11 as stated fails: on `New(1, 10)` the W-LRU and the probation list have capacity 1
each, and after `Set a`, `Set b` both keys are resident: `a` has moved to probation
without a contest and `b` is in the W-LRU. -/
theorem C11_counterexample :
    (run sampleEnv (New (V := Nat) sampleEnv 1 10)
        [Op.Set "a" 1 0 none, Op.Set "b" 2 0 none]).map
      (fun t => (t.data.length, ((t.find "a").map (fun i => (i.Value, i.listid))),
        ((t.find "b").map (fun i => (i.Value, i.listid)))))
        = some (2, some (1, 1), some (2, 0)) := by
  decide

/-- C11, amended: on `New(1, samples)`, after every sequence of calls that completes, the
W-LRU holds at most one item, the probation list holds at most one item, the protected list
is empty, so at most two keys are resident; and a `Set` that completes leaves its key
resident with the value of the call. -/
theorem C11_size_one_holds_two {V : Type} (env : Env) (samples : Int) (ops : List (Op V))
    (t : T V) (hrun : run env (New env 1 samples) ops = some t) :
    t.lru.ll.length ≤ 1 ∧ t.slru.one.length ≤ 1 ∧ t.slru.two = [] ∧ t.data.length ≤ 2 ∧
    (∀ key value ex cb t', T.Set env t (Op.item key value ex cb) = some t' →
      ∃ item, t'.find key = some item ∧ item.Value = value) := by
  obtain ⟨hinv, hcaps⟩ := reach_inv env 1 samples ops t hrun
  have hc : t.caps = (1, 1, 0) := hcaps
  have h1 : t.lru.cap = 1 := congrArg Prod.fst hc
  have h2 : t.slru.onecap = 1 := congrArg (fun p => p.2.1) hc
  have h3 : t.slru.twocap = 0 := congrArg (fun p => p.2.2) hc
  have hl := hinv.lenLru
  have h2l := hinv.lenTwo
  have hal := hinv.lenAll
  have hsz := hinv.rep.size
  simp only [slruCache.Len] at hal
  rw [h1] at hl
  rw [h3] at h2l
  rw [h2, h3] at hal
  have htwo : t.slru.two.length = 0 := by omega
  refine ⟨by omega, by omega, List.length_eq_zero.1 htwo, by omega, ?_⟩
  intro key value ex cb t' hset
  have hst := Step.of_step env hinv (Op.Set key value ex cb) hset
  cases hv : t.view key with
  | none =>
    obtain ⟨item, hf, hx⟩ := T.view_eq_some (hst.setNew key value ex cb rfl hv)
    refine ⟨item, hf, ?_⟩
    have := congrArg Item.Value hx
    exact this.symm
  | some old =>
    obtain ⟨item, hf, hx⟩ := T.view_eq_some (hst.setOld key value ex cb old rfl hv)
    refine ⟨item, hf, ?_⟩
    have := congrArg Item.Value hx
    exact this.symm

/-- C11, amended, at `New(1, 10)` after `Set a`, `Set b`, `Set c`: the run completes with
two resident keys. -/
theorem C11_size_one_holds_two_witness :
    (run sampleEnv (New (V := Nat) sampleEnv 1 10)
        [Op.Set "a" 1 0 none, Op.Set "b" 2 0 none, Op.Set "c" 3 0 none]).map
      (fun t => t.data.length) = some 2 ∧
    ∃ t : T Nat, run sampleEnv (New sampleEnv 1 10)
        [Op.Set "a" 1 0 none, Op.Set "b" 2 0 none, Op.Set "c" 3 0 none] = some t ∧
      t.lru.ll.length ≤ 1 ∧ t.slru.one.length ≤ 1 ∧ t.slru.two = [] ∧ t.data.length ≤ 2 ∧
      (∀ key value ex cb t', T.Set sampleEnv t (Op.item key value ex cb) = some t' →
        ∃ item, t'.find key = some item ∧ item.Value = value) := by
  have hsome : (run sampleEnv (New (V := Nat) sampleEnv 1 10)
      [Op.Set "a" 1 0 none, Op.Set "b" 2 0 none, Op.Set "c" 3 0 none]).isSome = true := by
    decide
  obtain ⟨t, ht⟩ := Option.isSome_iff_exists.1 hsome
  exact ⟨by decide, t, ht, C11_size_one_holds_two sampleEnv 10 _ t ht⟩

/-! ## C12: the first candidate is admitted without a contest -/

theorem nvec.get_newNvec (w i : Nat) : nvec.get (newNvec w) i = 0 := by
  have : (List.replicate ((w + 1) / 2) 0).getD (i / 2) 0 = 0 := by
    rw [List.getD_eq_getElem?_getD, List.getElem?_replicate]
    split <;> rfl
  simp only [nvec.get, newNvec, this, Nat.zero_shiftRight, Nat.zero_mod]

/-- A fresh sketch estimates every key hash at 0. -/
theorem cm4.estimate_newCM4 (env : Env) (w : Int) (h : Nat) :
    cm4.estimate env (newCM4 w) h = 0 := by
  simp [cm4.estimate, newCM4, depth, List.replicate, List.range, List.range.loop,
    nvec.get_newNvec]
/-- On a cache whose three capacities are 1, 1 and 0 (what `New` gives for `size` 1 and 2),
three `Set` calls of distinct keys complete: the first key moves to probation without a
contest, the second one loses the contest against it, and the doorkeeper has been asked about
the second key only. -/
theorem three_sets_small {V : Type} (env : Env) (size samples : Int) (a b c : String)
    (va vb vc : V) (hab : a ≠ b) (hac : a ≠ c) (hbc : b ≠ c)
    (hcaps : (New (V := V) env size samples).caps = (1, 1, 0)) :
    ∃ t3, run env (New env size samples)
        [Op.Set a va 0 none, Op.Set b vb 0 none, Op.Set c vc 0 none] = some t3 ∧
      t3.find a = some { Op.item a va 0 none with keyh := env.Sum64String a, listid := 1 } ∧
      t3.find b = none ∧
      t3.find c = some { Op.item c vc 0 none with keyh := env.Sum64String c } ∧
      t3.bouncer = (doorkeeper.allow env (newDoorkeeper env samples) (env.Sum64String b)).1 := by
  have hc1 : (New (V := V) env size samples).lru.cap = 1 := congrArg Prod.fst hcaps
  have hc2 : (New (V := V) env size samples).slru.onecap = 1 := congrArg (fun p => p.2.1) hcaps
  have hc3 : (New (V := V) env size samples).slru.twocap = 0 := congrArg (fun p => p.2.2) hcaps
  have hinv0 := Inv_New (V := V) env size samples
  have hf0 : ∀ k, (New (V := V) env size samples).find k = none := fun k => rfl
  have hlt0 : (((New (V := V) env size samples).lru.ll.length : Nat) : Int)
      < (New (V := V) env size samples).lru.cap := by
    rw [hc1]
    exact Int.zero_lt_one
  -- first call: the W-LRU has room
  obtain ⟨t1, hset1, hinv1, hbook1, hslru1, _, hfind1⟩ :=
    T.Set_new_room env hinv0 (Op.item a va 0 none) (hf0 _) rfl hlt0
  have hcap1 : t1.lru.cap = 1 := (congrArg Book.cap hbook1).trans hc1
  have hone1 : t1.slru.one = [] := congrArg slruCache.one hslru1
  have htwo1 : t1.slru.two = [] := congrArg slruCache.two hslru1
  have hfa : t1.find a = some { Op.item a va 0 none with keyh := env.Sum64String a } :=
    (hfind1 a).trans (if_pos rfl)
  have hfb : t1.find (Op.item b vb 0 none).Key = none :=
    (hfind1 b).trans ((if_neg hab).trans (hf0 _))
  have hge1 : ¬ (t1.lru.ll.length : Int) < t1.lru.cap := by
    obtain ⟨e, _, _, hmem⟩ := T.find_some_data hinv1 hfa
    rw [hone1, htwo1] at hmem
    have : e ∈ t1.lru.ll := by
      rcases hmem with hm | hm | hm
      · exact hm
      · cases hm
      · cases hm
    have := List.length_pos_of_mem this
    rw [hcap1]
    omega
  have hS1 : slruCache.Len t1 < t1.slru.onecap + t1.slru.twocap := by
    have h1 : t1.slru.onecap = 1 := (congrArg Book.onecap hbook1).trans hc2
    have h2 : t1.slru.twocap = 0 := (congrArg Book.twocap hbook1).trans hc3
    simp only [slruCache.Len, hone1, htwo1, h1, h2, List.length_nil]
    decide
  -- second call: the W-LRU tail moves to probation, the S-LRU has room
  obtain ⟨t2, cid, c0, hcid, hc0, hset2, hinv2, hbook2, htwo2, hlen2, hone2, _, _, hfind2⟩ :=
    T.Set_new_readd env hinv1 (Op.item b vb 0 none) hfb rfl hge1 hS1
  have hfc := hinv1.find_of_elem (Or.inl (list.Back_mem _ _ hcid)) hc0
  have hck : c0.Key = a := by
    by_contra hne
    rw [hfind1 c0.Key] at hfc
    have h1 : ¬ (Op.item a va 0 none).Key = c0.Key := fun he => hne he.symm
    rw [if_neg h1, hf0] at hfc
    cases hfc
  have hceq : c0 = { Op.item a va 0 none with keyh := env.Sum64String a } := by
    rw [hck, hfa] at hfc
    exact (Option.some.inj hfc).symm
  have hfind2' : ∀ k, t2.find k =
      if b = k then some { Op.item b vb 0 none with keyh := env.Sum64String b }
      else if a = k then
        some { Op.item a va 0 none with keyh := env.Sum64String a, listid := 1 }
      else none := by
    intro k
    rw [hfind2 k, hck, hceq, hfind1 k]
    by_cases h1 : b = k
    · simp only [Op.item, NewItemExpire, Item.WithOnEvict, h1, if_true]
    · by_cases h2 : a = k
      · simp only [Op.item, NewItemExpire, Item.WithOnEvict, h1, h2, if_true, if_false]
      · simp only [Op.item, NewItemExpire, Item.WithOnEvict, h1, h2, if_false]
        exact hf0 k
  have hcap2 : t2.lru.cap = 1 := (congrArg Book.cap hbook2).trans hcap1
  have hcap2a : t2.slru.onecap = 1 :=
    (congrArg Book.onecap hbook2).trans ((congrArg Book.onecap hbook1).trans hc2)
  have hcap2b : t2.slru.twocap = 0 :=
    (congrArg Book.twocap hbook2).trans ((congrArg Book.twocap hbook1).trans hc3)
  have hsk2 : t2.countSketch = newCM4 size :=
    (congrArg Book.countSketch hbook2).trans (congrArg Book.countSketch hbook1)
  have hbo2 : t2.bouncer = newDoorkeeper env samples :=
    (congrArg Book.bouncer hbook2).trans (congrArg Book.bouncer hbook1)
  have hfc2 : t2.find (Op.item c vc 0 none).Key = none := by
    show t2.find c = none
    rw [hfind2' c]
    simp only [hbc, hac, if_false]
  have hge2 : ¬ (t2.lru.ll.length : Int) < t2.lru.cap := by
    rw [hlen2, hcap2, ← hcap1]
    exact hge1
  have hS2 : ¬ slruCache.Len t2 < t2.slru.onecap + t2.slru.twocap := by
    simp only [slruCache.Len, hone2, htwo2, hone1, htwo1, hcap2a, hcap2b, List.length_nil]
    decide
  -- third call: the contest
  obtain ⟨t3, cid', cc, vid, v, hcid', hcc, hvid, hv, hset3, hinv3, _, _, _, hsk3, hbo3, _, _, _,
    _, _, hden⟩ := T.Set_new_contest env hinv2 (Op.item c vc 0 none) hfc2 rfl hge2 hS2
  have hcm := list.Back_mem _ _ hcid'
  have hfcc := hinv2.find_of_elem (Or.inl hcm) hcc
  have hcl : cc.listid = 0 := hinv2.rep.tagA cid' cc hcm hcc
  have hcceq : cc = { Op.item b vb 0 none with keyh := env.Sum64String b } := by
    rw [hfind2' cc.Key] at hfcc
    by_cases h1 : b = cc.Key
    · rw [if_pos h1] at hfcc
      exact (Option.some.inj hfcc).symm
    · rw [if_neg h1] at hfcc
      by_cases h2 : a = cc.Key
      · rw [if_pos h2] at hfcc
        have := congrArg Item.listid (Option.some.inj hfcc)
        rw [hcl] at this
        cases this
      · rw [if_neg h2] at hfcc
        cases hfcc
  have hno : ¬ ((doorkeeper.allow env t2.bouncer cc.keyh).2 = true ∧
      cm4.estimate env t2.countSketch v.keyh < cm4.estimate env t2.countSketch cc.keyh) := by
    rintro ⟨_, hlt⟩
    rw [hsk2, cm4.estimate_newCM4, cm4.estimate_newCM4] at hlt
    exact Nat.lt_irrefl _ hlt
  obtain ⟨_, _, hfind3⟩ := hden hno
  have hcck : cc.Key = b := by rw [hcceq]; rfl
  refine ⟨t3, ?_, ?_, ?_, ?_, ?_⟩
  · simp only [run, step, hset1, Option.some_bind, hset2, hset3]
  · rw [hfind3 a, hcck, hfind2' a]
    have h1 : ¬ (Op.item c vc 0 none).Key = a := fun he => hac he.symm
    have h2 : ¬ b = a := fun he => hab he.symm
    rw [if_neg h1, if_neg h2, if_neg h2, if_pos rfl]
  · rw [hfind3 b, hcck]
    have h1 : ¬ (Op.item c vc 0 none).Key = b := fun he => hbc he.symm
    rw [if_neg h1, if_pos rfl]
  · rw [hfind3 c]
    exact if_pos rfl
  · rw [hbo3, hbo2, hcceq]
/-- C12 as stated fails: on `New(2, 10)`, after `Set A`, `Set B`, `Set C` the key `A` is
resident in the S-LRU, on probation: when `Set B` pushes `A` out of the W-LRU the S-LRU has
room, `victim()` is nil and `A` is added without the doorkeeper being asked; it is `B` that is
not resident afterwards. -/
theorem C12_counterexample :
    (run sampleEnv (New (V := Nat) sampleEnv 2 10)
        [Op.Set "A" 1 0 none, Op.Set "B" 2 0 none, Op.Set "C" 3 0 none]).map
      (fun t => ((t.find "A").map (fun i => i.listid), (t.find "B").map (fun i => i.listid),
        (t.find "C").map (fun i => i.listid), t.slru.one.length))
        = some (some 1, none, some 0, 1) := by
  decide

/-- A fresh doorkeeper with at least one hash derivation refuses every key hash: it is the
first sighting. -/
theorem doorkeeper.allow_fresh (env : Env) (samples : Int) (h : Nat)
    (hk : 1 ≤ env.filterHashes samples) :
    (doorkeeper.allow env (newDoorkeeper env samples) h).2 = false := by
  have hbit : ∀ p, (List.replicate (env.filterBits samples) false).getD p false = false := by
    intro p
    rw [List.getD_eq_getElem?_getD, List.getElem?_replicate]
    split <;> rfl
  have hall : (doorkeeper.positions env (newDoorkeeper env samples) h).all
      (fun p => (newDoorkeeper env samples).bits.getD p false) = false := by
    rw [List.all_eq_false]
    refine ⟨env.filterIndex 0 h % (newDoorkeeper env samples).bits.length, ?_, ?_⟩
    · simp only [doorkeeper.positions, List.mem_map, List.mem_range]
      exact ⟨0, hk, rfl⟩
    · simp only [newDoorkeeper, hbit, Bool.false_eq_true, not_false_eq_true]
  simp only [doorkeeper.allow, hall, Bool.false_eq_true, if_false]

/-- C12, amended.  In a state reached from `New`, a `Set` of a new key while the W-LRU is full
pushes the W-LRU tail item `cand` out and completes.  While the S-LRU has room `cand` is
added to probation and the doorkeeper is not asked.  When the S-LRU is full the doorkeeper is
asked about the hash of `cand`, and when it answers false, which is the first sighting of
that hash in the current epoch, `cand` is denied admission: it is not resident afterwards, its
callback is called and the S-LRU is unchanged.  In particular on `New(2, samples)` with a
doorkeeper of at least one hash derivation and distinct keys `a`, `b`, `c`, the calls `Set a`,
`Set b`, `Set c` complete; `a` was pushed out while the S-LRU had room and is resident on
probation with its value; `b` was pushed out by `Set c` with the S-LRU full, the fresh
doorkeeper answers false for its hash, and `b` is not resident; `c` is in the W-LRU. -/
theorem C12_first_sighting_denied {V : Type} (env : Env) (size samples : Int)
    (ops : List (Op V)) (t : T V) (key : String) (value : V) (ex : Nat) (cb : Option Nat)
    (a b c : String) (va vb vc : V)
    (hrun : run env (New env size samples) ops = some t) (hnew : t.find key = none)
    (hfull : ¬ (t.lru.ll.length : Int) < t.lru.cap)
    (hab : a ≠ b) (hac : a ≠ c) (hbc : b ≠ c) (hk : 1 ≤ env.filterHashes samples) :
    (∃ t1 cid cand, list.Back t.lru.ll = some cid ∧ t.elems cid = some cand ∧
      T.Set env t (Op.item key value ex cb) = some t1 ∧
      (slruCache.Len t < t.slru.onecap + t.slru.twocap →
        t1.bouncer = t.bouncer ∧ t1.find cand.Key = some { cand with listid := 1 }) ∧
      (¬ slruCache.Len t < t.slru.onecap + t.slru.twocap →
        t1.bouncer = (doorkeeper.allow env t.bouncer cand.keyh).1 ∧
        ((doorkeeper.allow env t.bouncer cand.keyh).2 = false →
          t1.find cand.Key = none ∧ t1.slru = t.slru ∧
          t1.fired = t.fired ++ cand.OnEvict.toList))) ∧
    (∃ t3, run env (New env 2 samples)
        [Op.Set a va 0 none, Op.Set b vb 0 none, Op.Set c vc 0 none] = some t3 ∧
      (∃ item, t3.find a = some item ∧ item.listid = 1 ∧ item.Value = va) ∧
      (doorkeeper.allow env (newDoorkeeper env samples) (env.Sum64String b)).2 = false ∧
      t3.find b = none ∧
      (∃ item, t3.find c = some item ∧ item.listid = 0 ∧ item.Value = vc) ∧
      t3.bouncer = (doorkeeper.allow env (newDoorkeeper env samples) (env.Sum64String b)).1) := by
  obtain ⟨hinv, _⟩ := reach_inv env size samples ops t hrun
  constructor
  · by_cases hS : slruCache.Len t < t.slru.onecap + t.slru.twocap
    · obtain ⟨t1, cid, cand, hcid, hcand, hset, _, hbook, _, _, _, _, _, hfind⟩ :=
        T.Set_new_readd env hinv (Op.item key value ex cb) hnew rfl hfull hS
      have hres := hinv.find_of_elem (Or.inl (list.Back_mem _ _ hcid)) hcand
      have hne : ¬ (Op.item key value ex cb).Key = cand.Key := by
        intro he
        have h1 : t.find cand.Key = none := by rw [← he]; exact hnew
        rw [h1] at hres
        cases hres
      refine ⟨t1, cid, cand, hcid, hcand, hset, fun _ => ⟨congrArg Book.bouncer hbook, ?_⟩,
        fun hn => absurd hS hn⟩
      rw [hfind cand.Key, if_neg hne, if_pos rfl]
    · obtain ⟨t1, cid, cand, vid, v, hcid, hcand, _, _, hset, _, _, _, _, _, hbo, _, _, _, _, _,
        hden⟩ := T.Set_new_contest env hinv (Op.item key value ex cb) hnew rfl hfull hS
      have hres := hinv.find_of_elem (Or.inl (list.Back_mem _ _ hcid)) hcand
      have hne : ¬ (Op.item key value ex cb).Key = cand.Key := by
        intro he
        have h1 : t.find cand.Key = none := by rw [← he]; exact hnew
        rw [h1] at hres
        cases hres
      refine ⟨t1, cid, cand, hcid, hcand, hset, fun hy => absurd hy hS, fun _ => ⟨hbo, ?_⟩⟩
      intro hfalse
      have hno : ¬ ((doorkeeper.allow env t.bouncer cand.keyh).2 = true ∧
          cm4.estimate env t.countSketch v.keyh < cm4.estimate env t.countSketch cand.keyh) := by
        rintro ⟨h1, _⟩
        rw [hfalse] at h1
        cases h1
      obtain ⟨hfired, hslru, hfind⟩ := hden hno
      refine ⟨?_, hslru, hfired⟩
      rw [hfind cand.Key, if_neg hne, if_pos rfl]
  · obtain ⟨t3, hrun3, ha, hb, hc, hbo⟩ :=
      three_sets_small env 2 samples a b c va vb vc hab hac hbc rfl
    exact ⟨t3, hrun3, ⟨_, ha, rfl, rfl⟩, doorkeeper.allow_fresh env samples _ hk, hb,
      ⟨_, hc, rfl, rfl⟩, hbo⟩

/-- C12, amended, at `New(2, 10)`: in the state after `Set A`, `Set B` both lists are full,
`Set C` pushes `B` out, the doorkeeper refuses it, and the scenario `Set A`, `Set B`, `Set C`
ends with `A` on probation and `B` not resident. -/
theorem C12_first_sighting_denied_witness :
    ("A" : String) ≠ "B" ∧ ("A" : String) ≠ "C" ∧ ("B" : String) ≠ "C" ∧
    1 ≤ sampleEnv.filterHashes 10 ∧
    ∃ t : T Nat, run sampleEnv (New sampleEnv 2 10)
        [Op.Set "A" 1 0 none, Op.Set "B" 2 0 none] = some t ∧
      t.find "C" = none ∧ ¬ (t.lru.ll.length : Int) < t.lru.cap ∧
      (∃ t1 cid cand, list.Back t.lru.ll = some cid ∧ t.elems cid = some cand ∧
        T.Set sampleEnv t (Op.item "C" 3 0 none) = some t1 ∧
        (slruCache.Len t < t.slru.onecap + t.slru.twocap →
          t1.bouncer = t.bouncer ∧ t1.find cand.Key = some { cand with listid := 1 }) ∧
        (¬ slruCache.Len t < t.slru.onecap + t.slru.twocap →
          t1.bouncer = (doorkeeper.allow sampleEnv t.bouncer cand.keyh).1 ∧
          ((doorkeeper.allow sampleEnv t.bouncer cand.keyh).2 = false →
            t1.find cand.Key = none ∧ t1.slru = t.slru ∧
            t1.fired = t.fired ++ cand.OnEvict.toList))) ∧
      (∃ t3, run sampleEnv (New sampleEnv 2 10)
          [Op.Set "A" 1 0 none, Op.Set "B" 2 0 none, Op.Set "C" 3 0 none] = some t3 ∧
        (∃ item, t3.find "A" = some item ∧ item.listid = 1 ∧ item.Value = 1) ∧
        (doorkeeper.allow sampleEnv (newDoorkeeper sampleEnv 10)
          (sampleEnv.Sum64String "B")).2 = false ∧
        t3.find "B" = none ∧
        (∃ item, t3.find "C" = some item ∧ item.listid = 0 ∧ item.Value = 3) ∧
        t3.bouncer = (doorkeeper.allow sampleEnv (newDoorkeeper sampleEnv 10)
          (sampleEnv.Sum64String "B")).1) := by
  have hfact : (run sampleEnv (New (V := Nat) sampleEnv 2 10)
      [Op.Set "A" 1 0 none, Op.Set "B" 2 0 none]).map
      (fun t => ((t.find "C").isSome, decide ((t.lru.ll.length : Int) < t.lru.cap)))
        = some (false, false) := by decide
  obtain ⟨t, ht, hp⟩ := Option.map_eq_some'.1 hfact
  have h1 : (t.find "C").isSome = false := congrArg Prod.fst hp
  have h2 : decide ((t.lru.ll.length : Int) < t.lru.cap) = false := congrArg Prod.snd hp
  have hnew : t.find "C" = none := by
    cases hf : t.find "C" with
    | none => rfl
    | some x =>
      rw [hf] at h1
      cases h1
  have hfull : ¬ (t.lru.ll.length : Int) < t.lru.cap := of_decide_eq_false h2
  obtain ⟨g, s⟩ := C12_first_sighting_denied sampleEnv 2 10 _ t "C" 3 0 none "A" "B" "C" 1 2 3
    ht hnew hfull (by decide) (by decide) (by decide) (by decide)
  exact ⟨by decide, by decide, by decide, by decide, t, ht, hnew, hfull, g, s⟩

/-! ## C20: no missing tail for `size ≥ 3` -/

/-- With a protected capacity of at least 1, `Get` completes. -/
theorem T.Get_total {V : Type} (env : Env) {t : T V} (h : Inv t) (key : String) (now : Nat)
    (hcap : 1 ≤ t.slru.twocap) : ∃ r, T.Get env t key now = some r := by
  cases hf : t.find key with
  | none =>
    obtain ⟨t1, hget, _⟩ := T.Get_miss env h key now hf
    exact ⟨_, hget⟩
  | some item =>
    cases hx : item.expired now with
    | true =>
      obtain ⟨t1, hget, _⟩ := T.Get_expired env h key now item hf hx
      exact ⟨_, hget⟩
    | false =>
      rcases T.Get_hit env h key now item hf hx with ⟨_, h0, _⟩ | ⟨t1, hget, _⟩
      · omega
      · exact ⟨_, hget⟩

/-- The call `Del` completes. -/
theorem T.Del_total {V : Type} {t : T V} (h : Inv t) (key : String) :
    ∃ t1, T.Del t key = some t1 := by
  cases hf : t.find key with
  | none => exact ⟨t, T.Del_miss h key hf⟩
  | some item =>
    obtain ⟨t1, hdel, _⟩ := T.Del_hit h key item hf
    exact ⟨t1, hdel⟩

/-- With a protected capacity of at least 1, every call completes. -/
theorem step_total {V : Type} (env : Env) {t : T V} (h : Inv t) (hcap : 1 ≤ t.slru.twocap)
    (op : Op V) : ∃ t1, step env t op = some t1 := by
  cases op with
  | Set key value ex cb => exact T.Set_total env h (Op.item key value ex cb) rfl hcap
  | Get key now =>
    obtain ⟨r, hr⟩ := T.Get_total env h key now hcap
    exact ⟨r.1, by simp only [step, hr, Option.map_some']⟩
  | Del key => exact T.Del_total h key

/-- With a protected capacity of at least 1, every sequence of calls completes. -/
theorem run_total {V : Type} (env : Env) (ops : List (Op V)) (t : T V) (h : Inv t)
    (hcap : 1 ≤ t.slru.twocap) : ∃ t1, run env t ops = some t1 := by
  induction ops generalizing t with
  | nil => exact ⟨t, rfl⟩
  | cons op ops ih =>
    obtain ⟨t1, hs⟩ := step_total env h hcap op
    have hst := Step.of_step env h op hs
    have hc : t1.slru.twocap = t.slru.twocap := congrArg (fun p => p.2.2) hst.caps
    obtain ⟨t2, hr⟩ := ih t1 hst.inv (by rw [hc]; exact hcap)
    exact ⟨t2, by rw [run_cons, hs, Option.some_bind, hr]⟩

/-- C20: for every `size ≥ 3`, every sequence of `Set`/`Get`/`Del` calls on
`New(size, samples)` completes (no call stops at a nil tail), and in the state reached the
three capacities are at least 1; when the S-LRU population is not below the S-LRU capacity
(the condition under which `victim()` and the tail-reuse branch of `slruCache.add` read the
probation tail) the probation population is at least the probation capacity and the probation
tail is an element that holds an item; when the protected list is full (the condition under
which `slruCache.get` reads the protected tail) the protected tail is an element that holds an
item; and when the W-LRU is full (the condition under which `lruCache.add` reuses its tail)
the W-LRU tail is an element that holds an item. -/
theorem C20_no_missing_tail {V : Type} (env : Env) (size samples : Int) (ops : List (Op V))
    (hsize : 3 ≤ size) :
    ∃ t, run env (New env size samples) ops = some t ∧
      1 ≤ t.lru.cap ∧ 1 ≤ t.slru.onecap ∧ 1 ≤ t.slru.twocap ∧
      (¬ slruCache.Len t < t.slru.onecap + t.slru.twocap →
        t.slru.onecap ≤ (t.slru.one.length : Int) ∧
        ∃ e item, list.Back t.slru.one = some e ∧ t.elems e = some item) ∧
      (¬ (t.slru.two.length : Int) < t.slru.twocap →
        ∃ e item, list.Back t.slru.two = some e ∧ t.elems e = some item) ∧
      (¬ (t.lru.ll.length : Int) < t.lru.cap →
        ∃ e item, list.Back t.lru.ll = some e ∧ t.elems e = some item) := by
  have hpos := New_twocap_pos (V := V) env size samples hsize
  obtain ⟨t, hrun⟩ := run_total env ops _ (Inv_New (V := V) env size samples) hpos
  obtain ⟨hinv, hcaps⟩ := reach_inv env size samples ops t hrun
  have h3 : t.slru.twocap = (New (V := V) env size samples).slru.twocap :=
    congrArg (fun p => p.2.2) hcaps
  have hcap2 : 1 ≤ t.slru.twocap := by rw [h3]; exact hpos
  refine ⟨t, hrun, hinv.capLru, hinv.capOne, hcap2, ?_, ?_, ?_⟩
  · intro hge
    obtain ⟨vid, v, hb, hv, _⟩ := hinv.tail_one hge
    have h2l := hinv.lenTwo
    simp only [slruCache.Len] at hge
    exact ⟨by omega, vid, v, hb, hv⟩
  · intro hge
    have hne : t.slru.two ≠ [] := by
      intro he
      rw [he] at hge
      simp only [List.length_nil, Nat.cast_zero] at hge
      omega
    obtain ⟨e, hb⟩ := list.Back_isSome _ hne
    obtain ⟨item, hitem, _⟩ := hinv.rep.owned e (Or.inr (Or.inr (list.Back_mem _ _ hb)))
    exact ⟨e, item, hb, hitem⟩
  · intro hge
    obtain ⟨cid, c, hb, hc, _⟩ := hinv.tail_lru hge
    exact ⟨cid, c, hb, hc⟩

/-- C20 at `New(3, 10)`: a sequence that fills the three lists and touches a probation item
while the protected list is full completes. -/
theorem C20_no_missing_tail_witness :
    (3 : Int) ≤ 3 ∧
    ∃ t : T Nat, run sampleEnv (New sampleEnv 3 10)
        [Op.Set "a" 1 0 none, Op.Set "bb" 2 0 none, Op.Set "ccc" 3 0 none, Op.Get "a" 0,
          Op.Get "bb" 0, Op.Set "dddd" 4 0 none, Op.Del "a", Op.Get "zz" 0] = some t ∧
      1 ≤ t.lru.cap ∧ 1 ≤ t.slru.onecap ∧ 1 ≤ t.slru.twocap ∧
      (¬ slruCache.Len t < t.slru.onecap + t.slru.twocap →
        t.slru.onecap ≤ (t.slru.one.length : Int) ∧
        ∃ e item, list.Back t.slru.one = some e ∧ t.elems e = some item) ∧
      (¬ (t.slru.two.length : Int) < t.slru.twocap →
        ∃ e item, list.Back t.slru.two = some e ∧ t.elems e = some item) ∧
      (¬ (t.lru.ll.length : Int) < t.lru.cap →
        ∃ e item, list.Back t.lru.ll = some e ∧ t.elems e = some item) :=
  ⟨by decide, C20_no_missing_tail sampleEnv 3 10 _ (by decide)⟩

/-! ## C17: the touch of a probation item -/

/-- C17: in a state that satisfies the invariant (every state reached from `New`, and the
states `Get` and `Set` hand to `slruCache.get`), with a protected capacity of at least 1, the
touch `slruCache.get` of a probation element `v` completes; afterwards the key of its item is
mapped to the head of the protected list, which holds the item with `listid` 2.  If the
protected list had room, the probation list has one element less and the protected list one
more; if it was full, both lengths are unchanged and the item that was at the protected tail
is at the head of the probation list with `listid` 1, under its own key.  In both cases the
W-LRU and the size of the map are unchanged and every key keeps its item (value, expiry and
callback), up to the list tag. -/
theorem C17_probation_touch {V : Type} (t : T V) (h : Inv t) (v : Nat) (item : Item V)
    (hv : v ∈ t.slru.one) (hitem : t.elems v = some item) (hcap : 1 ≤ t.slru.twocap) :
    ∃ t1, slruCache.get t v = some t1 ∧
      (∃ e, GoMap.get t1.data item.Key = some e ∧ t1.slru.two.head? = some e ∧
        t1.elems e = some { item with listid := 2 }) ∧
      ((t.slru.two.length : Int) < t.slru.twocap →
        t1.slru.one.length + 1 = t.slru.one.length ∧
        t1.slru.two.length = t.slru.two.length + 1) ∧
      (¬ (t.slru.two.length : Int) < t.slru.twocap →
        t1.slru.one.length = t.slru.one.length ∧ t1.slru.two.length = t.slru.two.length ∧
        ∃ back bitem, list.Back t.slru.two = some back ∧ t.elems back = some bitem ∧
          ∃ e, GoMap.get t1.data bitem.Key = some e ∧ t1.slru.one.head? = some e ∧
            t1.elems e = some { bitem with listid := 1 }) ∧
      t1.lru = t.lru ∧ t1.data.length = t.data.length ∧ (∀ k, t1.view k = t.view k) := by
  have hl : item.listid = 1 := h.rep.tagB v item hv hitem
  have hl2 : ¬ item.listid = 2 := by omega
  rcases slruCache.get_spec h v (Or.inl hv) with ⟨_, h0, _⟩ | ⟨t1, hget, hinv1, _, hlru, hview,
    e, hhead, item', hitem', helem⟩
  · omega
  rw [hitem] at hitem'
  cases hitem'
  have hmem : e ∈ t1.slru.two := List.mem_of_mem_head? hhead
  obtain ⟨it, hit, hgit⟩ := hinv1.rep.owned e (Or.inr (Or.inr hmem))
  rw [helem] at hit
  cases hit
  have hsz := h.rep.size
  have hsz1 := hinv1.rep.size
  rw [hlru] at hsz1
  by_cases hroom : (t.slru.two.length : Int) < t.slru.twocap
  · have hlens : t1.slru.one.length + 1 = t.slru.one.length ∧
        t1.slru.two.length = t.slru.two.length + 1 := by
      simp only [slruCache.get, hitem, hl2, if_false, hroom, if_true, Option.some.injEq] at hget
      subst hget
      have := list.length_Remove _ _ hv
      exact ⟨by simp only []; omega, by simp only [List.length_cons]⟩
    refine ⟨t1, hget, ⟨e, hgit, hhead, helem⟩, fun _ => hlens, fun hn => absurd hroom hn, hlru,
      by omega, hview⟩
  · have hne : t.slru.two ≠ [] := by
      intro he
      rw [he] at hroom
      simp only [List.length_nil, Nat.cast_zero] at hroom
      omega
    obtain ⟨back, hback⟩ := list.Back_isSome _ hne
    obtain ⟨bitem, hbitem, _⟩ := h.rep.owned back (Or.inr (Or.inr (list.Back_mem _ _ hback)))
    have hexp : t1.slru.one = list.MoveToFront t.slru.one v ∧
        t1.slru.two = list.MoveToFront t.slru.two back ∧
        t1.elems v = some { bitem with listid := 1 } := by
      simp only [slruCache.get, hitem, hl2, if_false, hroom, hback, hbitem,
        Option.some.injEq] at hget
      subst hget
      exact ⟨rfl, rfl, store_same _ _ _⟩
    obtain ⟨hone, htwo, hev⟩ := hexp
    have hhead1 : t1.slru.one.head? = some v := by
      rw [hone, list.MoveToFront_of_mem _ _ hv, List.head?_cons]
    have hmem1 : v ∈ t1.slru.one := List.mem_of_mem_head? hhead1
    obtain ⟨it, hit, hgit1⟩ := hinv1.rep.owned v (Or.inr (Or.inl hmem1))
    rw [hev] at hit
    cases hit
    have hlen1 : t1.slru.one.length = t.slru.one.length := by
      rw [hone, list.length_MoveToFront]
    have hlen2 : t1.slru.two.length = t.slru.two.length := by
      rw [htwo, list.length_MoveToFront]
    refine ⟨t1, hget, ⟨e, hgit, hhead, helem⟩, fun hr => absurd hr hroom,
      fun _ => ⟨hlen1, hlen2, back, bitem, hback, hbitem, v, hgit1, hhead1, hev⟩, hlru,
      by omega, hview⟩
/-- C17 at `New(3, 10)` after `Set a`, `Set bb`, `Get a`, `Set ccc`: `bb` is on probation
(element 3), `a` fills the protected list, and the touch of `bb` swaps the two. -/
theorem C17_probation_touch_witness :
    ∃ (t : T Nat) (item : Item Nat), run sampleEnv (New sampleEnv 3 10)
        [Op.Set "a" 1 0 none, Op.Set "bb" 2 0 none, Op.Get "a" 0, Op.Set "ccc" 3 0 none]
          = some t ∧ Inv t ∧ 3 ∈ t.slru.one ∧ t.elems 3 = some item ∧ 1 ≤ t.slru.twocap ∧
      ∃ t1, slruCache.get t 3 = some t1 ∧
        (∃ e, GoMap.get t1.data item.Key = some e ∧ t1.slru.two.head? = some e ∧
          t1.elems e = some { item with listid := 2 }) ∧
        ((t.slru.two.length : Int) < t.slru.twocap →
          t1.slru.one.length + 1 = t.slru.one.length ∧
          t1.slru.two.length = t.slru.two.length + 1) ∧
        (¬ (t.slru.two.length : Int) < t.slru.twocap →
          t1.slru.one.length = t.slru.one.length ∧ t1.slru.two.length = t.slru.two.length ∧
          ∃ back bitem, list.Back t.slru.two = some back ∧ t.elems back = some bitem ∧
            ∃ e, GoMap.get t1.data bitem.Key = some e ∧ t1.slru.one.head? = some e ∧
              t1.elems e = some { bitem with listid := 1 }) ∧
        t1.lru = t.lru ∧ t1.data.length = t.data.length ∧ (∀ k, t1.view k = t.view k) := by
  have hfact : (run sampleEnv (New (V := Nat) sampleEnv 3 10)
      [Op.Set "a" 1 0 none, Op.Set "bb" 2 0 none, Op.Get "a" 0, Op.Set "ccc" 3 0 none]).map
      (fun t => (t.slru.one, t.slru.twocap)) = some ([3], 1) := by decide
  obtain ⟨t, ht, hp⟩ := Option.map_eq_some'.1 hfact
  obtain ⟨hinv, _⟩ := reach_inv sampleEnv 3 10 _ t ht
  have hone : t.slru.one = [3] := congrArg Prod.fst hp
  have htwo : t.slru.twocap = 1 := congrArg Prod.snd hp
  have hv : 3 ∈ t.slru.one := by rw [hone]; exact List.mem_singleton_self 3
  obtain ⟨item, hitem, _⟩ := hinv.rep.owned 3 (Or.inr (Or.inl hv))
  have hcap : 1 ≤ t.slru.twocap := by rw [htwo]
  exact ⟨t, item, ht, hinv, hv, hitem, hcap, C17_probation_touch t hinv 3 item hv hitem hcap⟩

/-! ## C15: the touched item is at the head of its list -/

/-- An element at the front of one of the three lists: the key of its item is at the head of
the list its tag names. -/
theorem Inv.atHead_of_head {V : Type} {t : T V} (h : Inv t) {e : Nat} {item : Item V}
    (hm : t.lru.ll.head? = some e ∨ t.slru.one.head? = some e ∨ t.slru.two.head? = some e)
    (he : t.elems e = some item) : t.atHead item.Key = true := by
  have hmem : e ∈ t.lru.ll ∨ e ∈ t.slru.one ∨ e ∈ t.slru.two := by
    rcases hm with hm | hm | hm
    · exact Or.inl (List.mem_of_mem_head? hm)
    · exact Or.inr (Or.inl (List.mem_of_mem_head? hm))
    · exact Or.inr (Or.inr (List.mem_of_mem_head? hm))
  obtain ⟨it, hit, hg⟩ := h.rep.owned e hmem
  rw [he] at hit
  cases hit
  simp only [T.atHead, hg, he]
  rcases hm with hm | hm | hm
  · have := h.rep.tagA e item (List.mem_of_mem_head? hm) he
    simp only [this, T.listOf, hm, beq_self_eq_true]
  · have := h.rep.tagB e item (List.mem_of_mem_head? hm) he
    simp only [this, T.listOf, hm, beq_self_eq_true]
  · have := h.rep.tagC e item (List.mem_of_mem_head? hm) he
    simp only [this, T.listOf, hm, beq_self_eq_true]

/-- After a `Get` that finds its key, the item of the key is at the head of its list. -/
theorem T.Get_head {V : Type} (env : Env) {t t' : T V} (h : Inv t) (key : String) (now : Nat)
    (v : V) (hget : T.Get env t key now = some (t', some v)) : t'.atHead key = true := by
  cases hf : t.find key with
  | none =>
    obtain ⟨t1, hg, _⟩ := T.Get_miss env h key now hf
    rw [hg] at hget
    cases hget
  | some item =>
    cases hx : item.expired now with
    | true =>
      obtain ⟨t1, hg, _⟩ := T.Get_expired env h key now item hf hx
      rw [hg] at hget
      cases hget
    | false =>
      obtain ⟨t2, hd, he, hl, hs, hfr, _, _, h2⟩ := T.Get_cases env t key now
      obtain ⟨e, hg, hel, hmem⟩ := T.find_some_data h hf
      have hinv2 : Inv t2 := Inv.of_eq h hd hl hs he hfr
      have hk := T.find_key h hf
      have hel2 : t2.elems e = some item := by rw [he]; exact hel
      rw [h2 e item hg hel] at hget
      simp only [hx, Bool.false_eq_true, if_false] at hget
      by_cases hl0 : item.listid = 0
      · simp only [hl0, if_true, Option.some.injEq, Prod.mk.injEq] at hget
        obtain ⟨ht, _⟩ := hget
        subst ht
        have hm0 : e ∈ t2.lru.ll := by
          rw [hl]
          exact (h.listid_zero_iff hmem hel).1 hl0
        have hhead : (lruCache.get t2 e).lru.ll.head? = some e := by
          simp only [lruCache.get, list.MoveToFront_of_mem _ _ hm0, List.head?_cons]
        have := (lruCache.get_inv hinv2 e).atHead_of_head (Or.inl hhead)
          (show (lruCache.get t2 e).elems e = some item from hel2)
        rw [hk] at this
        exact this
      · simp only [hl0, if_false] at hget
        have hmem1 : e ∈ t2.slru.one ∨ e ∈ t2.slru.two := by
          rw [hs]
          rcases hmem with hm | hm | hm
          · exact absurd ((h.listid_zero_iff (Or.inl hm) hel).2 hm) hl0
          · exact Or.inl hm
          · exact Or.inr hm
        rcases slruCache.get_spec hinv2 e hmem1 with ⟨hn, _, _⟩ |
          ⟨t1, hg1, hinv, _, _, _, e', hhead, item', hitem', helem⟩
        · rw [hn] at hget
          cases hget
        · rw [hg1] at hget
          simp only [Option.map_some', Option.some.injEq, Prod.mk.injEq] at hget
          obtain ⟨ht, _⟩ := hget
          subst ht
          rw [hel2] at hitem'
          cases hitem'
          have := hinv.atHead_of_head (Or.inr (Or.inr hhead)) helem
          rw [← hk]
          exact this
/-- After a `Set` of a freshly built item, the item of its key is at the head of its list. -/
theorem T.Set_head {V : Type} (env : Env) {t t' : T V} (h : Inv t) (n : Item V)
    (hl : n.listid = 0) (hset : T.Set env t n = some t') : t'.atHead n.Key = true := by
  cases hf : t.find n.Key with
  | some item =>
    obtain ⟨e, hg, hel, hmem⟩ := T.find_some_data h hf
    have hk := T.find_key h hf
    have hinv2 : Inv { t with elems := store t.elems e { item with Value := n.Value }
                              countSketch := cm4.add env t.countSketch item.keyh } :=
      ⟨h.rep.setValue hel n.Value, h.capLru, h.capOne, h.capTwo, h.lenLru, h.lenTwo, h.lenAll⟩
    have hel2 : T.elems { t with elems := store t.elems e { item with Value := n.Value }
                                 countSketch := cm4.add env t.countSketch item.keyh } e
        = some { item with Value := n.Value } := store_same _ _ _
    simp only [T.Set, hg, hel] at hset
    by_cases hl0 : item.listid = 0
    · rw [if_pos hl0, Option.some.injEq] at hset
      subst hset
      have hm0 : e ∈ t.lru.ll := (h.listid_zero_iff hmem hel).1 hl0
      have hhead : (lruCache.get { t with
          elems := store t.elems e { item with Value := n.Value }
          countSketch := cm4.add env t.countSketch item.keyh } e).lru.ll.head? = some e := by
        simp only [lruCache.get, list.MoveToFront_of_mem _ _ hm0, List.head?_cons]
      have := (lruCache.get_inv hinv2 e).atHead_of_head (Or.inl hhead)
        (show (lruCache.get { t with
            elems := store t.elems e { item with Value := n.Value }
            countSketch := cm4.add env t.countSketch item.keyh } e).elems e
          = some { item with Value := n.Value } from hel2)
      rw [← hk]
      exact this
    · rw [if_neg hl0] at hset
      have hmem1 : e ∈ t.slru.one ∨ e ∈ t.slru.two := by
        rcases hmem with hm | hm | hm
        · exact absurd ((h.listid_zero_iff (Or.inl hm) hel).2 hm) hl0
        · exact Or.inl hm
        · exact Or.inr hm
      rcases slruCache.get_spec hinv2 e hmem1 with ⟨hn, _, _⟩ |
        ⟨t1, hg1, hinv, _, _, _, e', hhead, item', hitem', helem⟩
      · rw [hn] at hset
        cases hset
      · rw [hg1] at hset
        cases hset
        rw [hel2] at hitem'
        cases hitem'
        have := hinv.atHead_of_head (Or.inr (Or.inr hhead)) helem
        rw [← hk]
        exact this
  | none =>
    by_cases hlt : (t.lru.ll.length : Int) < t.lru.cap
    · obtain ⟨t1, hs, hinv, _, _, ⟨e, hhead, helem⟩, _⟩ := T.Set_new_room env h n hf hl hlt
      rw [hs] at hset
      cases hset
      have := hinv.atHead_of_head (Or.inl hhead) helem
      exact this
    · by_cases hS : slruCache.Len t < t.slru.onecap + t.slru.twocap
      · obtain ⟨t1, _, _, _, _, hs, hinv, _, _, _, _, ⟨e, hhead, helem⟩, _⟩ :=
          T.Set_new_readd env h n hf hl hlt hS
        rw [hs] at hset
        cases hset
        have := hinv.atHead_of_head (Or.inl hhead) helem
        exact this
      · obtain ⟨t1, _, _, _, _, _, _, _, _, hs, hinv, _, _, _, _, _, _, _, _,
          ⟨e, hhead, helem⟩, _⟩ := T.Set_new_contest env h n hf hl hlt hS
        rw [hs] at hset
        cases hset
        have := hinv.atHead_of_head (Or.inl hhead) helem
        exact this
/-- C15: in every state reached from `New(size, samples)`, after a `Get(k)` that returns
found = true and after a `Set` of a freshly built item with key `k` that completes (`k` new or
already resident), the map entry of `k` is the front element of the list named by the
`listid` of its item; the touch of a probation item that swaps contents with the protected
tail is one of the cases. -/
theorem C15_touched_item_at_head {V : Type} (env : Env) (size samples : Int)
    (ops : List (Op V)) (t : T V) (hrun : run env (New env size samples) ops = some t) :
    (∀ key now t' v, T.Get env t key now = some (t', some v) → t'.atHead key = true) ∧
    (∀ key value ex cb t', T.Set env t (Op.item key value ex cb) = some t' →
      t'.atHead key = true) := by
  obtain ⟨hinv, _⟩ := reach_inv env size samples ops t hrun
  exact ⟨fun key now t' v hget => T.Get_head env hinv key now v hget,
    fun key value ex cb t' hset => T.Set_head env hinv (Op.item key value ex cb) rfl hset⟩

/-- C15 at `New(3, 10)` after `Set a`, `Set bb`, `Get a`, `Set ccc`: the following `Get bb`
swaps `bb` with the protected tail `a`, and `bb` is at the head of the protected list. -/
theorem C15_touched_item_at_head_witness :
    (run sampleEnv (New (V := Nat) sampleEnv 3 10)
        [Op.Set "a" 1 0 none, Op.Set "bb" 2 0 none, Op.Get "a" 0, Op.Set "ccc" 3 0 none,
          Op.Get "bb" 0]).map
      (fun t => (t.atHead "bb", (t.find "bb").map (fun i => i.listid),
        (t.find "a").map (fun i => i.listid), t.slru.one, t.slru.two))
        = some (true, some 2, some 1, [3], [2]) ∧
    ∃ t : T Nat, run sampleEnv (New sampleEnv 3 10)
        [Op.Set "a" 1 0 none, Op.Set "bb" 2 0 none, Op.Get "a" 0, Op.Set "ccc" 3 0 none]
          = some t ∧
      (∀ key now t' v, T.Get sampleEnv t key now = some (t', some v) → t'.atHead key = true) ∧
      (∀ key value ex cb t', T.Set sampleEnv t (Op.item key value ex cb) = some t' →
        t'.atHead key = true) := by
  have hsome : (run sampleEnv (New (V := Nat) sampleEnv 3 10)
      [Op.Set "a" 1 0 none, Op.Set "bb" 2 0 none, Op.Get "a" 0,
        Op.Set "ccc" 3 0 none]).isSome = true := by decide
  obtain ⟨t, ht⟩ := Option.isSome_iff_exists.1 hsome
  exact ⟨by decide, t, ht, C15_touched_item_at_head sampleEnv 3 10 _ t ht⟩

/-! ## C16: the sample counter -/

theorem T.onEvict_sampling {V : Type} (t : T V) (item : Item V) :
    (T.onEvict t item).sampling = t.sampling := by
  simp only [T.onEvict]
  cases item.OnEvict <;> rfl

theorem T.del_sampling {V : Type} {t t1 : T V} {v : Nat} (h : T.del t v = some t1) :
    t1.sampling = t.sampling := by
  simp only [T.del] at h
  split at h
  · cases h
  · split at h
    · cases h
      rw [T.onEvict_sampling]
      rfl
    · simp only [slruCache.Remove] at h
      split at h
      · cases h
      · split at h <;>
        · simp only [Option.map_some', Option.some.injEq] at h
          subst h
          rw [T.onEvict_sampling]
          rfl

theorem slruCache.get_sampling {V : Type} {t t1 : T V} {v : Nat}
    (h : slruCache.get t v = some t1) : t1.sampling = t.sampling := by
  simp only [slruCache.get] at h
  split at h
  · cases h
  · split at h
    · cases h
      rfl
    · split at h
      · cases h
        rfl
      · split at h
        · cases h
        · split at h
          · cases h
          · cases h
            rfl

theorem lruCache.add_window_sampling {V : Type} {t t1 : T V} {n : Item V} {o : Option (Item V)}
    (h : lruCache.add t n = some (t1, o)) : t1.sampling = t.sampling := by
  simp only [lruCache.add] at h
  split at h
  · cases h
    rfl
  · split at h
    · cases h
    · split at h
      · cases h
      · cases h
        rfl

theorem slruCache.add_main_sampling {V : Type} {t t1 : T V} {n : Item V}
    (h : slruCache.add t n = some t1) : t1.sampling = t.sampling := by
  simp only [slruCache.add] at h
  split at h
  · cases h
    rfl
  · split at h
    · cases h
    · split at h
      · cases h
      · cases h
        rfl
/-- What a completed `Get` does to the sampling fields: the counter advances, and when it
reaches `samples` the sketch and the doorkeeper are reset and the counter returns to 0; then
the hash of the key is added to the sketch. -/
theorem T.Get_sampling {V : Type} (env : Env) {t t' : T V} {key : String} {now : Nat}
    {r : Option V} (h : T.Get env t key now = some (t', r)) :
    t'.sampling =
      if wrapInt (t.w + 1) = t.samples then
        (0, t.samples, cm4.add env (cm4.reset t.countSketch) (env.Sum64String key),
          doorkeeper.reset t.bouncer)
      else
        (wrapInt (t.w + 1), t.samples, cm4.add env t.countSketch (env.Sum64String key),
          t.bouncer) := by
  have aux : ∀ t2 : T V,
      (match GoMap.get t2.data key with
        | none => some (t2, none)
        | some val =>
          match t2.elems val with
          | none => none
          | some item =>
            if item.expired now then (T.del t2 val).map (fun t3 => (t3, none))
            else if item.listid = 0 then some (lruCache.get t2 val, some item.Value)
            else (slruCache.get t2 val).map (fun t3 => (t3, some item.Value))) = some (t', r) →
      t'.sampling = t2.sampling := by
    intro t2 h2
    split at h2
    · cases h2
      rfl
    · split at h2
      · cases h2
      · split at h2
        · obtain ⟨t3, h3, h4⟩ := Option.map_eq_some'.1 h2
          cases h4
          exact T.del_sampling h3
        · split at h2
          · cases h2
            rfl
          · obtain ⟨t3, h3, h4⟩ := Option.map_eq_some'.1 h2
            cases h4
            exact slruCache.get_sampling h3
  by_cases hw : wrapInt (t.w + 1) = t.samples
  · rw [if_pos hw]
    simp only [T.Get, hw, if_true] at h
    exact aux { t with countSketch := cm4.add env (cm4.reset t.countSketch) (env.Sum64String key)
                       bouncer := doorkeeper.reset t.bouncer
                       w := 0 } h
  · rw [if_neg hw]
    simp only [T.Get, hw, if_false] at h
    exact aux { t with countSketch := cm4.add env t.countSketch (env.Sum64String key)
                       w := wrapInt (t.w + 1) } h

/-- A completed `Del` leaves the sampling fields unchanged. -/
theorem T.Del_sampling {V : Type} {t t' : T V} {key : String} (h : T.Del t key = some t') :
    t'.sampling = t.sampling := by
  simp only [T.Del] at h
  split at h
  · exact T.del_sampling h
  · cases h
    rfl

/-- A completed `Set` leaves the counter and the epoch length unchanged; the sketch is
unchanged or has one more key hash added (`Set` of a resident key); the doorkeeper is
unchanged or has answered one question (a contest). -/
theorem T.Set_sampling {V : Type} (env : Env) {t t' : T V} {n : Item V}
    (h : T.Set env t n = some t') :
    t'.w = t.w ∧ t'.samples = t.samples ∧
    (t'.countSketch = t.countSketch ∨ ∃ keyh, t'.countSketch = cm4.add env t.countSketch keyh) ∧
    (t'.bouncer = t.bouncer ∨ ∃ keyh, t'.bouncer = (doorkeeper.allow env t.bouncer keyh).1) := by
  have fromEq : ∀ {a b : T V}, a.sampling = b.sampling →
      a.w = b.w ∧ a.samples = b.samples ∧ a.countSketch = b.countSketch ∧
        a.bouncer = b.bouncer := by
    intro a b hab
    exact ⟨congrArg Prod.fst hab, congrArg (fun p => p.2.1) hab,
      congrArg (fun p => p.2.2.1) hab, congrArg (fun p => p.2.2.2) hab⟩
  simp only [T.Set] at h
  split at h
  · split at h
    · cases h
    · rename_i e _ item _
      split at h
      · cases h
        exact ⟨rfl, rfl, Or.inr ⟨item.keyh, rfl⟩, Or.inl rfl⟩
      · obtain ⟨h1, h2, h3, h4⟩ := fromEq (slruCache.get_sampling h)
        exact ⟨h1, h2, Or.inr ⟨item.keyh, h3⟩, Or.inl h4⟩
  · split at h
    · cases h
    · rename_i t1 hadd
      cases h
      obtain ⟨h1, h2, h3, h4⟩ := fromEq (lruCache.add_window_sampling hadd)
      exact ⟨h1, h2, Or.inl h3, Or.inl h4⟩
    · rename_i t1 oldItem hadd
      obtain ⟨a1, a2, a3, a4⟩ := fromEq (lruCache.add_window_sampling hadd)
      split at h
      · cases h
      · obtain ⟨h1, h2, h3, h4⟩ := fromEq (slruCache.add_main_sampling h)
        exact ⟨h1.trans a1, h2.trans a2, Or.inl (h3.trans a3), Or.inl (h4.trans a4)⟩
      · rename_i victim _
        have hb : (doorkeeper.allow env t1.bouncer oldItem.keyh).1
            = (doorkeeper.allow env t.bouncer oldItem.keyh).1 := by rw [a4]
        split at h
        · cases h
          obtain ⟨h1, h2, h3, h4⟩ := fromEq (T.onEvict_sampling
            { t1 with bouncer := (doorkeeper.allow env t1.bouncer oldItem.keyh).1 } oldItem)
          exact ⟨h1.trans a1, h2.trans a2, Or.inl (h3.trans a3),
            Or.inr ⟨oldItem.keyh, h4.trans hb⟩⟩
        · split at h
          · obtain ⟨h1, h2, h3, h4⟩ := fromEq (slruCache.add_main_sampling h)
            exact ⟨h1.trans a1, h2.trans a2, Or.inl (h3.trans a3),
              Or.inr ⟨oldItem.keyh, h4.trans hb⟩⟩
          · cases h
            obtain ⟨h1, h2, h3, h4⟩ := fromEq (T.onEvict_sampling
              { t1 with bouncer := (doorkeeper.allow env t1.bouncer oldItem.keyh).1 } oldItem)
            exact ⟨h1.trans a1, h2.trans a2, Or.inl (h3.trans a3),
              Or.inr ⟨oldItem.keyh, h4.trans hb⟩⟩
theorem wrapInt_small (x : Int) (h0 : 0 ≤ x) (h1 : x < 2 ^ 63) : wrapInt x = x := by
  have : (x + 2 ^ 63) % 2 ^ 64 = x + 2 ^ 63 :=
    Int.emod_eq_of_lt (by omega) (by omega)
  simp only [wrapInt, this]
  omega

/-- The counter after one more `Get`, as a remainder. -/
theorem counter_succ (w g s : Int) (hs : 1 ≤ s) (hw : w = g % s) :
    (w + 1 = s → (g + 1) % s = 0) ∧ (w + 1 ≠ s → (g + 1) % s = w + 1) := by
  have h0 : 0 ≤ g % s := Int.emod_nonneg g (by omega)
  have h1 : g % s < s := Int.emod_lt_of_pos g (by omega)
  have h2 : (g + 1) % s = (g % s + 1) % s := by
    rw [Int.emod_add_cancel_right 1]
    exact (Int.emod_emod_of_dvd g (dvd_refl s)).symm
  rw [h2, ← hw]
  rw [← hw] at h0 h1
  constructor
  · intro he
    rw [he]
    exact Int.emod_self
  · intro hne
    exact Int.emod_eq_of_lt (by omega) (by omega)

/-- One completed call and the counter: `samples` is kept, a `Get` advances the counter
modulo `samples`, `Set` and `Del` leave it. -/
theorem step_counter {V : Type} (env : Env) {t t1 : T V} (op : Op V) (g : Int)
    (h1 : 1 ≤ t.samples) (h2 : t.samples < 2 ^ 63) (hw : t.w = g % t.samples)
    (hs : step env t op = some t1) :
    t1.samples = t.samples ∧ t1.w = (g + (gets [op] : Int)) % t.samples := by
  have h0 : 0 ≤ g % t.samples := Int.emod_nonneg g (by omega)
  have h3 : g % t.samples < t.samples := Int.emod_lt_of_pos g (by omega)
  cases op with
  | Set key value ex cb =>
    obtain ⟨a, b, _⟩ := T.Set_sampling env hs
    exact ⟨b, by simp only [gets, Nat.cast_zero, add_zero, a, hw]⟩
  | Del key =>
    have := T.Del_sampling hs
    exact ⟨congrArg (fun p => p.2.1) this,
      by simp only [gets, Nat.cast_zero, add_zero, ← hw]; exact congrArg Prod.fst this⟩
  | Get key now =>
    obtain ⟨r, hr, hr1⟩ := Option.map_eq_some'.1 hs
    cases r with
    | mk t1' v =>
      cases hr1
      have hsm := T.Get_sampling env hr
      have hwrap : wrapInt (t.w + 1) = t.w + 1 := wrapInt_small _ (by omega) (by omega)
      obtain ⟨c1, c2⟩ := counter_succ t.w g t.samples h1 hw
      simp only [gets, Nat.cast_zero, Nat.cast_one, zero_add, Nat.cast_add]
      rw [hwrap] at hsm
      by_cases he : t.w + 1 = t.samples
      · rw [if_pos he] at hsm
        exact ⟨congrArg (fun p => p.2.1) hsm, (congrArg Prod.fst hsm).trans (c1 he).symm⟩
      · rw [if_neg he] at hsm
        exact ⟨congrArg (fun p => p.2.1) hsm, (congrArg Prod.fst hsm).trans (c2 he).symm⟩

theorem gets_cons {V : Type} (op : Op V) (ops : List (Op V)) :
    gets (op :: ops) = gets [op] + gets ops := by
  cases op <;> simp only [gets] <;> omega

/-- The counter after a sequence of calls that completes. -/
theorem run_counter {V : Type} (env : Env) (ops : List (Op V)) (t t' : T V) (g : Int)
    (h1 : 1 ≤ t.samples) (h2 : t.samples < 2 ^ 63) (hw : t.w = g % t.samples)
    (hrun : run env t ops = some t') :
    t'.samples = t.samples ∧ t'.w = (g + (gets ops : Int)) % t.samples := by
  induction ops generalizing t g with
  | nil =>
    cases hrun
    exact ⟨rfl, by simp only [gets, Nat.cast_zero, add_zero, hw]⟩
  | cons op ops ih =>
    rw [run_cons] at hrun
    cases hs : step env t op with
    | none =>
      rw [hs] at hrun
      cases hrun
    | some t1 =>
      rw [hs] at hrun
      obtain ⟨a, b⟩ := step_counter env op g h1 h2 hw hs
      rw [← a] at b h1 h2
      obtain ⟨c, d⟩ := ih t1 (g + (gets [op] : Int)) h1 h2 b hrun
      rw [a] at c d
      refine ⟨c, ?_⟩
      have e := gets_cons op ops
      rw [d, e]
      push_cast
      rw [add_assoc]
/-- C16: for `1 ≤ samples` (and `samples` a Go `int`), after every sequence of calls on
`New(size, samples)` that completes and contains `n` calls of `Get`, the counter `w` is
`n mod samples`, so `0 ≤ w < samples`.  A `Set` and a `Del` leave `w` and `samples` unchanged
and reset nothing: `Del` leaves the sketch and the doorkeeper as they are, `Set` adds at most
one key hash to the sketch and asks the doorkeeper at most one question.  The next `Get`, which
is the `Get` number `n + 1`, resets the sketch and the doorkeeper exactly when `samples`
divides `n + 1`, and then adds the hash of its own key to the sketch after the reset; otherwise
it adds the hash to the sketch as it is, leaves the doorkeeper and advances `w` by one. -/
theorem C16_sample_counter {V : Type} (env : Env) (size samples : Int) (ops : List (Op V))
    (t : T V) (h1 : 1 ≤ samples) (h2 : samples < 2 ^ 63)
    (hrun : run env (New env size samples) ops = some t) :
    t.samples = samples ∧ t.w = (gets ops : Int) % samples ∧ 0 ≤ t.w ∧ t.w < samples ∧
    (∀ n t', T.Set env t n = some t' →
      t'.w = t.w ∧ t'.samples = t.samples ∧
      (t'.countSketch = t.countSketch ∨
        ∃ keyh, t'.countSketch = cm4.add env t.countSketch keyh) ∧
      (t'.bouncer = t.bouncer ∨
        ∃ keyh, t'.bouncer = (doorkeeper.allow env t.bouncer keyh).1)) ∧
    (∀ key t', T.Del t key = some t' →
      t'.w = t.w ∧ t'.samples = t.samples ∧ t'.countSketch = t.countSketch ∧
        t'.bouncer = t.bouncer) ∧
    (∀ key now t' r, T.Get env t key now = some (t', r) →
      t'.samples = t.samples ∧
      if ((gets ops : Int) + 1) % samples = 0 then
        t'.w = 0 ∧
        t'.countSketch = cm4.add env (cm4.reset t.countSketch) (env.Sum64String key) ∧
        t'.bouncer = doorkeeper.reset t.bouncer
      else
        t'.w = t.w + 1 ∧
        t'.countSketch = cm4.add env t.countSketch (env.Sum64String key) ∧
        t'.bouncer = t.bouncer) := by
  have hs0 : (New (V := V) env size samples).samples = samples := rfl
  have hw0 : (New (V := V) env size samples).w = 0 % (New (V := V) env size samples).samples :=
    (Int.zero_emod _).symm
  obtain ⟨hs, hw⟩ := run_counter env ops _ t 0 (by rw [hs0]; exact h1) (by rw [hs0]; exact h2)
    hw0 hrun
  rw [hs0] at hs hw
  rw [zero_add] at hw
  have hn : 0 ≤ t.w := by rw [hw]; exact Int.emod_nonneg _ (by omega)
  have hl : t.w < samples := by rw [hw]; exact Int.emod_lt_of_pos _ (by omega)
  refine ⟨hs, hw, hn, hl, fun n t' hset => T.Set_sampling env hset, ?_, ?_⟩
  · intro key t' hdel
    have := T.Del_sampling hdel
    exact ⟨congrArg Prod.fst this, congrArg (fun p => p.2.1) this,
      congrArg (fun p => p.2.2.1) this, congrArg (fun p => p.2.2.2) this⟩
  · intro key now t' r hget
    have hsm := T.Get_sampling env hget
    have hwrap : wrapInt (t.w + 1) = t.w + 1 := wrapInt_small _ (by omega) (by omega)
    obtain ⟨c1, c2⟩ := counter_succ t.w (gets ops) samples h1 hw
    rw [hwrap, hs] at hsm
    by_cases he : t.w + 1 = samples
    · rw [if_pos he] at hsm
      rw [if_pos (c1 he)]
      exact ⟨(congrArg (fun p => p.2.1) hsm).trans hs.symm, congrArg Prod.fst hsm,
        congrArg (fun p => p.2.2.1) hsm, congrArg (fun p => p.2.2.2) hsm⟩
    · rw [if_neg he] at hsm
      have hne : ¬ ((gets ops : Int) + 1) % samples = 0 := by
        rw [c2 he]
        omega
      rw [if_neg hne]
      exact ⟨(congrArg (fun p => p.2.1) hsm).trans hs.symm, congrArg Prod.fst hsm,
        congrArg (fun p => p.2.2.1) hsm, congrArg (fun p => p.2.2.2) hsm⟩

/-- C16 at `New(3, 2)`: after three `Get` calls among `Set` and `Del` calls the counter is
`3 mod 2 = 1`, and the next `Get` is number 4, at which the sketch and the doorkeeper are
reset. -/
theorem C16_sample_counter_witness :
    (1 : Int) ≤ 2 ∧ (2 : Int) < 2 ^ 63 ∧
    (run sampleEnv (New (V := Nat) sampleEnv 3 2)
        [Op.Get "a" 0, Op.Set "a" 1 0 none, Op.Get "a" 0, Op.Del "a", Op.Set "bb" 2 0 none,
          Op.Get "zz" 0]).map (fun t => t.w) = some 1 ∧
    ∃ t : T Nat, run sampleEnv (New sampleEnv 3 2)
        [Op.Get "a" 0, Op.Set "a" 1 0 none, Op.Get "a" 0, Op.Del "a", Op.Set "bb" 2 0 none,
          Op.Get "zz" 0] = some t ∧
      t.samples = 2 ∧
      t.w = (gets [Op.Get "a" 0, Op.Set "a" (1 : Nat) 0 none, Op.Get "a" 0, Op.Del "a",
        Op.Set "bb" 2 0 none, Op.Get "zz" 0] : Int) % 2 ∧ 0 ≤ t.w ∧ t.w < 2 ∧
      (∀ n t', T.Set sampleEnv t n = some t' →
        t'.w = t.w ∧ t'.samples = t.samples ∧
        (t'.countSketch = t.countSketch ∨
          ∃ keyh, t'.countSketch = cm4.add sampleEnv t.countSketch keyh) ∧
        (t'.bouncer = t.bouncer ∨
          ∃ keyh, t'.bouncer = (doorkeeper.allow sampleEnv t.bouncer keyh).1)) ∧
      (∀ key t', T.Del t key = some t' →
        t'.w = t.w ∧ t'.samples = t.samples ∧ t'.countSketch = t.countSketch ∧
          t'.bouncer = t.bouncer) ∧
      (∀ key now t' r, T.Get sampleEnv t key now = some (t', r) →
        t'.samples = t.samples ∧
        if ((gets [Op.Get "a" 0, Op.Set "a" (1 : Nat) 0 none, Op.Get "a" 0, Op.Del "a",
            Op.Set "bb" 2 0 none, Op.Get "zz" 0] : Int) + 1) % 2 = 0 then
          t'.w = 0 ∧
          t'.countSketch = cm4.add sampleEnv (cm4.reset t.countSketch)
            (sampleEnv.Sum64String key) ∧
          t'.bouncer = doorkeeper.reset t.bouncer
        else
          t'.w = t.w + 1 ∧
          t'.countSketch = cm4.add sampleEnv t.countSketch (sampleEnv.Sum64String key) ∧
          t'.bouncer = t.bouncer) := by
  have hsome : (run sampleEnv (New (V := Nat) sampleEnv 3 2)
      [Op.Get "a" 0, Op.Set "a" 1 0 none, Op.Get "a" 0, Op.Del "a", Op.Set "bb" 2 0 none,
        Op.Get "zz" 0]).isSome = true := by decide
  obtain ⟨t, ht⟩ := Option.isSome_iff_exists.1 hsome
  exact ⟨by decide, by decide, by decide, t, ht,
    C16_sample_counter sampleEnv 3 2 _ t (by decide) (by decide) ht⟩

/-! ## The CM4 sketch -/

theorem nvec.shift_cases (i : Nat) : i % 2 * 4 = 0 ∨ i % 2 * 4 = 4 := by omega

theorem nvec.get_le (n : nvec) (i : Nat) : nvec.get n i ≤ 15 := by
  simp only [nvec.get]
  omega

theorem nvec.inc_saturated (n : nvec) (i : Nat) (h : nvec.get n i = 15) : nvec.inc n i = n := by
  simp only [nvec.inc, h, Nat.lt_irrefl, if_false]

theorem nvec.length_inc (n : nvec) (i : Nat) : (nvec.inc n i).length = n.length := by
  simp only [nvec.inc]
  split
  · exact List.length_set _ _ _
  · rfl

/-- One byte under an increment of one of its two counters. -/
theorem nvec.byte_inc (b s s' : Nat) (hs : s = 0 ∨ s = 4) (hs' : s' = 0 ∨ s' = 4)
    (hlt : (b >>> s) % 16 < 15) :
    (((b + (1 <<< s)) % 256) >>> s') % 16 = if s' = s then (b >>> s) % 16 + 1 else (b >>> s') % 16 := by
  rcases hs with rfl | rfl <;> rcases hs' with rfl | rfl <;>
    simp only [Nat.shiftRight_eq_div_pow, Nat.shiftLeft_eq] at hlt ⊢ <;>
    norm_num at hlt ⊢ <;> omega

set_option maxRecDepth 100000 in
theorem nvec.byte_reset_small : ∀ r, r < 256 →
    (((r / 2) &&& 0x77) >>> 0) % 16 = ((r >>> 0) % 16) / 2 ∧
    (((r / 2) &&& 0x77) >>> 4) % 16 = ((r >>> 4) % 16) / 2 := by
  decide

/-- One byte under `reset`. -/
theorem nvec.byte_reset (b s : Nat) (hs : s = 0 ∨ s = 4) :
    (((b >>> 1) &&& 0x77) >>> s) % 16 = ((b >>> s) % 16) / 2 := by
  have small : ∀ r, r < 256 → ∀ s, s = 0 ∨ s = 4 →
      (((r / 2) &&& 0x77) >>> s) % 16 = ((r >>> s) % 16) / 2 := by
    intro r hr s hs
    rcases hs with rfl | rfl
    · exact (nvec.byte_reset_small r hr).1
    · exact (nvec.byte_reset_small r hr).2
  have hmask : (b >>> 1) &&& 0x77 = ((b % 256) / 2) &&& 0x77 := by
    have h1 : (0x77 : Nat) = 0x7f &&& 0x77 := by decide
    have h2 : ∀ x : Nat, x &&& 0x7f = x % 128 := fun x =>
      Nat.and_pow_two_sub_one_eq_mod x 7
    rw [h1, ← Nat.and_assoc, ← Nat.and_assoc, h2, h2, Nat.shiftRight_eq_div_pow]
    have : b / 2 ^ 1 % 128 = b % 256 / 2 % 128 := by omega
    rw [this]
  rw [hmask, small (b % 256) (Nat.mod_lt _ (by decide)) s hs]
  rcases hs with rfl | rfl <;> simp only [Nat.shiftRight_eq_div_pow] <;> omega
theorem nvec.getD_set (l : List Nat) (k m a : Nat) :
    (l.set k a).getD m 0 = if k = m ∧ k < l.length then a else l.getD m 0 := by
  simp only [List.getD_eq_getElem?_getD, List.getElem?_set]
  by_cases h1 : k = m
  · subst h1
    by_cases h2 : k < l.length
    · simp [h2]
    · simp [h2, List.getElem?_eq_none (Nat.le_of_not_lt h2)]
  · simp [h1]

/-- An increment adds one to its counter, up to 15. -/
theorem nvec.get_inc_same (n : nvec) (i : Nat) (hi : i / 2 < n.length) :
    nvec.get (nvec.inc n i) i = min (nvec.get n i + 1) 15 := by
  have hle := nvec.get_le n i
  by_cases hlt : nvec.get n i < 15
  · have hb := nvec.byte_inc (n.getD (i / 2) 0) (i % 2 * 4) (i % 2 * 4)
      (nvec.shift_cases i) (nvec.shift_cases i) hlt
    rw [if_pos rfl] at hb
    simp only [nvec.inc, hlt, if_true]
    rw [Nat.min_eq_left (by omega)]
    simp only [nvec.get, nvec.getD_set, hi, and_self, if_true]
    exact hb
  · have h15 : nvec.get n i = 15 := by omega
    rw [nvec.inc_saturated n i h15, h15]
    rfl

/-- An increment leaves every other counter, the one in the same byte included. -/
theorem nvec.get_inc_other (n : nvec) (i j : Nat) (hij : i ≠ j) :
    nvec.get (nvec.inc n i) j = nvec.get n j := by
  by_cases hlt : nvec.get n i < 15
  · simp only [nvec.inc, hlt, if_true]
    simp only [nvec.get, nvec.getD_set]
    by_cases hk : i / 2 = j / 2 ∧ i / 2 < n.length
    · rw [if_pos hk]
      have hb := nvec.byte_inc (n.getD (i / 2) 0) (i % 2 * 4) (j % 2 * 4)
        (nvec.shift_cases i) (nvec.shift_cases j) hlt
      have hne : ¬ j % 2 * 4 = i % 2 * 4 := by omega
      rw [if_neg hne] at hb
      rw [hb, hk.1]
    · rw [if_neg hk]
  · have hle := nvec.get_le n i
    rw [nvec.inc_saturated n i (by omega)]

/-- After `reset` every counter is half of what it was, rounded down. -/
theorem nvec.get_reset (n : nvec) (i : Nat) :
    nvec.get (nvec.reset n) i = nvec.get n i / 2 := by
  have hmap : (n.map (fun b => (b >>> 1) &&& 0x77)).getD (i / 2) 0
      = ((n.getD (i / 2) 0) >>> 1) &&& 0x77 := by
    simp only [List.getD_eq_getElem?_getD, List.getElem?_map]
    cases n[i / 2]? <;> rfl
  simp only [nvec.get, nvec.reset, hmap]
  exact nvec.byte_reset _ _ (nvec.shift_cases i)

theorem nvec.length_reset (n : nvec) : (nvec.reset n).length = n.length := by
  simp only [nvec.reset, List.length_map]
theorem nextPowerOfTwoAux_le (n fuel p : Nat) : p ≤ nextPowerOfTwoAux n fuel p := by
  induction fuel generalizing p with
  | zero => exact Nat.le_refl p
  | succ fuel ih =>
    simp only [nextPowerOfTwoAux]
    split
    · exact Nat.le_refl p
    · exact Nat.le_trans (by omega) (ih (2 * p))

theorem nextPowerOfTwo_pos (n : Nat) : 1 ≤ nextPowerOfTwo n :=
  nextPowerOfTwoAux_le n n 1

/-- Repeated increments of one counter. -/
theorem nvec.get_iterate_inc (r : nvec) (p n : Nat) (hp : p / 2 < r.length) :
    ((fun x => nvec.inc x p)^[n] r).length = r.length ∧
    nvec.get ((fun x => nvec.inc x p)^[n] r) p = min (nvec.get r p + n) 15 := by
  induction n with
  | zero =>
    have := nvec.get_le r p
    exact ⟨rfl, by simp only [Function.iterate_zero, id_eq, add_zero]; omega⟩
  | succ n ih =>
    obtain ⟨h1, h2⟩ := ih
    rw [Function.iterate_succ_apply']
    refine ⟨by rw [nvec.length_inc, h1], ?_⟩
    rw [nvec.get_inc_same _ _ (by rw [h1]; exact hp), h2]
    omega

/-- Repeated `add` of one key hash on a sketch of four rows works row by row. -/
theorem cm4.iterate_add (env : Env) (m : Nat) (r0 r1 r2 r3 : nvec) (h n : Nat) :
    (fun c => cm4.add env c h)^[n] { s := [r0, r1, r2, r3], mask := m } =
      { s := [(fun x => nvec.inc x (env.rowIndex 0 h % (m + 1)))^[n] r0,
              (fun x => nvec.inc x (env.rowIndex 1 h % (m + 1)))^[n] r1,
              (fun x => nvec.inc x (env.rowIndex 2 h % (m + 1)))^[n] r2,
              (fun x => nvec.inc x (env.rowIndex 3 h % (m + 1)))^[n] r3],
        mask := m } := by
  induction n generalizing r0 r1 r2 r3 with
  | zero => rfl
  | succ n ih =>
    rw [Function.iterate_succ_apply]
    have : cm4.add env { s := [r0, r1, r2, r3], mask := m } h =
        { s := [nvec.inc r0 (env.rowIndex 0 h % (m + 1)),
                nvec.inc r1 (env.rowIndex 1 h % (m + 1)),
                nvec.inc r2 (env.rowIndex 2 h % (m + 1)),
                nvec.inc r3 (env.rowIndex 3 h % (m + 1))], mask := m } := rfl
    rw [this, ih]
    simp only [Function.iterate_succ_apply]

/-- The estimate on a sketch of four rows. -/
theorem cm4.estimate_rows (env : Env) (m : Nat) (r0 r1 r2 r3 : nvec) (h : Nat) :
    cm4.estimate env { s := [r0, r1, r2, r3], mask := m } h =
      min (min (min (min 255 (nvec.get r0 (env.rowIndex 0 h % (m + 1))))
        (nvec.get r1 (env.rowIndex 1 h % (m + 1))))
        (nvec.get r2 (env.rowIndex 2 h % (m + 1))))
        (nvec.get r3 (env.rowIndex 3 h % (m + 1))) := rfl

/-- On a fresh sketch, `n` calls of `add` of one key hash give the estimate `min(n, 15)`. -/
theorem cm4.estimate_iterate_add (env : Env) (w : Int) (h n : Nat) :
    cm4.estimate env ((fun c => cm4.add env c h)^[n] (newCM4 w)) h = min n 15 := by
  have hpos := nextPowerOfTwo_pos w.toNat
  have hnew : newCM4 w = { s := [newNvec (nextPowerOfTwo w.toNat),
      newNvec (nextPowerOfTwo w.toNat), newNvec (nextPowerOfTwo w.toNat),
      newNvec (nextPowerOfTwo w.toNat)], mask := nextPowerOfTwo w.toNat - 1 } := rfl
  have hlen : (newNvec (nextPowerOfTwo w.toNat)).length = (nextPowerOfTwo w.toNat + 1) / 2 :=
    List.length_replicate _ _
  have hrow : ∀ i, nvec.get ((fun x => nvec.inc x
      (env.rowIndex i h % (nextPowerOfTwo w.toNat - 1 + 1)))^[n]
        (newNvec (nextPowerOfTwo w.toNat)))
      (env.rowIndex i h % (nextPowerOfTwo w.toNat - 1 + 1)) = min n 15 := by
    intro i
    have hlt : env.rowIndex i h % (nextPowerOfTwo w.toNat - 1 + 1)
        < nextPowerOfTwo w.toNat - 1 + 1 := Nat.mod_lt _ (Nat.succ_pos _)
    have := (nvec.get_iterate_inc (newNvec (nextPowerOfTwo w.toNat))
      (env.rowIndex i h % (nextPowerOfTwo w.toNat - 1 + 1)) n (by rw [hlen]; omega)).2
    rw [this, nvec.get_newNvec, zero_add]
  rw [hnew, cm4.iterate_add, cm4.estimate_rows, hrow 0, hrow 1, hrow 2, hrow 3]
  omega
/-- On a sketch of four rows, `reset` halves the estimate of every key hash. -/
theorem cm4.estimate_reset (env : Env) (c : cm4) (h : Nat) (hc : c.s.length = depth) :
    cm4.estimate env (cm4.reset c) h = cm4.estimate env c h / 2 := by
  obtain ⟨s, m⟩ := c
  rcases s with _ | ⟨r0, _ | ⟨r1, _ | ⟨r2, _ | ⟨r3, _ | ⟨r4, s⟩⟩⟩⟩⟩ <;>
    simp only [depth, List.length_nil, List.length_cons] at hc <;> try omega
  have hr : cm4.reset { s := [r0, r1, r2, r3], mask := m } =
      { s := [nvec.reset r0, nvec.reset r1, nvec.reset r2, nvec.reset r3], mask := m } := rfl
  rw [hr, cm4.estimate_rows, cm4.estimate_rows, nvec.get_reset, nvec.get_reset, nvec.get_reset,
    nvec.get_reset]
  have h0 := nvec.get_le r0 (env.rowIndex 0 h % (m + 1))
  have h1 := nvec.get_le r1 (env.rowIndex 1 h % (m + 1))
  have h2 := nvec.get_le r2 (env.rowIndex 2 h % (m + 1))
  have h3 := nvec.get_le r3 (env.rowIndex 3 h % (m + 1))
  omega

/-! ## C18: the saturating count -/

/-- C18: on a fresh sketch of width `w ≥ 2`, for every key hash `h` and every `n`, after `n`
consecutive calls `add(h)` the estimate of `h` is `min(n, 15)`; in a counter vector, a counter
that has reached 15 is left at 15 by `inc` (the vector is unchanged), an `inc` of a counter
that exists adds one up to 15, and an `inc` of counter `i` leaves every other counter `j`,
the one packed in the same byte included. -/
theorem C18_saturating_count (env : Env) (w : Int) (h n : Nat) (nv : nvec) (i j : Nat)
    (_hw : 2 ≤ w) (hij : i ≠ j) :
    cm4.estimate env ((fun c => cm4.add env c h)^[n] (newCM4 w)) h = min n 15 ∧
    (nvec.get nv i = 15 → nvec.inc nv i = nv ∧ nvec.get (nvec.inc nv i) i = 15) ∧
    (i / 2 < nv.length → nvec.get (nvec.inc nv i) i = min (nvec.get nv i + 1) 15) ∧
    nvec.get (nvec.inc nv i) j = nvec.get nv j := by
  refine ⟨cm4.estimate_iterate_add env w h n, ?_, nvec.get_inc_same nv i,
    nvec.get_inc_other nv i j hij⟩
  intro h15
  have := nvec.inc_saturated nv i h15
  exact ⟨this, by rw [this, h15]⟩

/-- C18 on a fresh sketch of width 8 after 17 calls `add(0x0ddc0ffeebadf00d)`, and on the
byte `0xf1` whose high counter is saturated. -/
theorem C18_saturating_count_witness :
    (2 : Int) ≤ 8 ∧ (1 : Nat) ≠ 0 ∧
    cm4.estimate sampleEnv ((fun c => cm4.add sampleEnv c 0x0ddc0ffeebadf00d)^[17] (newCM4 8))
      0x0ddc0ffeebadf00d = min 17 15 ∧
    (nvec.get [0xf1] 1 = 15 → nvec.inc [0xf1] 1 = [0xf1] ∧ nvec.get (nvec.inc [0xf1] 1) 1 = 15) ∧
    (1 / 2 < ([0xf1] : nvec).length →
      nvec.get (nvec.inc [0xf1] 1) 1 = min (nvec.get [0xf1] 1 + 1) 15) ∧
    nvec.get (nvec.inc [0xf1] 1) 0 = nvec.get [0xf1] 0 :=
  ⟨by decide, by decide,
    C18_saturating_count sampleEnv 8 0x0ddc0ffeebadf00d 17 [0xf1] 1 0 (by decide) (by decide)⟩

/-! ## C19: `reset` halves every counter -/

/-- C19: for every counter vector, after `reset` each 4-bit counter is the floor of half its
previous value, whichever half of its byte it occupies, so every counter stays within
`[0, 15]` and the vector keeps its length; the byte `0xf1` becomes `0x70`; and on every sketch
of `depth` rows `reset` halves the estimate of every key hash, so an estimate of 15
becomes 7. -/
theorem C19_reset_halves (env : Env) (c : cm4) (h : Nat) (nv : nvec) (i : Nat)
    (hrows : c.s.length = depth) :
    nvec.get (nvec.reset nv) i = nvec.get nv i / 2 ∧
    nvec.get (nvec.reset nv) i ≤ 15 ∧
    (nvec.reset nv).length = nv.length ∧
    nvec.reset [0xf1] = [0x70] ∧
    cm4.estimate env (cm4.reset c) h = cm4.estimate env c h / 2 ∧
    (cm4.estimate env c h = 15 → cm4.estimate env (cm4.reset c) h = 7) := by
  refine ⟨nvec.get_reset nv i, nvec.get_le _ _, nvec.length_reset nv, by decide,
    cm4.estimate_reset env c h hrows, ?_⟩
  intro h15
  rw [cm4.estimate_reset env c h hrows, h15]

set_option maxRecDepth 100000 in
/-- C19 on the sketch of width 8 after 17 calls `add(0x0ddc0ffeebadf00d)` (estimate 15,
after `reset` 7) and on the vector `[0xf1]`, high counter. -/
theorem C19_reset_halves_witness :
    ((fun c => cm4.add sampleEnv c 0x0ddc0ffeebadf00d)^[17] (newCM4 8)).s.length = depth ∧
    cm4.estimate sampleEnv ((fun c => cm4.add sampleEnv c 0x0ddc0ffeebadf00d)^[17] (newCM4 8))
      0x0ddc0ffeebadf00d = 15 ∧
    nvec.get (nvec.reset [0xf1]) 1 = nvec.get [0xf1] 1 / 2 ∧
    nvec.get (nvec.reset [0xf1]) 1 ≤ 15 ∧
    (nvec.reset [0xf1]).length = ([0xf1] : nvec).length ∧
    nvec.reset [0xf1] = [0x70] ∧
    cm4.estimate sampleEnv
        (cm4.reset ((fun c => cm4.add sampleEnv c 0x0ddc0ffeebadf00d)^[17] (newCM4 8)))
        0x0ddc0ffeebadf00d
      = cm4.estimate sampleEnv
          ((fun c => cm4.add sampleEnv c 0x0ddc0ffeebadf00d)^[17] (newCM4 8))
          0x0ddc0ffeebadf00d / 2 ∧
    (cm4.estimate sampleEnv ((fun c => cm4.add sampleEnv c 0x0ddc0ffeebadf00d)^[17] (newCM4 8))
        0x0ddc0ffeebadf00d = 15 →
      cm4.estimate sampleEnv
        (cm4.reset ((fun c => cm4.add sampleEnv c 0x0ddc0ffeebadf00d)^[17] (newCM4 8)))
        0x0ddc0ffeebadf00d = 7) :=
  ⟨by decide, by decide,
    C19_reset_halves sampleEnv
      ((fun c => cm4.add sampleEnv c 0x0ddc0ffeebadf00d)^[17] (newCM4 8))
      0x0ddc0ffeebadf00d [0xf1] 1 (by decide)⟩

end tinylfu
